import Mathlib

/-!
Verification development for the control-rig-tools add-on
(`src/core/switches.py`, `src/utils/helpers.py`, `src/operators/__init__.py`).

The Python code manipulates Blender data (pose bones, constraints, drivers,
custom properties).  We shallow-embed the relevant state as plain Lean data:

* a custom-property table is an insertion-ordered association list
  (Python dicts preserve insertion order and have unique keys);
* a constraint is a record of the fields the code reads/writes
  (`type`, `name`, `subtarget`, owner/target space, `mute`);
* a driver is a record of its data path, its variables (name + target data
  path) and its scripted expression;
* an armature holds the list of pose bones plus `animation_data.drivers`
  (`none` models `animation_data is None`).

Numeric property values are modelled as rationals (the code only stores,
copies and compares them to 0/1; no float rounding is relevant).
Host mutation primitives are modelled as total in the main embedding
(Blender does not fail them on well-formed data); a separate
exception-flow embedding, parameterised by which primitive kinds fail,
mirrors the `try`/`except` placement of the source for the error-handling
claim.
-/

namespace ControlRigTools

/-- Value of a Blender custom property: the code distinguishes strings
(`isinstance(raw, str)`) from numeric values (`isinstance(value, (float, int))`). -/
inductive PVal where
  | str (s : String)
  | num (q : ℚ)
deriving DecidableEq, Repr

/-- Custom-property table of a pose bone: insertion-ordered key/value list,
modelling a Python dict (unique keys, insertion order preserved). -/
abbrev Props := List (String × PVal)

/-- Python `d.get(k)`: first value stored under `k`, if any. -/
def Props.get (ps : Props) (k : String) : Option PVal :=
  (ps.find? (fun kv => kv.1 = k)).map (fun kv => kv.2)

/-- Python `k in d.keys()`. -/
def Props.hasKey (ps : Props) (k : String) : Bool :=
  ps.any (fun kv => kv.1 = k)

/-- Python `d[k] = v`: update in place if the key exists, else append. -/
def Props.set (ps : Props) (k : String) (v : PVal) : Props :=
  if ps.hasKey k then ps.map (fun kv => if kv.1 = k then (k, v) else kv)
  else ps ++ [(k, v)]

/-- Python `del d[k]` (the caller checks presence; on a dict there is at most
one entry per key). -/
def Props.del (ps : Props) (k : String) : Props :=
  ps.filter (fun kv => kv.1 ≠ k)

/-- Python `d.keys()`. -/
def Props.keys (ps : Props) : List String :=
  ps.map (fun kv => kv.1)

/-- COPY_TRANSFORMS constraint on a pose bone, with the fields the code
reads and writes.  The constraint target is always the armature object
itself, so it is not carried in the record. -/
structure Constraint where
  ctype : String
  name : String
  subtarget : String
  ownerSpace : String
  targetSpace : String
  mute : Bool
deriving DecidableEq, Repr

/-- Scripted-driver expressions generated by the code.  Each constructor
records one of the expression strings the Python code builds:
`var i` is `"var{i}"`; `sel i` is
`"var{i} if (var0==0 and ... and var{i-1}==0) else 0"`;
`inv e` is `"1 - ({e})"`. -/
inductive DExpr where
  | var (i : Nat)
  | sel (i : Nat)
  | inv (e : DExpr)
deriving DecidableEq, Repr

/-- Evaluation of a generated expression under an assignment `v` of values
to the driver variables `var0, var1, ...` (Python semantics of the
expression strings above). -/
def DExpr.eval (v : Nat → ℚ) : DExpr → ℚ
  | .var i => v i
  | .sel i => if (List.range i).all (fun j => decide (v j = 0)) then v i else 0
  | .inv e => 1 - e.eval v

/-- Driver variable (`SINGLE_PROP` targeting the armature): its name and the
target data path. -/
structure DriverVar where
  name : String
  dataPath : String
deriving DecidableEq, Repr

/-- Scripted driver stored in `armature.animation_data.drivers`: the fcurve
data path, the variables, and the expression.  `driver.type` is always set
to `'SCRIPTED'` by the code and is not carried. -/
structure Driver where
  dataPath : String
  vars : List DriverVar
  expr : DExpr
deriving DecidableEq, Repr

/-- Pose bone: its name, its custom properties and its constraint stack. -/
structure PoseBone where
  name : String
  props : Props
  constraints : List Constraint
deriving DecidableEq, Repr

/-- Armature object: pose bones plus `animation_data` (`none` models
`animation_data is None`; drivers live in `animation_data.drivers`). -/
structure Armature where
  bones : List PoseBone
  animationData : Option (List Driver)
deriving DecidableEq, Repr

/-- Blender `pose.bones.get(name)`: bone names are unique in Blender, so the
first match is the bone. -/
def Armature.findBone (a : Armature) (n : String) : Option PoseBone :=
  a.bones.find? (fun b => b.name = n)

/-! ### Character-level models of the Python string primitives

`_parse_bone_switches` uses `raw.split(";")`, `p.strip()` and
`";".join(parts)`.  We model them over `List Char` so that their algebra
(round-trips) is provable. -/

/-- Python `raw.split(";")` on the character list: split at every `';'`,
keeping empty parts (`"".split(";") == [""]`). -/
def splitSemis : List Char → List (List Char)
  | [] => [[]]
  | c :: rest =>
    if c = ';' then [] :: splitSemis rest
    else
      match splitSemis rest with
      | [] => [[c]]
      | h :: t => (c :: h) :: t

/-- Python `";".join(parts)` on character lists. -/
def joinSemis : List (List Char) → List Char
  | [] => []
  | [l] => l
  | l :: rest => l ++ ';' :: joinSemis rest

/-- Python `p.strip()`: drop whitespace from both ends. -/
def stripChars (cs : List Char) : List Char :=
  (cs.dropWhile Char.isWhitespace).rdropWhile Char.isWhitespace

/-- String-level Python `raw.split(";")`. -/
def pySplitSemi (s : String) : List String :=
  (splitSemis s.data).map String.mk

/-- String-level Python `p.strip()`. -/
def pyStrip (s : String) : String :=
  String.mk (stripChars s.data)

/-- String-level Python `";".join(parts)`. -/
def pyJoinSemi (parts : List String) : String :=
  String.mk (joinSemis (parts.map String.data))

/-- Python `s.startswith(pre)`, computed on the character lists. -/
def pyStartsWith (s pre : String) : Bool :=
  pre.data.isPrefixOf s.data

/-- Python `s.endswith(suffix)`, computed on the character lists. -/
def pyEndsWith (s suffix : String) : Bool :=
  suffix.data.isSuffixOf s.data

/-- Python `str(raw)` for the non-string custom-property fallback in
`_parse_bone_switches`.  Rationals print without semicolons or spaces. -/
def pvalStr : PVal → String
  | .str s => s
  | .num q => toString q

/-! ### Bone/switch metadata (`src/core/switches.py` lines 57-85) -/

/-- The list comprehension
`[p.strip() for p in raw.split(";") if p.strip()]`. -/
def parseParts (raw : String) : List String :=
  ((pySplitSemi raw).map pyStrip).filter (fun p => p ≠ "")

/-- Model of `_parse_bone_switches`: read the `control_rig_tools` custom
property; `None` gives `[]`; a string is split on `';'`, each part stripped,
empty parts dropped; any other value falls back to `[str(raw)]`. -/
def parseBoneSwitches (pb : PoseBone) : List String :=
  match pb.props.get "control_rig_tools" with
  | none => []
  | some (.str raw) => parseParts raw
  | some v => [pvalStr v]

/-- Well-formedness of a stored switch-name part: stripping is the identity,
the name is nonempty, and it contains no `';'`.  Every part produced by
`parseParts` has this shape. -/
def wfPart (p : String) : Prop :=
  stripChars p.data = p.data ∧ p.data ≠ [] ∧ ';' ∉ p.data

/-- Model of `_add_switch_to_bone`: append `switchName` to the parsed list
unless already present, and store the `';'`-join back in the property.
The host property write cannot fail in the total model, so the
`try`/`except` wrapper is the identity. -/
def addSwitchToBone (pb : PoseBone) (switchName : String) : PoseBone :=
  let existing := parseBoneSwitches pb
  if switchName ∈ existing then pb
  else
    { pb with
      props := pb.props.set "control_rig_tools"
        (.str (pyJoinSemi (existing ++ [switchName]))) }

/-- Model of `bone_has_switch`. -/
def boneHasSwitch (pb : PoseBone) (switchName : String) : Bool :=
  switchName ∈ parseBoneSwitches pb

/-! ### Validators and CTRL_Settings properties
(`src/core/switches.py` lines 16-47) -/

/-- Model of the host object held by a Blender context: its `type` string and
(meaningful when the type is `"ARMATURE"`) the armature state. -/
structure HostObject where
  otype : String
  armature : Armature
deriving Repr

/-- Model of `bpy.types.Context`: only `context.object` is read. -/
structure Context where
  obj : Option HostObject
deriving Repr

/-- Model of `get_active_armature`: raise `ValueError` when the context
object is absent or not an armature, else return the object. -/
def get_active_armature (ctx : Context) : Except String HostObject :=
  match ctx.obj with
  | none => .error "Select an Armature object to use these tools."
  | some o =>
    if o.otype ≠ "ARMATURE" then
      .error "Select an Armature object to use these tools."
    else .ok o

/-- Model of `get_control_settings_pose_bone`: raise `ValueError` when no
pose bone is named `"CTRL_Settings"`, else return that bone. -/
def get_control_settings_pose_bone (a : Armature) : Except String PoseBone :=
  match a.findBone "CTRL_Settings" with
  | none => .error "Armature must contain a pose bone named CTRL_Settings."
  | some pb => .ok pb

/-- Python dict assignment on the accumulating `switches` dict of
`list_switches` (overwrite in place, else append). -/
def qdictSet (m : List (String × ℚ)) (k : String) (q : ℚ) : List (String × ℚ) :=
  if m.any (fun kv => kv.1 = k) then
    m.map (fun kv => if kv.1 = k then (k, q) else kv)
  else m ++ [(k, q)]

/-- Model of `list_switches`: every custom property of the bone except the
`_RNA_UI` metadata key whose value is numeric, with its value as a number. -/
def list_switches (pb : PoseBone) : List (String × ℚ) :=
  pb.props.foldl
    (fun m kv =>
      if kv.1 = "_RNA_UI" then m
      else
        match kv.2 with
        | .num q => qdictSet m kv.1 q
        | .str _ => m)
    []

/-- Replace the first bone named `n` in a bone list using `f`. -/
def updFirstNamed (l : List PoseBone) (n : String) (f : PoseBone → PoseBone) :
    List PoseBone :=
  match l with
  | [] => []
  | b :: rest =>
    if b.name = n then f b :: rest else b :: updFirstNamed rest n f

/-- Replace the first pose bone named `n` using `f` (Blender bone names are
unique; property writes land on that bone object). -/
def Armature.updFirstBone (a : Armature) (n : String) (f : PoseBone → PoseBone) :
    Armature :=
  { a with bones := updFirstNamed a.bones n f }

/-- Model of `add_switch_property`: validate CTRL_Settings, do nothing when
the name is already a key, else store `0.0` under the name. -/
def add_switch_property (a : Armature) (name : String) : Except String Armature :=
  match get_control_settings_pose_bone a with
  | .error e => .error e
  | .ok ctrl =>
    if ctrl.props.hasKey name then .ok a
    else .ok (a.updFirstBone "CTRL_Settings"
      (fun pb => { pb with props := pb.props.set name (.num 0) }))

/-! ### Helpers (`src/utils/helpers.py`) -/

/-- Model of `derive_base_name_from_last_underscore` /
`pb.name.rsplit("_", 1)[-1]`: the substring after the last underscore
(the whole name when it has no underscore), computed on the character
list. -/
def lastUnderscorePart (s : String) : String :=
  String.mk ((s.data.reverse.takeWhile (fun c => c ≠ '_')).reverse)

/-- Clamp into `[0, 1]`.  Models the host-enforced `min=0.0, max=1.0` range
of the `CRL_SwitchProxy.value` FloatProperty declared in
`src/operators/__init__.py`. -/
def clamp01 (q : ℚ) : ℚ := max 0 (min 1 q)

/-- Model of `_proxy_value_update` writing the (host-clamped) proxy slider
value back to the CTRL_Settings custom property; all failures are swallowed
by the surrounding `except`, so a missing CTRL_Settings bone is a no-op. -/
def proxy_value_update (a : Armature) (switchName : String) (value : ℚ) :
    Armature :=
  match get_control_settings_pose_bone a with
  | .error _ => a
  | .ok _ =>
    a.updFirstBone "CTRL_Settings"
      (fun pb => { pb with props := pb.props.set switchName (.num (clamp01 value)) })

/-! ### build_rebuild_switches (`src/core/switches.py` lines 129-281) -/

/-- Python `switch_to_bones.setdefault(s, []).append(bone)`: append to the
entry for `s`, creating it at the end when absent (dict insertion order). -/
def stbAdd (m : List (String × List String)) (s : String) (bone : String) :
    List (String × List String) :=
  match m with
  | [] => [(s, [bone])]
  | (k, v) :: rest =>
    if k = s then (k, v ++ [bone]) :: rest else (k, v) :: stbAdd rest s bone

/-- Python `switch_to_bones.get(s, [])`. -/
def stbLookup (m : List (String × List String)) (s : String) : List String :=
  ((m.find? (fun kv => kv.1 = s)).map (fun kv => kv.2)).getD []

/-- The `switch_to_bones` mapping: for each `DEF_` bone, in bone order, its
parsed switches each get the bone name appended to their entry. -/
def buildSwitchToBones (bones : List PoseBone) : List (String × List String) :=
  bones.foldl
    (fun m pb =>
      if pyStartsWith pb.name "DEF_" then
        (parseBoneSwitches pb).foldl (fun m s => stbAdd m s pb.name) m
      else m)
    []

/-- Insertion step of a stable insertion sort: place `x` after every
element `y` with `le y x`. -/
def insertLe {α : Type} (le : α → α → Bool) (x : α) : List α → List α
  | [] => [x]
  | y :: ys => if le y x then y :: insertLe le x ys else x :: y :: ys

/-- Stable ascending sort, modelling Python `sorted`: elements comparing
equal keep their original relative order.  (A stable sort's output is
uniquely determined by the total preorder, so any stable sort models
Python's Timsort.) -/
def pySorted {α : Type} (le : α → α → Bool) (l : List α) : List α :=
  l.foldl (fun acc x => insertLe le x acc) []

/-- `switch_order`: switch names sorted by fewest assigned bones first
(Python `sorted` is stable). -/
def switchOrder (stb : List (String × List String)) : List String :=
  pySorted (fun s t => (stbLookup stb s).length ≤ (stbLookup stb t).length)
    (stb.map (fun kv => kv.1))

/-- `switches_for_bone`: the switches referencing this bone, in priority
order. -/
def boneSfb (stb : List (String × List String)) (order : List String)
    (boneName : String) : List String :=
  order.filter (fun s => (stbLookup stb s).contains boneName)

/-- The match predicate of `_ensure_constraint_unique` and of the reuse
search in `_add_copy_transforms`: same type `COPY_TRANSFORMS`, same name,
same subtarget. -/
def ctMatches (cname targetName : String) (c : Constraint) : Bool :=
  c.ctype = "COPY_TRANSFORMS" && c.name = cname && c.subtarget = targetName

/-- Constraint produced by `constraints.new(type="COPY_TRANSFORMS")` followed
by the name/target/subtarget assignments and the (successful) LOCAL space
assignments of `_add_copy_transforms`. -/
def newCopyTransforms (targetName cname : String) : Constraint :=
  { ctype := "COPY_TRANSFORMS", name := cname, subtarget := targetName,
    ownerSpace := "LOCAL", targetSpace := "LOCAL", mute := false }

/-- Set owner/target space to LOCAL on the first constraint matching the
reuse search (the object `_add_copy_transforms` mutates). -/
def setLocalFirst (cname targetName : String) :
    List Constraint → List Constraint
  | [] => []
  | c :: rest =>
    if ctMatches cname targetName c then
      { c with ownerSpace := "LOCAL", targetSpace := "LOCAL" } :: rest
    else c :: setLocalFirst cname targetName rest

/-- The constraint-stack effect of `_add_copy_transforms`: set the reused
constraint's spaces to LOCAL, or append a fresh constraint. -/
def ctAdd (cs : List Constraint) (targetName cname : String) : List Constraint :=
  match cs.find? (ctMatches cname targetName) with
  | some _ => setLocalFirst cname targetName cs
  | none => cs ++ [newCopyTransforms targetName cname]

/-- Model of `_add_copy_transforms` on a pose bone: reuse the first matching
constraint (updating its spaces), else append a fresh one.  Returns the
updated bone and the constraint object (only its `.name` is used later). -/
def addCopyTransforms (pb : PoseBone) (targetName cname : String) :
    PoseBone × Constraint :=
  ({ pb with constraints := ctAdd pb.constraints targetName cname },
   match pb.constraints.find? (ctMatches cname targetName) with
   | some c => { c with ownerSpace := "LOCAL", targetSpace := "LOCAL" }
   | none => newCopyTransforms targetName cname)

/-- The influence data path
`pose.bones["<bone>"].constraints["<cname>"].influence`. -/
def influencePath (boneName cname : String) : String :=
  "pose.bones[\"" ++ boneName ++ "\"].constraints[\"" ++ cname ++ "\"].influence"

/-- The driver-variable target data path
`pose.bones["CTRL_Settings"]["<switch>"]`. -/
def ctrlPath (sw : String) : String :=
  "pose.bones[\"CTRL_Settings\"][\"" ++ sw ++ "\"]"

/-- The driver variables built for one constraint: one `SINGLE_PROP`
variable `var{idx}` per switch of `switches_for_bone`, in priority order. -/
def buildVars (sfb : List String) : List DriverVar :=
  sfb.enum.map (fun p => { name := "var" ++ toString p.1, dataPath := ctrlPath p.2 })

/-- The `final_expr` of the FK branch: `var0` when the switch is first in
priority order, else `var{idx} if (var0==0 and ... ) else 0`. -/
def mkSelExpr (idx : Nat) : DExpr :=
  if idx = 0 then .var 0 else .sel idx

/-- One removal-plus-`driver_add` round on `animation_data`: when
`animation_data` exists, every driver at `path` is removed; `driver_add`
then creates `animation_data` if needed and appends the freshly configured
driver. -/
def driverStep (ad : Option (List Driver)) (path : String) (d : Driver) :
    Option (List Driver) :=
  let ds :=
    match ad with
    | none => []
    | some ds => ds.filter (fun dr => dr.dataPath ≠ path)
  some (ds ++ [d])

/-- The driver installed on the FK constraint of switch `s`. -/
def mkFkDriver (boneName : String) (sfb : List String) (s : String) : Driver :=
  { dataPath := influencePath boneName ("CRS_FK_" ++ s),
    vars := buildVars sfb,
    expr := mkSelExpr (sfb.indexOf s) }

/-- The driver installed on the MCH constraint of switch `s` (the FK
expression wrapped as `1 - (...)`). -/
def mkMchDriver (boneName : String) (sfb : List String) (s : String) : Driver :=
  { dataPath := influencePath boneName ("CRS_MCH_" ++ s),
    vars := buildVars sfb,
    expr := .inv (mkSelExpr (sfb.indexOf s)) }

/-- Inner loop body of `build_rebuild_switches` for one switch `s` of one
`DEF_` bone: FK constraint + driver when the FK counterpart exists, then
MCH constraint + driver when the MCH counterpart exists. -/
def processSwitchStep (fkEx mchEx : Bool) (fkName mchName boneName : String)
    (sfb : List String) (st : PoseBone × Option (List Driver)) (s : String) :
    PoseBone × Option (List Driver) :=
  let st1 :=
    if fkEx then
      ((addCopyTransforms st.1 fkName ("CRS_FK_" ++ s)).1,
       driverStep st.2 (influencePath boneName ("CRS_FK_" ++ s))
         (mkFkDriver boneName sfb s))
    else st
  if mchEx then
    ((addCopyTransforms st1.1 mchName ("CRS_MCH_" ++ s)).1,
     driverStep st1.2 (influencePath boneName ("CRS_MCH_" ++ s))
       (mkMchDriver boneName sfb s))
  else st1

/-- `desired_switch_order`: largest assignment groups first (Python
`sorted(..., reverse=True)` is the stable descending sort: elements with
equal keys keep their original relative order). -/
def desiredSwitchOrder (stb : List (String × List String)) (sfb : List String) :
    List String :=
  pySorted (fun s t => (stbLookup stb t).length ≤ (stbLookup stb s).length) sfb

/-- `desired_constraint_names`: per switch in desired order, the FK name
then the MCH name (each only when the counterpart bone exists). -/
def desiredNames (fkEx mchEx : Bool) (dso : List String) : List String :=
  dso.flatMap (fun sw =>
    (if fkEx then ["CRS_FK_" ++ sw] else []) ++
    (if mchEx then ["CRS_MCH_" ++ sw] else []))

/-- Blender `constraints.move(cur, target)`: remove the element at `cur`
and re-insert it at `target`. -/
def listMove (cs : List Constraint) (cur target : Nat) : List Constraint :=
  match cs[cur]? with
  | none => cs
  | some c => (cs.eraseIdx cur).insertIdx target c

/-- Index of the first constraint with the given name (the
`for i, c in enumerate(pose_bone.constraints): if c.name == cname` search). -/
def firstIdxNamed (cname : String) : List Constraint → Option Nat
  | [] => none
  | c :: rest =>
    if c.name = cname then some 0 else (firstIdxNamed cname rest).map (· + 1)

/-- One iteration of the reorder loop: find the first constraint with the
given name; when found, move it to the running target index and advance the
index. -/
def moveLoopStep (acc : List Constraint × Nat) (cname : String) :
    List Constraint × Nat :=
  match firstIdxNamed cname acc.1 with
  | none => acc
  | some cur => (listMove acc.1 cur acc.2, acc.2 + 1)

/-- The constraint-reorder pass at the end of each bone's processing. -/
def reorderConstraints (cs : List Constraint) (names : List String) :
    List Constraint :=
  (names.foldl moveLoopStep (cs, 0)).1

/-- The per-switch loop of one `DEF_` bone followed by the reorder pass,
returning the new bone value and driver table. -/
def boneLoop (stb : List (String × List String)) (fkEx mchEx : Bool)
    (fkName mchName : String) (sfb : List String) (pb : PoseBone)
    (ad : Option (List Driver)) : PoseBone × Option (List Driver) :=
  ({ (sfb.foldl (processSwitchStep fkEx mchEx fkName mchName pb.name sfb)
       (pb, ad)).1 with
     constraints := reorderConstraints
       ((sfb.foldl (processSwitchStep fkEx mchEx fkName mchName pb.name sfb)
         (pb, ad)).1).constraints
       (desiredNames fkEx mchEx (desiredSwitchOrder stb sfb)) },
   (sfb.foldl (processSwitchStep fkEx mchEx fkName mchName pb.name sfb)
     (pb, ad)).2)

/-- Processing of the bone at index `i` by `build_rebuild_switches`:
skip non-`DEF_` bones, bones with neither FK nor MCH counterpart, and bones
with no assigned switches; otherwise run the per-switch constraint/driver
loop, record the bone name in `created`, and reorder the constraint stack. -/
def processBone (stb : List (String × List String)) (order : List String)
    (st : Armature × List String) (i : Nat) : Armature × List String :=
  match st.1.bones[i]? with
  | none => st
  | some pb =>
    if ¬ pyStartsWith pb.name "DEF_" then st
    else if ((st.1.findBone ("FK_" ++ pb.name.drop 4)).isSome = false ∧
        (st.1.findBone ("MCH_" ++ pb.name.drop 4)).isSome = false) then st
    else if (boneSfb stb order pb.name).isEmpty then st
    else
      ({ bones := st.1.bones.set i
           (boneLoop stb ((st.1.findBone ("FK_" ++ pb.name.drop 4)).isSome)
             ((st.1.findBone ("MCH_" ++ pb.name.drop 4)).isSome)
             ("FK_" ++ pb.name.drop 4) ("MCH_" ++ pb.name.drop 4)
             (boneSfb stb order pb.name) pb st.1.animationData).1,
         animationData :=
           (boneLoop stb ((st.1.findBone ("FK_" ++ pb.name.drop 4)).isSome)
             ((st.1.findBone ("MCH_" ++ pb.name.drop 4)).isSome)
             ("FK_" ++ pb.name.drop 4) ("MCH_" ++ pb.name.drop 4)
             (boneSfb stb order pb.name) pb st.1.animationData).2 },
       st.2 ++ [pb.name])

/-- Model of `build_rebuild_switches`: compute the switch-to-bones mapping
and the priority order, then process every pose bone in order.  Returns the
updated armature and the `created` list of processed `DEF_` bone names. -/
def build_rebuild_switches (a : Armature) : Armature × List String :=
  let stb := buildSwitchToBones a.bones
  let order := switchOrder stb
  (List.range a.bones.length).foldl (processBone stb order) (a, [])

/-! ### clean_rig (`src/core/switches.py` lines 284-329) -/

/-- Result record of `clean_rig`. -/
structure CleanResult where
  armature : Armature
  bones_processed : Nat
  constraints_removed : Nat
  drivers_removed : Nat
deriving DecidableEq, Repr

/-- Does driver `d` target the influence of one of the removed
`(bone, constraint)` pairs? -/
def dpMatchesPairs (pairing : List (String × String)) (d : Driver) : Bool :=
  pairing.any (fun pr => d.dataPath = influencePath pr.1 pr.2)

/-- Remove every driver whose data path targets a removed constraint's
influence (shared final phase of `clean_rig`, `remove_bone_from_switch`
and `remove_triplet_from_switch`); `none` animation data is left alone. -/
def removeMatchingDrivers (ad : Option (List Driver))
    (pairing : List (String × String)) : Option (List Driver) × Nat :=
  match ad with
  | none => (none, 0)
  | some ds =>
    (some (ds.filter (fun d => ¬ dpMatchesPairs pairing d)),
     ds.countP (dpMatchesPairs pairing))

/-- Per-bone step of `clean_rig`: on a `DEF_` bone, strip every
COPY_TRANSFORMS constraint, reporting the removed `(bone, constraint)`
names. -/
def cleanBoneStep (pb : PoseBone) : PoseBone × Bool × List (String × String) :=
  if pyStartsWith pb.name "DEF_" then
    ({ pb with
       constraints := pb.constraints.filter (fun c => ¬ c.ctype = "COPY_TRANSFORMS") },
     true,
     (pb.constraints.filter (fun c => c.ctype = "COPY_TRANSFORMS")).map
       (fun c => (pb.name, c.name)))
  else (pb, false, [])

/-- The constraint-removal loop of `clean_rig` over all bones, accumulating
the updated bones, the processed-bone count, the removed-constraint count
and the removed `(bone, constraint)` pairs. -/
def cleanRigFold (bones : List PoseBone) :
    List PoseBone × Nat × Nat × List (String × String) :=
  bones.foldl
    (fun acc pb =>
      (acc.1 ++ [(cleanBoneStep pb).1],
       acc.2.1 + (if (cleanBoneStep pb).2.1 then 1 else 0),
       acc.2.2.1 + (cleanBoneStep pb).2.2.length,
       acc.2.2.2 ++ (cleanBoneStep pb).2.2))
    ([], 0, 0, [])

/-- Model of `clean_rig`: strip every COPY_TRANSFORMS constraint from every
`DEF_` bone, then drop the drivers that targeted the removed constraints'
influence; return the counts. -/
def clean_rig (a : Armature) : CleanResult :=
  { armature :=
      { bones := (cleanRigFold a.bones).1,
        animationData :=
          (removeMatchingDrivers a.animationData (cleanRigFold a.bones).2.2.2).1 },
    bones_processed := (cleanRigFold a.bones).2.1,
    constraints_removed := (cleanRigFold a.bones).2.2.1,
    drivers_removed :=
      (removeMatchingDrivers a.animationData (cleanRigFold a.bones).2.2.2).2 }

/-! ### remove_triplet_from_switch (`src/core/switches.py` lines 412-480) -/

/-- Result record of `remove_triplet_from_switch`. -/
structure TripletResult where
  armature : Armature
  bones_removed : Nat
  constraints_removed : Nat
  drivers_removed : Nat
deriving DecidableEq, Repr

/-- The bone-match predicate of `remove_triplet_from_switch`: the substring
after the last underscore of the bone name equals `baseName`, and the bone
is tagged with `switchName`. -/
def tripletMatches (baseName switchName : String) (pb : PoseBone) : Bool :=
  lastUnderscorePart pb.name = baseName && boneHasSwitch pb switchName

/-- Remove `switchName` from the bone's `control_rig_tools` tag: erase the
first occurrence from the parsed list (`existing.remove(switch_name)`),
rewrite the join when nonempty, else delete the property. -/
def unassignSwitch (pb : PoseBone) (switchName : String) : PoseBone :=
  if switchName ∈ parseBoneSwitches pb then
    if ((parseBoneSwitches pb).erase switchName).isEmpty then
      { pb with props := pb.props.del "control_rig_tools" }
    else
      { pb with
        props := pb.props.set "control_rig_tools"
          (.str (pyJoinSemi ((parseBoneSwitches pb).erase switchName))) }
  else pb

/-- The constraint-removal predicate of `remove_triplet_from_switch` (and of
`set_switch_enabled`): COPY_TRANSFORMS whose name ends with
`_<switchName>`. -/
def tripletCtRemoved (switchName : String) (c : Constraint) : Bool :=
  c.ctype = "COPY_TRANSFORMS" && pyEndsWith c.name ("_" ++ switchName)

/-- Per-bone step of `remove_triplet_from_switch`: on a matching bone,
unassign the switch and strip the suffix-matching COPY_TRANSFORMS
constraints, reporting the removed `(bone, constraint)` names. -/
def tripletBoneStep (baseName switchName : String) (pb : PoseBone) :
    PoseBone × Bool × List (String × String) :=
  if tripletMatches baseName switchName pb then
    ({ unassignSwitch pb switchName with
       constraints := (unassignSwitch pb switchName).constraints.filter
         (fun c => ¬ tripletCtRemoved switchName c) },
     true,
     ((unassignSwitch pb switchName).constraints.filter
       (tripletCtRemoved switchName)).map (fun c => (pb.name, c.name)))
  else (pb, false, [])

/-- The bone loop of `remove_triplet_from_switch`, accumulating the updated
bones, the matched-bone count, the removed-constraint count and the removed
`(bone, constraint)` pairs. -/
def tripletFold (baseName switchName : String) (bones : List PoseBone) :
    List PoseBone × Nat × Nat × List (String × String) :=
  bones.foldl
    (fun acc pb =>
      (acc.1 ++ [(tripletBoneStep baseName switchName pb).1],
       acc.2.1 + (if (tripletBoneStep baseName switchName pb).2.1 then 1 else 0),
       acc.2.2.1 + (tripletBoneStep baseName switchName pb).2.2.length,
       acc.2.2.2 ++ (tripletBoneStep baseName switchName pb).2.2))
    ([], 0, 0, [])

/-- Model of `remove_triplet_from_switch`: unassign and clean every bone
whose last-underscore part equals `baseName` and that carries `switchName`,
then drop the drivers targeting the removed constraints' influence. -/
def remove_triplet_from_switch (a : Armature) (baseName switchName : String) :
    TripletResult :=
  { armature :=
      { bones := (tripletFold baseName switchName a.bones).1,
        animationData :=
          (removeMatchingDrivers a.animationData
            (tripletFold baseName switchName a.bones).2.2.2).1 },
    bones_removed := (tripletFold baseName switchName a.bones).2.1,
    constraints_removed := (tripletFold baseName switchName a.bones).2.2.1,
    drivers_removed :=
      (removeMatchingDrivers a.animationData
        (tripletFold baseName switchName a.bones).2.2.2).2 }

/-! ### set_switch_enabled (`src/core/switches.py` lines 483-514) -/

/-- Model of `set_switch_enabled`: on every `DEF_` bone, mute (when
disabling) or unmute (when enabling) every COPY_TRANSFORMS constraint whose
name ends with `_<switchName>`; return the toggle count.  `update_tag` is a
host dependency-graph hint with no modelled state. -/
def set_switch_enabled (a : Armature) (switchName : String) (enabled : Bool) :
    Armature × Nat :=
  ({ a with
     bones := a.bones.map (fun pb =>
       if pyStartsWith pb.name "DEF_" then
         { pb with
           constraints := pb.constraints.map (fun c =>
             if tripletCtRemoved switchName c then { c with mute := ¬ enabled }
             else c) }
       else pb) },
   (a.bones.map (fun pb =>
     if pyStartsWith pb.name "DEF_" then
       pb.constraints.countP (tripletCtRemoved switchName)
     else 0)).sum)

/-! ### clear_switch_properties (`src/core/switches.py` lines 332-360) -/

/-- Result record of `clear_switch_properties`. -/
structure ClearResult where
  armature : Armature
  switch_props_removed : Nat
  bone_tags_removed : Nat
deriving DecidableEq, Repr

/-- The key-deletion loop of `clear_switch_properties`: delete each key of
the snapshot in order, counting only deletions that found the key
(a vanished key raises `KeyError`, which is swallowed). -/
def delKeysLoop (ps : Props) (keys : List String) : Props × Nat :=
  keys.foldl
    (fun acc k => if acc.1.hasKey k then (acc.1.del k, acc.2 + 1) else acc)
    (ps, 0)

/-- The key snapshot of `clear_switch_properties`:
`[k for k in control_settings.keys() if k != RUNTIME_UI_KEY]`. -/
def clearKeys (ctrl : PoseBone) : List String :=
  ctrl.props.keys.filter (fun k => k ≠ "_RNA_UI")

/-- The armature after the first phase of `clear_switch_properties` (every
non-`_RNA_UI` key deleted from CTRL_Settings). -/
def clearPhase1 (a : Armature) (ctrl : PoseBone) : Armature :=
  a.updFirstBone "CTRL_Settings"
    (fun pb => { pb with props := (delKeysLoop pb.props (clearKeys ctrl)).1 })

/-- The per-bone tag deletion of the second phase of
`clear_switch_properties`. -/
def clearTagStep (pb : PoseBone) : PoseBone :=
  if pb.props.hasKey "control_rig_tools" then
    { pb with props := pb.props.del "control_rig_tools" }
  else pb

/-- Model of `clear_switch_properties`: validate CTRL_Settings, delete every
custom property except `_RNA_UI` from it, then delete the
`control_rig_tools` tag from every pose bone of the (already updated)
armature. -/
def clear_switch_properties (a : Armature) : Except String ClearResult :=
  match get_control_settings_pose_bone a with
  | .error e => .error e
  | .ok ctrl =>
    .ok { armature :=
            { clearPhase1 a ctrl with
              bones := (clearPhase1 a ctrl).bones.map clearTagStep },
          switch_props_removed := (delKeysLoop ctrl.props (clearKeys ctrl)).2,
          bone_tags_removed :=
            (clearPhase1 a ctrl).bones.countP
              (fun pb => pb.props.hasKey "control_rig_tools") }

/-! ### Exception-flow model

The host primitives can in principle raise; the Python code wraps most of
them in `try`/`except: pass`.  This second embedding keeps the same data
flow but makes each primitive fallible, controlled by a set of failing
primitive kinds, and places `try` exactly where the source does.  Only the
error behaviour matters here; the claims about values use the total model
above. -/

/-- Kinds of host mutation primitives the code invokes. -/
inductive HostOp where
  | constraintNew
  | constraintSetField
  | constraintSetSpace
  | constraintRemove
  | constraintMove
  | driverAdd
  | driverRemove
  | driverConfigure
  | setMute
  | updateTag
deriving DecidableEq, Repr

/-- Which primitive kinds fail when invoked. -/
abbrev FailSet := HostOp → Bool

/-- A fallible host primitive call of kind `op`. -/
def hostCall (fails : FailSet) (op : HostOp) : Except String Unit :=
  if fails op then .error "host exception" else .ok ()

/-- Exception-flow model of `_add_copy_transforms`.  The LOCAL space
assignments sit inside `try`/`except: pass` in both branches; the
`constraints.new` call and the name/target/subtarget assignments of the
creation branch are NOT guarded, so their failures propagate. -/
def addCopyTransformsE (fails : FailSet) (pb : PoseBone)
    (targetName cname : String) : Except String (PoseBone × Constraint) :=
  match pb.constraints.find? (ctMatches cname targetName) with
  | some c =>
    match hostCall fails .constraintSetSpace with
    | .error _ => .ok (pb, c)
    | .ok _ =>
      .ok ({ pb with constraints := setLocalFirst cname targetName pb.constraints },
           { c with ownerSpace := "LOCAL", targetSpace := "LOCAL" })
  | none =>
    match hostCall fails .constraintNew with
    | .error e => .error e
    | .ok _ =>
      match hostCall fails .constraintSetField with
      | .error e => .error e
      | .ok _ =>
        let base : Constraint :=
          { ctype := "COPY_TRANSFORMS", name := cname, subtarget := targetName,
            ownerSpace := "WORLD", targetSpace := "WORLD", mute := false }
        let c :=
          match hostCall fails .constraintSetSpace with
          | .error _ => base
          | .ok _ => { base with ownerSpace := "LOCAL", targetSpace := "LOCAL" }
        .ok ({ pb with constraints := pb.constraints ++ [c] }, c)

/-- Exception-flow model of one driver `try` block of
`build_rebuild_switches` (removal loop with its inner `try` around each
`drivers.remove`, then `driver_add` and driver configuration, all inside the
outer `try`/`except: pass`).  A failing `driver_add` leaves the state after
the removals; a failing configuration leaves the fresh driver with its
default empty variables and a `var0` default expression. -/
def driverBlockE (fails : FailSet) (ad : Option (List Driver)) (path : String)
    (d : Driver) : Option (List Driver) :=
  let ad1 :=
    match ad with
    | none => none
    | some ds =>
      match hostCall fails .driverRemove with
      | .error _ => some ds
      | .ok _ => some (ds.filter (fun dr => dr.dataPath ≠ path))
  match hostCall fails .driverAdd with
  | .error _ => ad1
  | .ok _ =>
    match hostCall fails .driverConfigure with
    | .error _ =>
      some (ad1.getD [] ++ [{ dataPath := path, vars := [], expr := .var 0 }])
    | .ok _ => some (ad1.getD [] ++ [d])

/-- Exception-flow model of the FK half of the per-switch loop body. -/
def switchStepFkE (fails : FailSet) (fkEx : Bool) (fkName boneName : String)
    (sfb : List String) (st : PoseBone × Option (List Driver)) (s : String) :
    Except String (PoseBone × Option (List Driver)) :=
  if fkEx then
    match addCopyTransformsE fails st.1 fkName ("CRS_FK_" ++ s) with
    | .error e => .error e
    | .ok pr =>
      .ok (pr.1, driverBlockE fails st.2 (influencePath boneName ("CRS_FK_" ++ s))
        (mkFkDriver boneName sfb s))
  else .ok st

/-- Exception-flow model of the MCH half of the per-switch loop body. -/
def switchStepMchE (fails : FailSet) (mchEx : Bool) (mchName boneName : String)
    (sfb : List String) (st : PoseBone × Option (List Driver)) (s : String) :
    Except String (PoseBone × Option (List Driver)) :=
  if mchEx then
    match addCopyTransformsE fails st.1 mchName ("CRS_MCH_" ++ s) with
    | .error e => .error e
    | .ok pr =>
      .ok (pr.1, driverBlockE fails st.2 (influencePath boneName ("CRS_MCH_" ++ s))
        (mkMchDriver boneName sfb s))
  else .ok st

/-- Exception-flow model of the per-switch loop body (compare
`processSwitchStep`). -/
def processSwitchStepE (fails : FailSet) (fkEx mchEx : Bool)
    (fkName mchName boneName : String) (sfb : List String)
    (st : PoseBone × Option (List Driver)) (s : String) :
    Except String (PoseBone × Option (List Driver)) :=
  match switchStepFkE fails fkEx fkName boneName sfb st s with
  | .error e => .error e
  | .ok st1 => switchStepMchE fails mchEx mchName boneName sfb st1 s

/-- Exception-flow model of the reorder loop: each `constraints.move` sits
in its own `try`, and the whole pass in another, so failures only skip
moves. -/
def reorderConstraintsE (fails : FailSet) (cs : List Constraint)
    (names : List String) : List Constraint :=
  (names.foldl
    (fun acc cname =>
      match firstIdxNamed cname acc.1 with
      | none => acc
      | some cur =>
        match hostCall fails .constraintMove with
        | .error _ => acc
        | .ok _ => (listMove acc.1 cur acc.2, acc.2 + 1))
    (cs, 0)).1

/-- Exception-flow model of the per-bone processing of
`build_rebuild_switches`. -/
def processBoneE (fails : FailSet) (stb : List (String × List String))
    (order : List String) (st : Armature × List String) (i : Nat) :
    Except String (Armature × List String) :=
  match st.1.bones[i]? with
  | none => .ok st
  | some pb =>
    if ¬ pyStartsWith pb.name "DEF_" then .ok st
    else if ((st.1.findBone ("FK_" ++ pb.name.drop 4)).isSome = false ∧
        (st.1.findBone ("MCH_" ++ pb.name.drop 4)).isSome = false) then .ok st
    else if (boneSfb stb order pb.name).isEmpty then .ok st
    else
      match (boneSfb stb order pb.name).foldlM
        (processSwitchStepE fails
          ((st.1.findBone ("FK_" ++ pb.name.drop 4)).isSome)
          ((st.1.findBone ("MCH_" ++ pb.name.drop 4)).isSome)
          ("FK_" ++ pb.name.drop 4) ("MCH_" ++ pb.name.drop 4) pb.name
          (boneSfb stb order pb.name))
        (pb, st.1.animationData) with
      | .error e => .error e
      | .ok res =>
        .ok ({ bones := st.1.bones.set i
                 { res.1 with
                   constraints := reorderConstraintsE fails res.1.constraints
                     (desiredNames
                       ((st.1.findBone ("FK_" ++ pb.name.drop 4)).isSome)
                       ((st.1.findBone ("MCH_" ++ pb.name.drop 4)).isSome)
                       (desiredSwitchOrder stb (boneSfb stb order pb.name))) },
               animationData := res.2 },
             st.2 ++ [pb.name])

/-- Exception-flow model of `build_rebuild_switches`. -/
def build_rebuild_switchesE (fails : FailSet) (a : Armature) :
    Except String (Armature × List String) :=
  let stb := buildSwitchToBones a.bones
  let order := switchOrder stb
  (List.range a.bones.length).foldlM (processBoneE fails stb order) (a, [])

/-- Exception-flow model of `clean_rig`: each `constraints.remove` and each
`drivers.remove` sits in `try`/`except: pass`, so a failing removal only
leaves the item in place without counting it. -/
def clean_rigE (fails : FailSet) (a : Armature) : Except String CleanResult :=
  let removeOk := (hostCall fails .constraintRemove).isOk
  let step := fun (acc : List PoseBone × Nat × Nat × List (String × String)) pb =>
    if pyStartsWith pb.name "DEF_" then
      if removeOk then
        let removed := pb.constraints.filter (fun c => c.ctype = "COPY_TRANSFORMS")
        let kept := pb.constraints.filter (fun c => ¬ c.ctype = "COPY_TRANSFORMS")
        (acc.1 ++ [{ pb with constraints := kept }],
         acc.2.1 + 1,
         acc.2.2.1 + removed.length,
         acc.2.2.2 ++ removed.map (fun c => (pb.name, c.name)))
      else (acc.1 ++ [pb], acc.2.1 + 1, acc.2.2)
    else (acc.1 ++ [pb], acc.2)
  let r := a.bones.foldl step ([], 0, 0, [])
  let dr :=
    if (hostCall fails .driverRemove).isOk then
      removeMatchingDrivers a.animationData r.2.2.2
    else (a.animationData, 0)
  .ok { armature := { bones := r.1, animationData := dr.1 },
        bones_processed := r.2.1,
        constraints_removed := r.2.2.1,
        drivers_removed := dr.2 }

/-- Exception-flow model of `set_switch_enabled`: the `c.mute` assignment
and the `update_tag` hint each sit inside `try`/`except: pass`. -/
def set_switch_enabledE (fails : FailSet) (a : Armature) (switchName : String)
    (enabled : Bool) : Except String (Armature × Nat) :=
  if (hostCall fails .setMute).isOk then
    .ok (set_switch_enabled a switchName enabled)
  else .ok (a, 0)

/-- The `control_rig_tools` property of the bone, when present, is a string
(the only shape the system itself ever writes). -/
def tagOkay (pb : PoseBone) : Prop :=
  match pb.props.get "control_rig_tools" with
  | some (.num _) => False
  | _ => True

/-- The `(bone, constraint)` pairs removed by
`remove_triplet_from_switch`. -/
def tripletRemovedPairs (a : Armature) (base sw : String) :
    List (String × String) :=
  a.bones.flatMap (fun pb => (tripletBoneStep base sw pb).2.2)

/-- Concrete single-switch example bone used in closed instances. -/
def exBoneA : PoseBone :=
  { name := "DEF_arm", props := [("control_rig_tools", PVal.str "A")],
    constraints :=
      [{ ctype := "COPY_TRANSFORMS", name := "CRS_FK_A", subtarget := "FK_arm",
         ownerSpace := "LOCAL", targetSpace := "LOCAL", mute := false }] }

/-- Concrete armature with one tagged bone and one driver, used in closed
instances. -/
def exArmA : Armature :=
  { bones := [exBoneA],
    animationData :=
      some [{ dataPath := influencePath "DEF_arm" "CRS_FK_A",
              vars := [], expr := .var 0 }] }

/-- A constraint value duplicated in `claim5Arm`. -/
def claim5Ct : Constraint :=
  { ctype := "COPY_TRANSFORMS", name := "CRS_FK_A", subtarget := "FK_Arm",
    ownerSpace := "LOCAL", targetSpace := "LOCAL", mute := false }

/-- Armature whose `DEF_Arm` bone already carries two identical
`CRS_FK_A` constraints targeting `FK_Arm`. -/
def claim5Arm : Armature :=
  { bones :=
      [{ name := "DEF_Arm",
         props := [("control_rig_tools", PVal.str "A")],
         constraints := [claim5Ct, claim5Ct] },
       { name := "FK_Arm", props := [], constraints := [] }],
    animationData := none }

/-- Concrete `DEF_` bone carrying switch `A`, used in closed instances. -/
def c1DefBone : PoseBone :=
  { name := "DEF_arm", props := [("control_rig_tools", PVal.str "A")],
    constraints := [] }

/-- Concrete armature with a full `DEF_`/`FK_`/`MCH_` triplet, used in
closed instances. -/
def c1Arm : Armature :=
  { bones := [c1DefBone,
      { name := "FK_arm", props := [], constraints := [] },
      { name := "MCH_arm", props := [], constraints := [] }],
    animationData := none }

/-- The all-zero switch valuation, used in closed instances. -/
def zeroSwitchVals : String → ℚ := fun _ => 0

/-! ### Characterization functions for `build_rebuild_switches`

These definitions are not part of the embedding of the source; they name
the effect of one run of `build_rebuild_switches` so that it can be stated
and reasoned about.  The lemmas below prove that the embedding equals
them. -/

/-- The `(constraint name, subtarget)` pairs created for one switch of one
bone, FK first then MCH. -/
def switchPairsC (fkEx mchEx : Bool) (fkName mchName : String) (s : String) :
    List (String × String) :=
  (if fkEx then [("CRS_FK_" ++ s, fkName)] else []) ++
  (if mchEx then [("CRS_MCH_" ++ s, mchName)] else [])

/-- All `(constraint name, subtarget)` pairs of one bone, in loop order. -/
def bonePairsC (fkEx mchEx : Bool) (fkName mchName : String)
    (sfb : List String) : List (String × String) :=
  sfb.flatMap (switchPairsC fkEx mchEx fkName mchName)

/-- Apply `ctAdd` for a sequence of pairs. -/
def ctAddAll (cs : List Constraint) (prs : List (String × String)) :
    List Constraint :=
  prs.foldl (fun cs pr => ctAdd cs pr.2 pr.1) cs

/-- The `(influence path, driver)` pairs installed for one switch of one
bone, FK first then MCH. -/
def switchPairsD (fkEx mchEx : Bool) (boneName : String) (sfb : List String)
    (s : String) : List (String × Driver) :=
  (if fkEx then
    [(influencePath boneName ("CRS_FK_" ++ s), mkFkDriver boneName sfb s)]
   else []) ++
  (if mchEx then
    [(influencePath boneName ("CRS_MCH_" ++ s), mkMchDriver boneName sfb s)]
   else [])

/-- All `(influence path, driver)` pairs of one bone, in loop order. -/
def bonePairsD (fkEx mchEx : Bool) (boneName : String) (sfb : List String) :
    List (String × Driver) :=
  sfb.flatMap (switchPairsD fkEx mchEx boneName sfb)

/-- Apply `driverStep` for a sequence of pairs. -/
def applyDrv (ad : Option (List Driver)) (prs : List (String × Driver)) :
    Option (List Driver) :=
  prs.foldl (fun ad pr => driverStep ad pr.1 pr.2) ad

/-- List form of `applyDrv` once `animation_data` exists. -/
def applyDrvL (ds : List Driver) (prs : List (String × Driver)) : List Driver :=
  prs.foldl (fun ds pr => ds.filter (fun dr => dr.dataPath ≠ pr.1) ++ [pr.2]) ds

/-- The constraint-stack effect of one bone's processing: the per-switch
constraint additions followed by the reorder pass. -/
def boneTransformC (stb : List (String × List String)) (fkEx mchEx : Bool)
    (fkName mchName : String) (sfb : List String) (pb : PoseBone) : PoseBone :=
  { pb with
    constraints := reorderConstraints
      (ctAddAll pb.constraints (bonePairsC fkEx mchEx fkName mchName sfb))
      (desiredNames fkEx mchEx (desiredSwitchOrder stb sfb)) }

/-- The `switch_to_bones` mapping of a run on `a`. -/
def buildStb (a : Armature) : List (String × List String) :=
  buildSwitchToBones a.bones

/-- The priority order of a run on `a`. -/
def buildOrder (a : Armature) : List String :=
  switchOrder (buildSwitchToBones a.bones)

/-- `switches_for_bone` of a bone in a run on `a`. -/
def sfbOf (a : Armature) (pb : PoseBone) : List String :=
  boneSfb (buildStb a) (buildOrder a) pb.name

/-- Does `build_rebuild_switches` process this bone (DEF_ prefix, an FK or
MCH counterpart exists, and at least one switch references it)? -/
def boneCond (a : Armature) (pb : PoseBone) : Bool :=
  pyStartsWith pb.name "DEF_" &&
  ((a.findBone ("FK_" ++ pb.name.drop 4)).isSome ||
   (a.findBone ("MCH_" ++ pb.name.drop 4)).isSome) &&
  ¬ (sfbOf a pb).isEmpty

/-- The bone-level effect of one run of `build_rebuild_switches`. -/
def boneStep (a : Armature) (pb : PoseBone) : PoseBone :=
  if boneCond a pb then
    boneTransformC (buildStb a)
      ((a.findBone ("FK_" ++ pb.name.drop 4)).isSome)
      ((a.findBone ("MCH_" ++ pb.name.drop 4)).isSome)
      ("FK_" ++ pb.name.drop 4) ("MCH_" ++ pb.name.drop 4) (sfbOf a pb) pb
  else pb

/-- The driver pairs contributed by one bone in one run. -/
def boneDrvPairs (a : Armature) (pb : PoseBone) : List (String × Driver) :=
  if boneCond a pb then
    bonePairsD ((a.findBone ("FK_" ++ pb.name.drop 4)).isSome)
      ((a.findBone ("MCH_" ++ pb.name.drop 4)).isSome) pb.name (sfbOf a pb)
  else []

/-- All driver pairs of one run, in processing order. -/
def allPairsD (a : Armature) : List (String × Driver) :=
  a.bones.flatMap (boneDrvPairs a)

/-- The `created` list of one run. -/
def buildCreated (a : Armature) : List String :=
  (a.bones.filter (boneCond a)).map (fun pb => pb.name)

/-- Name and custom properties of a bone (what the switch bookkeeping of a
run depends on). -/
def boneSig (b : PoseBone) : String × Props := (b.name, b.props)

/-- The state of `build_rebuild_switches` after processing the first `k`
bone indices. -/
def buildFoldK (a : Armature) (k : Nat) : Armature × List String :=
  (List.range k).foldl (processBone (buildStb a) (buildOrder a)) (a, [])

/-- Normal form of the constraint-reorder pass: for each name in turn, the
first constraint so named (when present) is extracted to the front. -/
def reorderNF : List Constraint → List String → List Constraint
  | cs, [] => cs
  | cs, n :: ns =>
    match cs.find? (fun c => c.name = n) with
    | some c => c :: reorderNF (cs.eraseP (fun c => c.name = n)) ns
    | none => reorderNF cs ns

/-- The reuse search for `(cname, targetName)` hits a constraint whose
owner and target spaces are already LOCAL, so `_add_copy_transforms` leaves
the stack unchanged. -/
abbrev ctSettled (cs : List Constraint) (cname targetName : String) : Prop :=
  ∃ c, cs.find? (ctMatches cname targetName) = some c ∧
    c.ownerSpace = "LOCAL" ∧ c.targetSpace = "LOCAL"

/-- Range invariant on a bone's custom properties: every numeric property
value lies in `[0, 1]`. -/
def numPropsInRange (pb : PoseBone) : Prop :=
  ∀ kv ∈ pb.props,
    match kv.2 with
    | PVal.num q => 0 ≤ q ∧ q ≤ 1
    | PVal.str _ => True

/-! ## Lemmas -/

/-! ### Algebra of the string primitives -/

theorem splitSemis_ne_nil (cs : List Char) : splitSemis cs ≠ [] := by
  match cs with
  | [] => simp [splitSemis]
  | c :: rest =>
    simp only [splitSemis]
    split
    · simp
    · cases h : splitSemis rest <;> simp

theorem semi_notMem_splitSemis (cs : List Char) :
    ∀ l ∈ splitSemis cs, ';' ∉ l := by
  induction cs with
  | nil =>
    intro l hl
    simp only [splitSemis, List.mem_singleton] at hl
    simp [hl]
  | cons c rest ih =>
    intro l hl
    simp only [splitSemis] at hl
    by_cases hc : c = ';'
    · rw [if_pos hc] at hl
      rcases List.mem_cons.mp hl with h | h
      · simp [h]
      · exact ih l h
    · rw [if_neg hc] at hl
      cases hsp : splitSemis rest with
      | nil => exact absurd hsp (splitSemis_ne_nil rest)
      | cons h t =>
        rw [hsp] at hl
        rcases List.mem_cons.mp hl with he | he
        · subst he
          intro hmem
          rcases List.mem_cons.mp hmem with h1 | h1
          · exact hc h1.symm
          · exact ih h (by rw [hsp]; exact List.mem_cons_self h t) h1
        · exact ih l (by rw [hsp]; exact List.mem_cons_of_mem h he)

theorem splitSemis_append (l cs : List Char) (hl : ';' ∉ l)
    {h : List Char} {t : List (List Char)} (hs : splitSemis cs = h :: t) :
    splitSemis (l ++ cs) = (l ++ h) :: t := by
  induction l with
  | nil => simpa using hs
  | cons c l' ih =>
    have hc : c ≠ ';' := fun hcc => hl (by simp [hcc])
    have hl' : ';' ∉ l' := fun hm => hl (List.mem_cons_of_mem c hm)
    have ihh := ih hl'
    simp only [List.cons_append, splitSemis, if_neg hc, List.append_eq]
    rw [ihh]

theorem splitSemis_joinSemis (parts : List (List Char)) (hne : parts ≠ [])
    (hsemi : ∀ p ∈ parts, ';' ∉ p) :
    splitSemis (joinSemis parts) = parts := by
  induction parts with
  | nil => exact absurd rfl hne
  | cons p rest ih =>
    cases rest with
    | nil =>
      have h0 : splitSemis ([] : List Char) = [] :: [] := rfl
      have := splitSemis_append p [] (hsemi p (List.mem_cons_self p [])) h0
      simpa [joinSemis] using this
    | cons q rest' =>
      have hj : joinSemis (p :: q :: rest') = p ++ ';' :: joinSemis (q :: rest') := rfl
      have hrec : splitSemis (joinSemis (q :: rest')) = q :: rest' :=
        ih (by simp) (fun x hx => hsemi x (List.mem_cons_of_mem p hx))
      have hsplit : splitSemis (';' :: joinSemis (q :: rest')) =
          [] :: splitSemis (joinSemis (q :: rest')) := by
        simp [splitSemis]
      rw [hj, splitSemis_append p _ (hsemi p (List.mem_cons_self p _))
        (by rw [hsplit, hrec])]
      simp

theorem stripChars_sublist (cs : List Char) : (stripChars cs).Sublist cs :=
  ((List.rdropWhile_prefix _ _).sublist).trans (List.dropWhile_sublist _)

theorem stripChars_idem (cs : List Char) :
    stripChars (stripChars cs) = stripChars cs := by
  unfold stripChars
  have h1 : List.dropWhile Char.isWhitespace
      (List.rdropWhile Char.isWhitespace (List.dropWhile Char.isWhitespace cs)) =
      List.rdropWhile Char.isWhitespace (List.dropWhile Char.isWhitespace cs) := by
    have hzz : List.dropWhile Char.isWhitespace
        (List.dropWhile Char.isWhitespace cs) =
        List.dropWhile Char.isWhitespace cs :=
      List.dropWhile_idempotent _ _
    have hpre := List.rdropWhile_prefix Char.isWhitespace
      (List.dropWhile Char.isWhitespace cs)
    cases hw : List.rdropWhile Char.isWhitespace
        (List.dropWhile Char.isWhitespace cs) with
    | nil => simp
    | cons a w =>
      rw [hw] at hpre
      obtain ⟨w2, hw2⟩ := hpre
      have hz : List.dropWhile Char.isWhitespace cs = a :: (w ++ w2) := by
        rw [← hw2]; rfl
      rw [hz] at hzz
      have ha : Char.isWhitespace a = false := by
        by_contra hcon
        have ha' : Char.isWhitespace a = true := by
          cases hv : Char.isWhitespace a
          · exact absurd hv hcon
          · rfl
        rw [List.dropWhile_cons, if_pos ha'] at hzz
        have hlen := congrArg List.length hzz
        simp only [List.length_cons] at hlen
        have hle := (@List.dropWhile_sublist _ (w ++ w2) Char.isWhitespace).length_le
        omega
      simp [List.dropWhile_cons, ha]
  rw [h1, List.rdropWhile_idempotent]

theorem stringMk_data (s : String) : String.mk s.data = s := by
  cases s
  rfl

theorem string_ne_empty_iff (s : String) : s ≠ "" ↔ s.data ≠ [] := by
  constructor
  · intro h hd
    exact h (by apply String.ext; simpa using hd)
  · intro h hs
    apply h
    rw [hs]

theorem parseParts_wf (raw : String) : ∀ p ∈ parseParts raw, wfPart p := by
  intro p hp
  unfold parseParts at hp
  rw [List.mem_filter] at hp
  obtain ⟨hp1, hp2⟩ := hp
  rw [List.mem_map] at hp1
  obtain ⟨q, hq, hq2⟩ := hp1
  unfold pySplitSemi at hq
  rw [List.mem_map] at hq
  obtain ⟨l, hl, hl2⟩ := hq
  subst hq2
  subst hl2
  have hdata : (pyStrip (String.mk l)).data = stripChars l := rfl
  refine ⟨?_, ?_, ?_⟩
  · rw [hdata]
    exact stripChars_idem l
  · rw [← string_ne_empty_iff]
    simpa using hp2
  · rw [hdata]
    intro hmem
    exact semi_notMem_splitSemis raw.data l hl
      ((stripChars_sublist l).mem hmem)

theorem parseParts_join (parts : List String) (hne : parts ≠ [])
    (hwf : ∀ p ∈ parts, wfPart p) :
    parseParts (pyJoinSemi parts) = parts := by
  have hsplit : pySplitSemi (pyJoinSemi parts) = parts := by
    unfold pySplitSemi pyJoinSemi
    have hdm : (String.mk (joinSemis (parts.map String.data))).data =
        joinSemis (parts.map String.data) := rfl
    rw [hdm, splitSemis_joinSemis (parts.map String.data)
      (by simpa using hne)
      (by
        intro l hl
        rw [List.mem_map] at hl
        obtain ⟨p, hp, hp2⟩ := hl
        subst hp2
        exact (hwf p hp).2.2)]
    rw [List.map_map]
    have hcomp : (String.mk ∘ String.data) = id := funext stringMk_data
    rw [hcomp, List.map_id]
  unfold parseParts
  rw [hsplit]
  have hmap : parts.map pyStrip = parts := by
    have h1 : parts.map pyStrip = parts.map id := by
      apply List.map_congr_left
      intro p hp
      show pyStrip p = id p
      unfold pyStrip
      rw [(hwf p hp).1]
      exact stringMk_data p
    rw [h1, List.map_id]
  rw [hmap]
  apply List.filter_eq_self.mpr
  intro p hp
  simpa using (string_ne_empty_iff p).mpr (hwf p hp).2.1

/-! ### Property-table lemmas -/

theorem find?_map_setEntry (ps : Props) (k : String) (v : PVal)
    (h : ps.any (fun kv => kv.1 = k) = true) :
    (ps.map (fun kv => if kv.1 = k then (k, v) else kv)).find?
      (fun kv => kv.1 = k) = some (k, v) := by
  induction ps with
  | nil => simp at h
  | cons kv rest ih =>
    by_cases hk : kv.1 = k
    · simp [hk]
    · have h2 : rest.any (fun kv => kv.1 = k) = true := by
        simp only [List.any_cons, Bool.or_eq_true, decide_eq_true_eq] at h
        rcases h with h | h
        · exact absurd h hk
        · exact h
      simp only [List.map_cons, if_neg hk]
      rw [List.find?_cons_of_neg _ (by simp [hk])]
      exact ih h2

theorem props_get_append_single (ps : Props) (k : String) (v : PVal)
    (h : ps.any (fun kv => kv.1 = k) = false) :
    Props.get (ps ++ [(k, v)]) k = some v := by
  induction ps with
  | nil => simp [Props.get]
  | cons kv rest ih =>
    simp only [List.any_cons, Bool.or_eq_false_iff, decide_eq_false_iff_not] at h
    unfold Props.get
    rw [List.cons_append, List.find?_cons_of_neg _ (by simp [h.1])]
    exact ih (by simpa using h.2)

theorem props_get_set (ps : Props) (k : String) (v : PVal) :
    (ps.set k v).get k = some v := by
  unfold Props.set Props.hasKey
  by_cases h : ps.any (fun kv => kv.1 = k)
  · rw [if_pos h]
    unfold Props.get
    rw [find?_map_setEntry ps k v h]
    rfl
  · rw [if_neg h]
    exact props_get_append_single ps k v
      (by simp only [Bool.not_eq_true] at h; exact h)

theorem props_mem_set (ps : Props) (k : String) (v : PVal)
    (kv : String × PVal) (h : kv ∈ ps.set k v) :
    kv = (k, v) ∨ kv ∈ ps := by
  unfold Props.set at h
  split at h
  · rw [List.mem_map] at h
    obtain ⟨a, ha, ha2⟩ := h
    by_cases hak : a.1 = k
    · rw [if_pos hak] at ha2
      exact Or.inl ha2.symm
    · rw [if_neg hak] at ha2
      exact Or.inr (ha2 ▸ ha)
  · rcases List.mem_append.mp h with h | h
    · exact Or.inr h
    · simp only [List.mem_singleton] at h
      exact Or.inl h

theorem props_get_del_self (ps : Props) (k : String) :
    (ps.del k).get k = none := by
  unfold Props.del Props.get
  have hfind : List.find? (fun kv => decide (kv.1 = k))
      (List.filter (fun kv => decide (kv.1 ≠ k)) ps) = none := by
    rw [List.find?_eq_none]
    intro kv hkv
    rw [List.mem_filter] at hkv
    have h2 := hkv.2
    simp only [ne_eq, decide_not, Bool.not_eq_true', decide_eq_false_iff_not] at h2
    simp only [decide_eq_true_eq]
    exact h2
  rw [hfind]
  rfl

/-! ### Parse/join round trips on bone metadata -/

theorem parseBoneSwitches_set_join (pb : PoseBone) (parts : List String)
    (hne : parts ≠ []) (hwf : ∀ p ∈ parts, wfPart p) :
    parseBoneSwitches
      { pb with props := pb.props.set "control_rig_tools" (.str (pyJoinSemi parts)) } =
      parts := by
  unfold parseBoneSwitches
  rw [props_get_set]
  exact parseParts_join parts hne hwf

theorem parseBoneSwitches_del (pb : PoseBone) :
    parseBoneSwitches { pb with props := pb.props.del "control_rig_tools" } = [] := by
  unfold parseBoneSwitches
  rw [props_get_del_self]

theorem parseBoneSwitches_wf (pb : PoseBone) (h : tagOkay pb) :
    ∀ p ∈ parseBoneSwitches pb, wfPart p := by
  intro p hp
  unfold parseBoneSwitches at hp
  unfold tagOkay at h
  cases hg : pb.props.get "control_rig_tools" with
  | none => rw [hg] at hp; simp at hp
  | some v =>
    cases v with
    | str raw =>
      rw [hg] at hp
      exact parseParts_wf raw p hp
    | num q => rw [hg] at h; exact absurd h (by simp)

theorem unassignSwitch_name (pb : PoseBone) (sw : String) :
    (unassignSwitch pb sw).name = pb.name := by
  unfold unassignSwitch
  split
  · split <;> rfl
  · rfl

theorem unassignSwitch_constraints (pb : PoseBone) (sw : String) :
    (unassignSwitch pb sw).constraints = pb.constraints := by
  unfold unassignSwitch
  split
  · split <;> rfl
  · rfl

theorem unassignSwitch_parse (pb : PoseBone) (sw : String)
    (hm : sw ∈ parseBoneSwitches pb) :
    parseBoneSwitches (unassignSwitch pb sw) = (parseBoneSwitches pb).erase sw := by
  unfold unassignSwitch
  rw [if_pos hm]
  by_cases hrem : (parseBoneSwitches pb).erase sw = []
  · rw [if_pos (by simpa [List.isEmpty_iff] using hrem), parseBoneSwitches_del, hrem]
  · rw [if_neg (by simpa [List.isEmpty_iff] using hrem)]
    apply parseBoneSwitches_set_join
    · exact hrem
    · intro p hp
      have hsub : p ∈ parseBoneSwitches pb := (List.erase_sublist sw _).mem hp
      cases hg : pb.props.get "control_rig_tools" with
      | none =>
        exfalso
        unfold parseBoneSwitches at hsub
        rw [hg] at hsub
        simp at hsub
      | some v =>
        cases v with
        | str raw =>
          apply parseBoneSwitches_wf pb ?_ p hsub
          unfold tagOkay
          rw [hg]
          trivial
        | num q =>
          exfalso
          have hps : parseBoneSwitches pb = [pvalStr (.num q)] := by
            unfold parseBoneSwitches
            rw [hg]
          rw [hps] at hm hrem
          simp only [List.mem_singleton] at hm
          apply hrem
          rw [hm]
          simp

/-! ### remove_triplet_from_switch characterization -/

theorem tripletFold_go (base sw : String) (l : List PoseBone)
    (acc : List PoseBone × Nat × Nat × List (String × String)) :
    (l.foldl
      (fun acc pb =>
        (acc.1 ++ [(tripletBoneStep base sw pb).1],
         acc.2.1 + (if (tripletBoneStep base sw pb).2.1 then 1 else 0),
         acc.2.2.1 + (tripletBoneStep base sw pb).2.2.length,
         acc.2.2.2 ++ (tripletBoneStep base sw pb).2.2)) acc) =
    (acc.1 ++ l.map (fun pb => (tripletBoneStep base sw pb).1),
     acc.2.1 +
       (l.map (fun pb => if (tripletBoneStep base sw pb).2.1 then 1 else 0)).sum,
     acc.2.2.1 + (l.map (fun pb => (tripletBoneStep base sw pb).2.2.length)).sum,
     acc.2.2.2 ++ l.flatMap (fun pb => (tripletBoneStep base sw pb).2.2)) := by
  induction l generalizing acc with
  | nil => simp
  | cons pb rest ih =>
    rw [List.foldl_cons, ih]
    simp [List.append_assoc, Nat.add_assoc]

theorem tripletFold_eq (base sw : String) (l : List PoseBone) :
    tripletFold base sw l =
    (l.map (fun pb => (tripletBoneStep base sw pb).1),
     (l.map (fun pb => if (tripletBoneStep base sw pb).2.1 then 1 else 0)).sum,
     (l.map (fun pb => (tripletBoneStep base sw pb).2.2.length)).sum,
     l.flatMap (fun pb => (tripletBoneStep base sw pb).2.2)) := by
  unfold tripletFold
  rw [tripletFold_go]
  simp

theorem removeTriplet_bone_at (a : Armature) (base sw : String) (i : Nat)
    (pb : PoseBone) (h : a.bones[i]? = some pb) :
    (remove_triplet_from_switch a base sw).armature.bones[i]? =
      some (tripletBoneStep base sw pb).1 := by
  show ((tripletFold base sw a.bones).1)[i]? = _
  rw [tripletFold_eq]
  rw [List.getElem?_map, h]
  rfl

/-- C6: the claim asserts that `remove_triplet_from_switch` matches the
bones of the triplet under the spec convention `DEF_<base>` / `FK_<base>` /
`MCH_<base>`.  The code instead compares the substring after the LAST
underscore with `base_name`, so a bone `DEF_upper_arm` with convention base
`upper_arm` is never matched: removing the `upper_arm` triplet from switch
`S` removes no bone, and the bone keeps the switch. -/
theorem claim6_counterexample :
    (remove_triplet_from_switch
      { bones := [{ name := "DEF_upper_arm",
                    props := [("control_rig_tools", PVal.str "S")],
                    constraints := [] }],
        animationData := none } "upper_arm" "S").bones_removed = 0 ∧
    boneHasSwitch
      ((remove_triplet_from_switch
        { bones := [{ name := "DEF_upper_arm",
                      props := [("control_rig_tools", PVal.str "S")],
                      constraints := [] }],
          animationData := none } "upper_arm" "S").armature.bones.getD 0
        { name := "", props := [], constraints := [] }) "S" = true := by
  constructor
  · rfl
  · rfl

/-- C6 (amended): `remove_triplet_from_switch armature base_name
switch_name` updates exactly the pose bones whose name's substring after
the last underscore equals `base_name` and that carry the switch: every
unmatched bone is returned unchanged, and every matched bone keeps its name
and has the switch's first occurrence erased from its parsed tag list (the
tag property is deleted when the list becomes empty). -/
theorem removeTriplet_selects_lastUnderscore (a : Armature) (base sw : String)
    (i : Nat) (pb : PoseBone) (h : a.bones[i]? = some pb) :
    (tripletMatches base sw pb = false →
      (remove_triplet_from_switch a base sw).armature.bones[i]? = some pb)
    ∧ (tripletMatches base sw pb = true →
      ∃ q, (remove_triplet_from_switch a base sw).armature.bones[i]? = some q ∧
        q.name = pb.name ∧
        parseBoneSwitches q = (parseBoneSwitches pb).erase sw) := by
  constructor
  · intro hm
    rw [removeTriplet_bone_at a base sw i pb h]
    unfold tripletBoneStep
    rw [if_neg (by simp [hm])]
  · intro hm
    refine ⟨(tripletBoneStep base sw pb).1,
      removeTriplet_bone_at a base sw i pb h, ?_, ?_⟩
    · unfold tripletBoneStep
      rw [if_pos hm]
      exact unassignSwitch_name pb sw
    · unfold tripletBoneStep
      rw [if_pos hm]
      have hsw : sw ∈ parseBoneSwitches pb := by
        unfold tripletMatches at hm
        simp only [Bool.and_eq_true] at hm
        have := hm.2
        unfold boneHasSwitch at this
        simpa using this
      exact unassignSwitch_parse pb sw hsw

/-- Closed instance of the C6 amended theorem at a concrete armature
(matched and unmatched bone both checked). -/
theorem removeTriplet_selects_lastUnderscore_witness :
    (tripletMatches "arm" "S"
        { name := "DEF_arm", props := [("control_rig_tools", PVal.str "S")],
          constraints := [] } = true) ∧
    (∃ q, (remove_triplet_from_switch
        { bones := [{ name := "DEF_arm",
                      props := [("control_rig_tools", PVal.str "S")],
                      constraints := [] }],
          animationData := none } "arm" "S").armature.bones[0]? = some q ∧
      q.name = "DEF_arm" ∧
      parseBoneSwitches q =
        (parseBoneSwitches
          { name := "DEF_arm", props := [("control_rig_tools", PVal.str "S")],
            constraints := [] }).erase "S") :=
  ⟨by decide,
   (removeTriplet_selects_lastUnderscore
      { bones := [{ name := "DEF_arm",
                    props := [("control_rig_tools", PVal.str "S")],
                    constraints := [] }],
        animationData := none } "arm" "S" 0
      { name := "DEF_arm", props := [("control_rig_tools", PVal.str "S")],
        constraints := [] } rfl).2 (by decide)⟩

/-- C4: the claim asserts no constraint belonging to a different switch is
removed.  The code removes constraints by the suffix test
`c.name.endswith("_" + switch_name)`, so removing switch `"A"` from the
`arm` triplet also removes `CRS_FK_B_A`, the constraint of the distinct
switch `"B_A"`: the input bone carries a COPY_TRANSFORMS constraint named
`CRS_FK_B_A`, yet after the call the bone has no constraints left. -/
theorem claim4_counterexample :
    ("B_A" ≠ "A") ∧
    ((remove_triplet_from_switch
      { bones := [{ name := "DEF_arm",
                    props := [("control_rig_tools", PVal.str "A;B_A")],
                    constraints :=
                      [{ ctype := "COPY_TRANSFORMS", name := "CRS_FK_A",
                         subtarget := "FK_arm", ownerSpace := "LOCAL",
                         targetSpace := "LOCAL", mute := false },
                       { ctype := "COPY_TRANSFORMS", name := "CRS_FK_B_A",
                         subtarget := "FK_arm", ownerSpace := "LOCAL",
                         targetSpace := "LOCAL", mute := false }] }],
        animationData := none } "arm" "A").armature.bones.map
        (fun b => b.constraints)) = [[]] := by
  constructor
  · decide
  · rfl

/-- C4 (amended): on every matched bone, `remove_triplet_from_switch`
removes exactly the COPY_TRANSFORMS constraints whose name ends with
`_<switch_name>` — this covers `CRS_FK_<switch_name>` and
`CRS_MCH_<switch_name>` but can also remove a constraint of a different
switch whose name has `_<switch_name>` as a suffix — and every driver whose
data path targets a removed constraint's influence is removed. -/
theorem removeTriplet_constraints_and_drivers (a : Armature) (base sw : String) :
    (∀ (i : Nat) (pb : PoseBone),
      a.bones[i]? = some pb → tripletMatches base sw pb = true →
      ∃ q : PoseBone,
        (remove_triplet_from_switch a base sw).armature.bones[i]? = some q ∧
        q.constraints =
          pb.constraints.filter (fun c => ¬ tripletCtRemoved sw c))
    ∧ (∀ ds, a.animationData = some ds →
      (remove_triplet_from_switch a base sw).armature.animationData =
        some (ds.filter (fun d => ¬ dpMatchesPairs (tripletRemovedPairs a base sw) d))) := by
  constructor
  · intro i pb h hm
    refine ⟨(tripletBoneStep base sw pb).1,
      removeTriplet_bone_at a base sw i pb h, ?_⟩
    unfold tripletBoneStep
    rw [if_pos hm]
    show (unassignSwitch pb sw).constraints.filter _ = _
    rw [unassignSwitch_constraints pb sw]
  · intro ds hds
    show (removeMatchingDrivers a.animationData
      (tripletFold base sw a.bones).2.2.2).1 = _
    rw [tripletFold_eq, hds]
    rfl

/-- Closed instance of the C4 amended theorem at a concrete armature with a
pre-existing driver on a removed constraint. -/
theorem removeTriplet_constraints_and_drivers_witness :
    (∃ q : PoseBone,
      (remove_triplet_from_switch exArmA "arm" "A").armature.bones[0]? = some q ∧
      q.constraints =
        exBoneA.constraints.filter (fun c => ¬ tripletCtRemoved "A" c)) ∧
    (remove_triplet_from_switch exArmA "arm" "A").armature.animationData =
      some ((exArmA.animationData.getD []).filter
        (fun d => ¬ dpMatchesPairs (tripletRemovedPairs exArmA "arm" "A") d)) :=
  ⟨(removeTriplet_constraints_and_drivers exArmA "arm" "A").1 0 exBoneA rfl
     (by decide),
   (removeTriplet_constraints_and_drivers exArmA "arm" "A").2
     (exArmA.animationData.getD []) rfl⟩

/-! ### Bone/switch assignment (C7) -/

/-- C7: the claim quantifies over every switch name, but
`_add_switch_to_bone` stores the `';'`-join and `bone_has_switch` re-parses
it dropping empty (and stripping whitespace-padded) parts, so after adding
the empty switch name the bone does not report it:
`bone_has_switch(_add_switch_to_bone(bone, ""), "")` is false. -/
theorem claim7_counterexample :
    boneHasSwitch
      (addSwitchToBone { name := "DEF_x", props := [], constraints := [] } "")
      "" = false := by
  rfl

/-- C7 (amended): for a switch name that survives the storage round trip
(nonempty, stripped, containing no `';'`) and a bone whose
`control_rig_tools` property is absent or a string, `_add_switch_to_bone`
makes `bone_has_switch` true, preserves every previously assigned switch,
is the identity when the switch is already present, and preserves
duplicate-freeness of the parsed list. -/
theorem addSwitchToBone_spec (pb : PoseBone) (s : String)
    (hs : wfPart s) (htag : tagOkay pb) :
    boneHasSwitch (addSwitchToBone pb s) s = true
    ∧ (∀ t ∈ parseBoneSwitches pb, t ∈ parseBoneSwitches (addSwitchToBone pb s))
    ∧ (s ∈ parseBoneSwitches pb → addSwitchToBone pb s = pb)
    ∧ ((parseBoneSwitches pb).Nodup →
        (parseBoneSwitches (addSwitchToBone pb s)).Nodup) := by
  by_cases hmem : s ∈ parseBoneSwitches pb
  · have heq : addSwitchToBone pb s = pb := by
      unfold addSwitchToBone
      rw [if_pos hmem]
    refine ⟨?_, ?_, fun _ => heq, ?_⟩
    · rw [heq]
      unfold boneHasSwitch
      simpa using hmem
    · intro t ht
      rw [heq]
      exact ht
    · intro hnd
      rw [heq]
      exact hnd
  · have heq : parseBoneSwitches (addSwitchToBone pb s) =
        parseBoneSwitches pb ++ [s] := by
      unfold addSwitchToBone
      rw [if_neg hmem]
      apply parseBoneSwitches_set_join
      · simp
      · intro p hp
        rcases List.mem_append.mp hp with hp | hp
        · exact parseBoneSwitches_wf pb htag p hp
        · rw [List.mem_singleton] at hp
          rw [hp]
          exact hs
    refine ⟨?_, ?_, fun hc => absurd hc hmem, ?_⟩
    · unfold boneHasSwitch
      rw [heq]
      simp
    · intro t ht
      rw [heq]
      exact List.mem_append_left _ ht
    · intro hnd
      rw [heq]
      rw [List.nodup_append]
      exact ⟨hnd, List.nodup_singleton s,
        fun x hx hxs => hmem (by rwa [List.mem_singleton.mp hxs] at hx)⟩

/-- Closed instance of the C7 amended theorem. -/
theorem addSwitchToBone_spec_witness :
    wfPart "S" ∧
    tagOkay { name := "DEF_x", props := [], constraints := [] } ∧
    (boneHasSwitch
      (addSwitchToBone { name := "DEF_x", props := [], constraints := [] } "S")
      "S" = true
    ∧ (∀ t ∈ parseBoneSwitches { name := "DEF_x", props := [], constraints := [] },
        t ∈ parseBoneSwitches
          (addSwitchToBone { name := "DEF_x", props := [], constraints := [] } "S"))
    ∧ ("S" ∈ parseBoneSwitches { name := "DEF_x", props := [], constraints := [] } →
        addSwitchToBone { name := "DEF_x", props := [], constraints := [] } "S" =
          { name := "DEF_x", props := [], constraints := [] })
    ∧ ((parseBoneSwitches { name := "DEF_x", props := [], constraints := [] }).Nodup →
        (parseBoneSwitches
          (addSwitchToBone { name := "DEF_x", props := [], constraints := [] } "S")).Nodup)) :=
  ⟨⟨rfl, by decide, by decide⟩,
   by unfold tagOkay; trivial,
   addSwitchToBone_spec { name := "DEF_x", props := [], constraints := [] } "S"
     ⟨rfl, by decide, by decide⟩ (by unfold tagOkay; trivial)⟩

/-! ### clear_switch_properties (C10) -/

theorem props_hasKey_del_self (ps : Props) (k : String) :
    (ps.del k).hasKey k = false := by
  unfold Props.del Props.hasKey
  rw [Bool.eq_false_iff]
  intro h
  rw [List.any_eq_true] at h
  obtain ⟨kv, hkv, hp⟩ := h
  rw [List.mem_filter] at hkv
  have h2 := hkv.2
  simp only [ne_eq, decide_not, Bool.not_eq_true', decide_eq_false_iff_not] at h2
  simp only [decide_eq_true_eq] at hp
  exact h2 hp

theorem props_hasKey_del_ne (ps : Props) (k k' : String) (h : k' ≠ k) :
    (ps.del k).hasKey k' = ps.hasKey k' := by
  unfold Props.del Props.hasKey
  induction ps with
  | nil => simp
  | cons kv rest ih =>
    by_cases hk : kv.1 = k
    · rw [List.filter_cons_of_neg (by simp [hk])]
      rw [ih, List.any_cons]
      have : (decide (kv.1 = k')) = false := by
        simp only [decide_eq_false_iff_not]
        intro hc
        exact h (by rw [← hc, hk])
      simp [this]
    · rw [List.filter_cons_of_pos (by simp [hk])]
      rw [List.any_cons, List.any_cons, ih]

theorem props_hasKey_iff_mem_keys (ps : Props) (k : String) :
    ps.hasKey k = true ↔ k ∈ ps.keys := by
  unfold Props.hasKey Props.keys
  rw [List.any_eq_true]
  constructor
  · rintro ⟨kv, hkv, hp⟩
    simp only [decide_eq_true_eq] at hp
    rw [List.mem_map]
    exact ⟨kv, hkv, hp⟩
  · intro h
    rw [List.mem_map] at h
    obtain ⟨kv, hkv, hp⟩ := h
    exact ⟨kv, hkv, by simp [hp]⟩

theorem delKeysLoop_go (keys : List String) (ps : Props) (n : Nat)
    (hnd : keys.Nodup) (hall : ∀ k ∈ keys, ps.hasKey k = true) :
    keys.foldl
      (fun acc k => if acc.1.hasKey k then (acc.1.del k, acc.2 + 1) else acc)
      (ps, n) =
    (ps.filter (fun kv => ¬ kv.1 ∈ keys), n + keys.length) := by
  induction keys generalizing ps n with
  | nil => simp
  | cons k ks ih =>
    rw [List.foldl_cons]
    have hk : ps.hasKey k = true := hall k (List.mem_cons_self k ks)
    rw [if_pos hk]
    have hnd' := List.nodup_cons.mp hnd
    have hall' : ∀ k' ∈ ks, (ps.del k).hasKey k' = true := by
      intro k' hk'
      rw [props_hasKey_del_ne ps k k' (fun he => hnd'.1 (he ▸ hk'))]
      exact hall k' (List.mem_cons_of_mem k hk')
    rw [ih (ps.del k) (n + 1) hnd'.2 hall']
    rw [Prod.mk.injEq]
    constructor
    · unfold Props.del
      rw [List.filter_filter]
      apply List.filter_congr
      intro kv _
      by_cases hq : kv.1 = k
      · simp [hq]
      · simp [hq]
    · rw [List.length_cons]
      omega

theorem delKeysLoop_eq (ps : Props) (keys : List String)
    (hnd : keys.Nodup) (hall : ∀ k ∈ keys, ps.hasKey k = true) :
    delKeysLoop ps keys =
      (ps.filter (fun kv => ¬ kv.1 ∈ keys), keys.length) := by
  unfold delKeysLoop
  rw [delKeysLoop_go keys ps 0 hnd hall]
  simp

theorem clearKeys_nodup (ctrl : PoseBone) (hnd : ctrl.props.keys.Nodup) :
    (clearKeys ctrl).Nodup :=
  hnd.filter _

theorem clearKeys_all_present (ctrl : PoseBone) :
    ∀ k ∈ clearKeys ctrl, ctrl.props.hasKey k = true := by
  intro k hk
  unfold clearKeys at hk
  rw [List.mem_filter] at hk
  exact (props_hasKey_iff_mem_keys ctrl.props k).mpr hk.1

theorem delKeysLoop_clearKeys (ctrl : PoseBone) (hnd : ctrl.props.keys.Nodup) :
    (delKeysLoop ctrl.props (clearKeys ctrl)).1 =
      ctrl.props.filter (fun kv => kv.1 = "_RNA_UI") := by
  rw [delKeysLoop_eq ctrl.props (clearKeys ctrl) (clearKeys_nodup ctrl hnd)
    (clearKeys_all_present ctrl)]
  apply List.filter_congr
  intro kv hkv
  unfold clearKeys
  by_cases hq : kv.1 = "_RNA_UI"
  · have hnm : ¬ kv.1 ∈ ctrl.props.keys.filter (fun k => k ≠ "_RNA_UI") := by
      rw [List.mem_filter]
      simp [hq]
    simp [hnm, hq]
  · have hkeys : kv.1 ∈ ctrl.props.keys := by
      unfold Props.keys
      rw [List.mem_map]
      exact ⟨kv, hkv, rfl⟩
    simp [hkeys, hq]

theorem clearTagStep_hasKey (pb : PoseBone) :
    (clearTagStep pb).props.hasKey "control_rig_tools" = false := by
  unfold clearTagStep
  by_cases h : pb.props.hasKey "control_rig_tools" = true
  · rw [if_pos h]
    exact props_hasKey_del_self pb.props "control_rig_tools"
  · rw [if_neg h]
    simpa using h

theorem list_switches_rnaOnly (pb : PoseBone)
    (h : ∀ kv ∈ pb.props, kv.1 = "_RNA_UI") : list_switches pb = [] := by
  unfold list_switches
  have hgen : ∀ (l : Props), (∀ kv ∈ l, kv.1 = "_RNA_UI") →
      l.foldl
        (fun m kv =>
          if kv.1 = "_RNA_UI" then m
          else match kv.2 with
            | .num q => qdictSet m kv.1 q
            | .str _ => m) ([] : List (String × ℚ)) = [] := by
    intro l
    induction l with
    | nil => intro _; rfl
    | cons kv rest ih =>
      intro hall
      rw [List.foldl_cons, if_pos (hall kv (List.mem_cons_self kv rest))]
      exact ih (fun kv' h' => hall kv' (List.mem_cons_of_mem kv h'))
  exact hgen pb.props h

theorem updFirstNamed_find? (l : List PoseBone) (n : String)
    (f : PoseBone → PoseBone) (pb : PoseBone)
    (h : l.find? (fun b => b.name = n) = some pb)
    (hf : ∀ b, (f b).name = b.name) :
    (updFirstNamed l n f).find? (fun b => b.name = n) = some (f pb) := by
  induction l with
  | nil => simp at h
  | cons b rest ih =>
    by_cases hb : b.name = n
    · rw [List.find?_cons_of_pos _ (by simp [hb])] at h
      have hpb : b = pb := Option.some.inj h
      subst hpb
      unfold updFirstNamed
      rw [if_pos hb]
      rw [List.find?_cons_of_pos _ (by simp [hf b, hb])]
    · rw [List.find?_cons_of_neg _ (by simp [hb])] at h
      unfold updFirstNamed
      rw [if_neg hb]
      rw [List.find?_cons_of_neg _ (by simp [hb])]
      exact ih h

theorem find?_name_map (l : List PoseBone) (n : String)
    (m : PoseBone → PoseBone) (hm : ∀ b, (m b).name = b.name) :
    (l.map m).find? (fun b => b.name = n) =
      Option.map m (l.find? (fun b => b.name = n)) := by
  induction l with
  | nil => rfl
  | cons b rest ih =>
    by_cases hb : b.name = n
    · rw [List.map_cons, List.find?_cons_of_pos _ (by simp [hm, hb]),
        List.find?_cons_of_pos _ (by simp [hb])]
      rfl
    · rw [List.map_cons, List.find?_cons_of_neg _ (by simp [hm, hb]),
        List.find?_cons_of_neg _ (by simp [hb])]
      exact ih

theorem countP_updFirstNamed (l : List PoseBone) (n : String)
    (f : PoseBone → PoseBone) (p : PoseBone → Bool) (pb : PoseBone)
    (h : l.find? (fun b => b.name = n) = some pb) :
    (updFirstNamed l n f).countP p + (if p pb then 1 else 0) =
      l.countP p + (if p (f pb) then 1 else 0) := by
  induction l with
  | nil => simp at h
  | cons b rest ih =>
    by_cases hb : b.name = n
    · rw [List.find?_cons_of_pos _ (by simp [hb])] at h
      have hpb : pb = b := ((Option.some.injEq _ _).mp h).symm
      subst hpb
      unfold updFirstNamed
      rw [if_pos hb]
      rw [List.countP_cons, List.countP_cons]
      omega
    · rw [List.find?_cons_of_neg _ (by simp [hb])] at h
      unfold updFirstNamed
      rw [if_neg hb]
      rw [List.countP_cons, List.countP_cons]
      have := ih h
      omega

/-- C10: `clear_switch_properties` deletes every custom property except
`_RNA_UI` from CTRL_Settings (non-numeric ones included), deletes the
`control_rig_tools` tag from every pose bone of the armature, leaves
`list_switches` empty on CTRL_Settings, and returns the numbers of
properties and tags actually deleted (the CTRL_Settings bone's own tag, if
any, is deleted in the first phase and therefore counted among the
properties, not the tags). -/
theorem clear_switch_properties_spec (a : Armature) (ctrl : PoseBone)
    (hctrl : a.findBone "CTRL_Settings" = some ctrl)
    (hnd : ctrl.props.keys.Nodup) :
    ∃ r : ClearResult, clear_switch_properties a = .ok r ∧
      (∀ pb ∈ r.armature.bones, pb.props.hasKey "control_rig_tools" = false) ∧
      (∃ pbc : PoseBone, r.armature.findBone "CTRL_Settings" = some pbc ∧
        pbc.props = ctrl.props.filter (fun kv => kv.1 = "_RNA_UI") ∧
        list_switches pbc = []) ∧
      r.switch_props_removed = (clearKeys ctrl).length ∧
      r.bone_tags_removed +
          (if ctrl.props.hasKey "control_rig_tools" then 1 else 0) =
        a.bones.countP (fun pb => pb.props.hasKey "control_rig_tools") := by
  have hok : clear_switch_properties a =
      .ok { armature :=
              { clearPhase1 a ctrl with
                bones := (clearPhase1 a ctrl).bones.map clearTagStep },
            switch_props_removed := (delKeysLoop ctrl.props (clearKeys ctrl)).2,
            bone_tags_removed :=
              (clearPhase1 a ctrl).bones.countP
                (fun pb => pb.props.hasKey "control_rig_tools") } := by
    unfold clear_switch_properties get_control_settings_pose_bone
    rw [hctrl]
  refine ⟨_, hok, ?_, ?_, ?_, ?_⟩
  · intro pb hpb
    rw [List.mem_map] at hpb
    obtain ⟨q, _, hq⟩ := hpb
    rw [← hq]
    exact clearTagStep_hasKey q
  · have hg : ∀ b : PoseBone,
        ((fun pb : PoseBone => ({ pb with
          props := (delKeysLoop pb.props (clearKeys ctrl)).1 } : PoseBone)) b).name =
          b.name :=
      fun _ => rfl
    have hct : ∀ b : PoseBone, (clearTagStep b).name = b.name := by
      intro b
      unfold clearTagStep
      split <;> rfl
    have hf1 := updFirstNamed_find? a.bones "CTRL_Settings" _ ctrl hctrl hg
    have hprops : (delKeysLoop ctrl.props (clearKeys ctrl)).1 =
        ctrl.props.filter (fun kv => kv.1 = "_RNA_UI") :=
      delKeysLoop_clearKeys ctrl hnd
    refine ⟨clearTagStep
      ({ ctrl with props := (delKeysLoop ctrl.props (clearKeys ctrl)).1 } :
        PoseBone), ?_, ?_, ?_⟩
    · show ((clearPhase1 a ctrl).bones.map clearTagStep).find? _ = _
      rw [find?_name_map _ _ _ hct]
      show Option.map clearTagStep
        ((updFirstNamed a.bones "CTRL_Settings" _).find? _) = _
      rw [hf1]
      rfl
    · have hnotag : ({ ctrl with
          props := (delKeysLoop ctrl.props (clearKeys ctrl)).1 } :
            PoseBone).props.hasKey "control_rig_tools" = false := by
        show ((delKeysLoop ctrl.props (clearKeys ctrl)).1).hasKey _ = false
        rw [hprops]
        rw [Bool.eq_false_iff]
        intro hcon
        rw [props_hasKey_iff_mem_keys] at hcon
        unfold Props.keys at hcon
        rw [List.mem_map] at hcon
        obtain ⟨kv, hkv, hk⟩ := hcon
        rw [List.mem_filter] at hkv
        have := hkv.2
        rw [hk] at this
        simp at this
      unfold clearTagStep
      rw [if_neg (by simp [hnotag])]
      exact hprops
    · apply list_switches_rnaOnly
      intro kv hkv
      have hmem : kv ∈ ctrl.props.filter (fun kv => kv.1 = "_RNA_UI") := by
        have hpr : (clearTagStep { ctrl with
            props := (delKeysLoop ctrl.props (clearKeys ctrl)).1 }).props =
            (delKeysLoop ctrl.props (clearKeys ctrl)).1 := by
          unfold clearTagStep
          split
          · exfalso
            rename_i hcon
            rw [show ({ ctrl with
                props := (delKeysLoop ctrl.props (clearKeys ctrl)).1 } :
                  PoseBone).props = (delKeysLoop ctrl.props (clearKeys ctrl)).1
              from rfl, hprops] at hcon
            rw [props_hasKey_iff_mem_keys] at hcon
            unfold Props.keys at hcon
            rw [List.mem_map] at hcon
            obtain ⟨kv', hkv', hk'⟩ := hcon
            rw [List.mem_filter] at hkv'
            have := hkv'.2
            rw [hk'] at this
            simp at this
          · rfl
        rw [hpr, hprops] at hkv
        exact hkv
      rw [List.mem_filter] at hmem
      simpa using hmem.2
  · show (delKeysLoop ctrl.props (clearKeys ctrl)).2 = _
    rw [delKeysLoop_eq ctrl.props (clearKeys ctrl) (clearKeys_nodup ctrl hnd)
      (clearKeys_all_present ctrl)]
  · have hnew : (delKeysLoop ctrl.props (clearKeys ctrl)).1.hasKey
        "control_rig_tools" = false := by
      rw [delKeysLoop_clearKeys ctrl hnd]
      rw [Bool.eq_false_iff]
      intro hcon
      rw [props_hasKey_iff_mem_keys] at hcon
      unfold Props.keys at hcon
      rw [List.mem_map] at hcon
      obtain ⟨kv, hkv, hk⟩ := hcon
      rw [List.mem_filter] at hkv
      have h2 := hkv.2
      rw [hk] at h2
      simp at h2
    have hstep := countP_updFirstNamed a.bones "CTRL_Settings"
      (fun pb => { pb with props := (delKeysLoop pb.props (clearKeys ctrl)).1 })
      (fun pb => pb.props.hasKey "control_rig_tools") ctrl hctrl
    simp only at hstep
    simp only [hnew, Bool.false_eq_true, if_false, Nat.add_zero] at hstep
    exact hstep

/-- Closed instance of the C10 theorem. -/
theorem clear_switch_properties_spec_witness :
    ({ bones := [{ name := "CTRL_Settings",
                   props := [("A", PVal.num 1), ("note", PVal.str "x")],
                   constraints := [] },
                 { name := "Other_bone",
                   props := [("control_rig_tools", PVal.str "A")],
                   constraints := [] }],
       animationData := none } : Armature).findBone "CTRL_Settings" =
      some { name := "CTRL_Settings",
             props := [("A", PVal.num 1), ("note", PVal.str "x")],
             constraints := [] } ∧
    ∃ r : ClearResult,
      clear_switch_properties
        { bones := [{ name := "CTRL_Settings",
                      props := [("A", PVal.num 1), ("note", PVal.str "x")],
                      constraints := [] },
                    { name := "Other_bone",
                      props := [("control_rig_tools", PVal.str "A")],
                      constraints := [] }],
          animationData := none } = .ok r ∧
      (∀ pb ∈ r.armature.bones, pb.props.hasKey "control_rig_tools" = false) ∧
      (∃ pbc : PoseBone, r.armature.findBone "CTRL_Settings" = some pbc ∧
        pbc.props = ([("A", PVal.num 1), ("note", PVal.str "x")] : Props).filter
          (fun kv => kv.1 = "_RNA_UI") ∧
        list_switches pbc = []) ∧
      r.switch_props_removed =
        (clearKeys { name := "CTRL_Settings",
                     props := [("A", PVal.num 1), ("note", PVal.str "x")],
                     constraints := [] }).length ∧
      r.bone_tags_removed +
          (if Props.hasKey [("A", PVal.num 1), ("note", PVal.str "x")]
              "control_rig_tools" then 1 else 0) =
        ([{ name := "CTRL_Settings",
            props := [("A", PVal.num 1), ("note", PVal.str "x")],
            constraints := [] },
          { name := "Other_bone",
            props := [("control_rig_tools", PVal.str "A")],
            constraints := [] }] : List PoseBone).countP
          (fun pb => pb.props.hasKey "control_rig_tools") :=
  ⟨rfl,
   clear_switch_properties_spec
     { bones := [{ name := "CTRL_Settings",
                   props := [("A", PVal.num 1), ("note", PVal.str "x")],
                   constraints := [] },
                 { name := "Other_bone",
                   props := [("control_rig_tools", PVal.str "A")],
                   constraints := [] }],
       animationData := none }
     { name := "CTRL_Settings",
       props := [("A", PVal.num 1), ("note", PVal.str "x")],
       constraints := [] } rfl (by decide)⟩

/-! ### Switch values stay in the unit interval (C8) -/

theorem qdictSet_mem (m : List (String × ℚ)) (k : String) (q : ℚ)
    (kv : String × ℚ) (h : kv ∈ qdictSet m k q) : kv = (k, q) ∨ kv ∈ m := by
  unfold qdictSet at h
  split at h
  · rw [List.mem_map] at h
    obtain ⟨a, ha, ha2⟩ := h
    by_cases hak : a.1 = k
    · rw [if_pos hak] at ha2
      exact Or.inl ha2.symm
    · rw [if_neg hak] at ha2
      exact Or.inr (ha2 ▸ ha)
  · rcases List.mem_append.mp h with h | h
    · exact Or.inr h
    · simp only [List.mem_singleton] at h
      exact Or.inl h

theorem list_switches_sourced (pb : PoseBone) (kv : String × ℚ)
    (h : kv ∈ list_switches pb) : ∃ kv' ∈ pb.props, kv'.2 = PVal.num kv.2 := by
  unfold list_switches at h
  have hgen : ∀ (l : Props) (acc : List (String × ℚ)),
      (∀ x ∈ acc, ∃ kv' ∈ pb.props, kv'.2 = PVal.num x.2) →
      (∀ x ∈ l, x ∈ pb.props) →
      ∀ x ∈ l.foldl
        (fun m kv =>
          if kv.1 = "_RNA_UI" then m
          else match kv.2 with
            | .num q => qdictSet m kv.1 q
            | .str _ => m) acc,
        ∃ kv' ∈ pb.props, kv'.2 = PVal.num x.2 := by
    intro l
    induction l with
    | nil => intro acc hacc _ x hx; exact hacc x hx
    | cons e rest ih =>
      intro acc hacc hsub x hx
      rw [List.foldl_cons] at hx
      by_cases he : e.1 = "_RNA_UI"
      · rw [if_pos he] at hx
        exact ih acc hacc (fun y hy => hsub y (List.mem_cons_of_mem e hy)) x hx
      · rw [if_neg he] at hx
        cases hv : e.2 with
        | num q =>
          rw [hv] at hx
          refine ih _ ?_ (fun y hy => hsub y (List.mem_cons_of_mem e hy)) x hx
          intro y hy
          rcases qdictSet_mem acc e.1 q y hy with hy | hy
          · exact ⟨e, hsub e (List.mem_cons_self e rest), by rw [hv, hy]⟩
          · exact hacc y hy
        | str s =>
          rw [hv] at hx
          exact ih acc hacc (fun y hy => hsub y (List.mem_cons_of_mem e hy)) x hx
  exact hgen pb.props [] (by intro x hx; simp at hx) (fun x hx => hx) kv h

theorem list_switches_bounded (pb : PoseBone) (hinv : numPropsInRange pb) :
    ∀ kv ∈ list_switches pb, 0 ≤ kv.2 ∧ kv.2 ≤ 1 := by
  intro kv hkv
  obtain ⟨kv', hkv', hv⟩ := list_switches_sourced pb kv hkv
  have := hinv kv' hkv'
  rw [hv] at this
  exact this

theorem numPropsInRange_set (pb : PoseBone) (k : String) (q : ℚ)
    (hinv : numPropsInRange pb) (hq : 0 ≤ q ∧ q ≤ 1) :
    numPropsInRange { pb with props := pb.props.set k (.num q) } := by
  intro kv hkv
  rcases props_mem_set pb.props k (.num q) kv hkv with h | h
  · rw [h]
    exact hq
  · exact hinv kv h

theorem clamp01_bounds (v : ℚ) : 0 ≤ clamp01 v ∧ clamp01 v ≤ 1 := by
  unfold clamp01
  constructor
  · exact le_max_left 0 _
  · rw [max_le_iff]
    exact ⟨by norm_num, min_le_left 1 v⟩

theorem findBone_updFirstBone (a : Armature) (n : String)
    (f : PoseBone → PoseBone) (pb : PoseBone)
    (h : a.findBone n = some pb) (hf : ∀ b, (f b).name = b.name) :
    (a.updFirstBone n f).findBone n = some (f pb) :=
  updFirstNamed_find? a.bones n f pb h hf

/-- C8: each switch reported by `list_switches` has its stored value, so
under the range invariant every reported value lies in `[0, 1]`;
`add_switch_property` initialises a fresh switch to `0.0` and preserves the
invariant; the proxy slider write (host-clamped to the declared
`min=0.0`/`max=1.0` range) always stores a value in `[0, 1]` and preserves
the invariant.  These are all the writes the system performs on switch
values. -/
theorem switch_values_in_range (a : Armature) (ctrl : PoseBone)
    (n sw : String) (v : ℚ)
    (hctrl : a.findBone "CTRL_Settings" = some ctrl)
    (hinv : numPropsInRange ctrl) :
    (∀ kv ∈ list_switches ctrl, 0 ≤ kv.2 ∧ kv.2 ≤ 1)
    ∧ (0 ≤ clamp01 v ∧ clamp01 v ≤ 1)
    ∧ (∀ a', add_switch_property a n = .ok a' →
        ∃ pbc : PoseBone, a'.findBone "CTRL_Settings" = some pbc ∧
          numPropsInRange pbc ∧
          (∀ kv ∈ list_switches pbc, 0 ≤ kv.2 ∧ kv.2 ≤ 1) ∧
          (ctrl.props.hasKey n = false → pbc.props.get n = some (.num 0)))
    ∧ (∃ pbc : PoseBone,
        (proxy_value_update a sw v).findBone "CTRL_Settings" = some pbc ∧
        numPropsInRange pbc ∧
        (∀ kv ∈ list_switches pbc, 0 ≤ kv.2 ∧ kv.2 ≤ 1)) := by
  refine ⟨list_switches_bounded ctrl hinv, clamp01_bounds v, ?_, ?_⟩
  · intro a' ha'
    unfold add_switch_property get_control_settings_pose_bone at ha'
    rw [hctrl] at ha'
    dsimp only at ha'
    by_cases hk : ctrl.props.hasKey n = true
    · rw [if_pos hk] at ha'
      have haa : a' = a := (Except.ok.inj ha').symm
      subst haa
      refine ⟨ctrl, hctrl, hinv, list_switches_bounded ctrl hinv, ?_⟩
      intro hfalse
      rw [hk] at hfalse
      exact absurd hfalse (by simp)
    · rw [if_neg hk] at ha'
      have haa := (Except.ok.inj ha').symm
      subst haa
      have hfind := findBone_updFirstBone a "CTRL_Settings"
        (fun pb => { pb with props := pb.props.set n (.num 0) }) ctrl hctrl
        (fun _ => rfl)
      have hinv' : numPropsInRange
          ({ ctrl with props := ctrl.props.set n (.num 0) } : PoseBone) :=
        numPropsInRange_set ctrl n 0 hinv (by norm_num)
      refine ⟨_, hfind, hinv', list_switches_bounded _ hinv', ?_⟩
      intro _
      exact props_get_set ctrl.props n (.num 0)
  · unfold proxy_value_update get_control_settings_pose_bone
    rw [hctrl]
    have hfind := findBone_updFirstBone a "CTRL_Settings"
      (fun pb => { pb with props := pb.props.set sw (.num (clamp01 v)) }) ctrl hctrl
      (fun _ => rfl)
    have hinv' : numPropsInRange
        ({ ctrl with props := ctrl.props.set sw (.num (clamp01 v)) } : PoseBone) :=
      numPropsInRange_set ctrl sw (clamp01 v) hinv (clamp01_bounds v)
    exact ⟨_, hfind, hinv', list_switches_bounded _ hinv'⟩

/-- Closed instance of the C8 theorem. -/
theorem switch_values_in_range_witness :
    ({ bones := [{ name := "CTRL_Settings", props := [("A", PVal.num 1)],
                   constraints := [] }],
       animationData := none } : Armature).findBone "CTRL_Settings" =
      some { name := "CTRL_Settings", props := [("A", PVal.num 1)],
             constraints := [] } ∧
    numPropsInRange
      { name := "CTRL_Settings", props := [("A", PVal.num 1)],
        constraints := [] } ∧
    ((∀ kv ∈ list_switches
        { name := "CTRL_Settings", props := [("A", PVal.num 1)],
          constraints := [] }, 0 ≤ kv.2 ∧ kv.2 ≤ 1)
    ∧ (0 ≤ clamp01 2 ∧ clamp01 2 ≤ 1)
    ∧ (∀ a', add_switch_property
          { bones := [{ name := "CTRL_Settings", props := [("A", PVal.num 1)],
                        constraints := [] }],
            animationData := none } "B" = .ok a' →
        ∃ pbc : PoseBone, a'.findBone "CTRL_Settings" = some pbc ∧
          numPropsInRange pbc ∧
          (∀ kv ∈ list_switches pbc, 0 ≤ kv.2 ∧ kv.2 ≤ 1) ∧
          (Props.hasKey [("A", PVal.num 1)] "B" = false →
            pbc.props.get "B" = some (.num 0)))
    ∧ (∃ pbc : PoseBone,
        (proxy_value_update
          { bones := [{ name := "CTRL_Settings", props := [("A", PVal.num 1)],
                        constraints := [] }],
            animationData := none } "A" 2).findBone "CTRL_Settings" = some pbc ∧
        numPropsInRange pbc ∧
        (∀ kv ∈ list_switches pbc, 0 ≤ kv.2 ∧ kv.2 ≤ 1))) :=
  ⟨rfl,
   (by
     intro kv hkv
     simp only [List.mem_singleton] at hkv
     subst hkv
     exact ⟨by norm_num, by norm_num⟩),
   switch_values_in_range
     { bones := [{ name := "CTRL_Settings", props := [("A", PVal.num 1)],
                   constraints := [] }],
       animationData := none }
     { name := "CTRL_Settings", props := [("A", PVal.num 1)],
       constraints := [] } "B" "A" 2 rfl
     (by
       intro kv hkv
       simp only [List.mem_singleton] at hkv
       subst hkv
       exact ⟨by norm_num, by norm_num⟩)⟩

/-! ### Error handling (C9) -/

theorem addCopyTransformsE_ok (fails : FailSet) (pb : PoseBone)
    (t c : String) (h1 : fails .constraintNew = false)
    (h2 : fails .constraintSetField = false) :
    ∃ pr, addCopyTransformsE fails pb t c = .ok pr := by
  unfold addCopyTransformsE
  have hnew : hostCall fails .constraintNew = .ok () := by
    unfold hostCall
    rw [if_neg (by simp [h1])]
  have hfield : hostCall fails .constraintSetField = .ok () := by
    unfold hostCall
    rw [if_neg (by simp [h2])]
  cases hf : pb.constraints.find? (ctMatches c t) with
  | some cc =>
    cases hsp : hostCall fails HostOp.constraintSetSpace with
    | error e => exact ⟨_, rfl⟩
    | ok u => exact ⟨_, rfl⟩
  | none =>
    rw [hnew, hfield]
    cases hsp : hostCall fails HostOp.constraintSetSpace with
    | error e => exact ⟨_, rfl⟩
    | ok u => exact ⟨_, rfl⟩

theorem switchStepFkE_ok (fails : FailSet) (fkEx : Bool)
    (fkName boneName : String) (sfb : List String)
    (st : PoseBone × Option (List Driver)) (s : String)
    (h1 : fails .constraintNew = false) (h2 : fails .constraintSetField = false) :
    ∃ st', switchStepFkE fails fkEx fkName boneName sfb st s = .ok st' := by
  unfold switchStepFkE
  by_cases hfk : fkEx = true
  · rw [if_pos hfk]
    obtain ⟨pr, hpr⟩ :=
      addCopyTransformsE_ok fails st.1 fkName ("CRS_FK_" ++ s) h1 h2
    rw [hpr]
    exact ⟨_, rfl⟩
  · rw [if_neg hfk]
    exact ⟨st, rfl⟩

theorem switchStepMchE_ok (fails : FailSet) (mchEx : Bool)
    (mchName boneName : String) (sfb : List String)
    (st : PoseBone × Option (List Driver)) (s : String)
    (h1 : fails .constraintNew = false) (h2 : fails .constraintSetField = false) :
    ∃ st', switchStepMchE fails mchEx mchName boneName sfb st s = .ok st' := by
  unfold switchStepMchE
  by_cases hm : mchEx = true
  · rw [if_pos hm]
    obtain ⟨pr, hpr⟩ :=
      addCopyTransformsE_ok fails st.1 mchName ("CRS_MCH_" ++ s) h1 h2
    rw [hpr]
    exact ⟨_, rfl⟩
  · rw [if_neg hm]
    exact ⟨st, rfl⟩

theorem processSwitchStepE_ok (fails : FailSet) (fkEx mchEx : Bool)
    (fkName mchName boneName : String) (sfb : List String)
    (st : PoseBone × Option (List Driver)) (s : String)
    (h1 : fails .constraintNew = false) (h2 : fails .constraintSetField = false) :
    ∃ st', processSwitchStepE fails fkEx mchEx fkName mchName boneName sfb st s =
      .ok st' := by
  unfold processSwitchStepE
  obtain ⟨st1, hst1⟩ := switchStepFkE_ok fails fkEx fkName boneName sfb st s h1 h2
  rw [hst1]
  exact switchStepMchE_ok fails mchEx mchName boneName sfb st1 s h1 h2

theorem foldlM_except_ok {σ α : Type} (step : σ → α → Except String σ)
    (l : List α) (init : σ)
    (h : ∀ s x, x ∈ l → ∃ s', step s x = .ok s') :
    ∃ s', l.foldlM step init = .ok s' := by
  induction l generalizing init with
  | nil => exact ⟨init, rfl⟩
  | cons x rest ih =>
    obtain ⟨s1, hs1⟩ := h init x (List.mem_cons_self x rest)
    rw [List.foldlM_cons, hs1]
    exact ih s1 (fun s y hy => h s y (List.mem_cons_of_mem x hy))

theorem processBoneE_ok (fails : FailSet) (stb : List (String × List String))
    (order : List String) (st : Armature × List String) (i : Nat)
    (h1 : fails .constraintNew = false) (h2 : fails .constraintSetField = false) :
    ∃ st', processBoneE fails stb order st i = .ok st' := by
  unfold processBoneE
  cases hb : st.1.bones[i]? with
  | none => exact ⟨st, rfl⟩
  | some pb =>
    dsimp only
    by_cases hdef : pyStartsWith pb.name "DEF_" = true
    · rw [if_neg (by simp [hdef])]
      by_cases hno : ((st.1.findBone ("FK_" ++ pb.name.drop 4)).isSome = false ∧
          (st.1.findBone ("MCH_" ++ pb.name.drop 4)).isSome = false)
      · rw [if_pos hno]
        exact ⟨st, rfl⟩
      · rw [if_neg hno]
        by_cases hempty : (boneSfb stb order pb.name).isEmpty = true
        · rw [if_pos hempty]
          exact ⟨st, rfl⟩
        · rw [if_neg hempty]
          obtain ⟨res, hres⟩ := foldlM_except_ok
            (processSwitchStepE fails
              ((st.1.findBone ("FK_" ++ pb.name.drop 4)).isSome)
              ((st.1.findBone ("MCH_" ++ pb.name.drop 4)).isSome)
              ("FK_" ++ pb.name.drop 4) ("MCH_" ++ pb.name.drop 4)
              pb.name (boneSfb stb order pb.name))
            (boneSfb stb order pb.name) (pb, st.1.animationData)
            (fun s x _ => processSwitchStepE_ok fails _ _ _ _ _ _ s x h1 h2)
          rw [hres]
          exact ⟨_, rfl⟩
    · rw [if_pos (by simp [hdef])]
      exact ⟨st, rfl⟩

theorem except_isOk_error {α : Type} (e : String) :
    (Except.error e : Except String α).isOk = false := rfl

theorem except_isOk_ok {α : Type} (a : α) :
    (Except.ok a : Except String α).isOk = true := rfl

/-- C9: the claim says the mutation routines never raise on individual
constraint/driver failures, but in `build_rebuild_switches` the
`_add_copy_transforms` call (`constraints.new` and the field assignments)
sits outside every `try` block: when constraint creation fails on an
armature that needs a new constraint, the exception propagates out of
`build_rebuild_switches`. -/
theorem claim9_counterexample :
    (build_rebuild_switchesE (fun op => op = HostOp.constraintNew)
      { bones := [{ name := "DEF_arm",
                    props := [("control_rig_tools", PVal.str "A")],
                    constraints := [] },
                  { name := "FK_arm", props := [], constraints := [] }],
        animationData := none }).isOk = false := by
  rfl

/-- C9 (amended): `get_active_armature` raises `ValueError` iff the context
object is absent or not an armature, else returns it; the CTRL_Settings
validator raises iff the bone is missing, else returns it; `clean_rig` and
`set_switch_enabled` never raise whatever host primitives fail (all their
mutations sit in `try`/`except: pass`); `build_rebuild_switches` never
raises as long as constraint creation and constraint field assignment
succeed (driver work, driver removal and constraint reordering failures are
swallowed), but a constraint-creation failure propagates. -/
theorem error_handling_spec :
    (∀ ctx : Context,
      ((get_active_armature ctx).isOk = true ↔
        ∃ o, ctx.obj = some o ∧ o.otype = "ARMATURE")
      ∧ (∀ o, ctx.obj = some o → o.otype = "ARMATURE" →
          get_active_armature ctx = .ok o))
    ∧ (∀ a : Armature,
      ((get_control_settings_pose_bone a).isOk = true ↔
        ∃ pb ∈ a.bones, pb.name = "CTRL_Settings")
      ∧ (∀ pb, a.findBone "CTRL_Settings" = some pb →
          get_control_settings_pose_bone a = .ok pb))
    ∧ (∀ (fails : FailSet) (a : Armature), (clean_rigE fails a).isOk = true)
    ∧ (∀ (fails : FailSet) (a : Armature) (sw : String) (en : Bool),
        (set_switch_enabledE fails a sw en).isOk = true)
    ∧ (∀ (fails : FailSet) (a : Armature),
        fails .constraintNew = false → fails .constraintSetField = false →
        (build_rebuild_switchesE fails a).isOk = true) := by
  refine ⟨?_, ?_, ?_, ?_, ?_⟩
  · intro ctx
    constructor
    · unfold get_active_armature
      cases ho : ctx.obj with
      | none =>
        dsimp only
        rw [except_isOk_error]
        simp
      | some o =>
        dsimp only
        by_cases hty : o.otype = "ARMATURE"
        · rw [if_neg (by simp [hty]), except_isOk_ok]
          simp [hty]
        · rw [if_pos (by simpa using hty), except_isOk_error]
          simp [hty]
    · intro o ho hty
      unfold get_active_armature
      rw [ho]
      dsimp only
      rw [if_neg (by simp [hty])]
  · intro a
    constructor
    · unfold get_control_settings_pose_bone Armature.findBone
      cases hf : a.bones.find? (fun b => b.name = "CTRL_Settings") with
      | none =>
        dsimp only
        rw [List.find?_eq_none] at hf
        rw [except_isOk_error]
        constructor
        · intro h
          exact absurd h (by simp)
        · rintro ⟨pb, hpb, hname⟩
          exact absurd (by simpa using hname) (by simpa using hf pb hpb)
      | some pb =>
        dsimp only
        rw [except_isOk_ok]
        constructor
        · intro _
          have hm := List.mem_of_find?_eq_some hf
          have hp := List.find?_some hf
          exact ⟨pb, hm, by simpa using hp⟩
        · intro _
          rfl
    · intro pb hpb
      unfold get_control_settings_pose_bone
      rw [hpb]
  · intro fails a
    rfl
  · intro fails a sw en
    unfold set_switch_enabledE
    by_cases h : (hostCall fails HostOp.setMute).isOk = true
    · rw [if_pos h]
      rfl
    · rw [if_neg h]
      rfl
  · intro fails a h1 h2
    unfold build_rebuild_switchesE
    obtain ⟨r, hr⟩ := foldlM_except_ok
      (processBoneE fails (buildSwitchToBones a.bones)
        (switchOrder (buildSwitchToBones a.bones)))
      (List.range a.bones.length) (a, [])
      (fun s i _ => processBoneE_ok fails _ _ s i h1 h2)
    rw [hr]
    rfl

/-- Closed instance of the C9 amended theorem. -/
theorem error_handling_spec_witness :
    (get_active_armature
      { obj := some { otype := "ARMATURE",
                      armature := { bones := [], animationData := none } } } =
      .ok { otype := "ARMATURE",
            armature := { bones := [], animationData := none } }) ∧
    (clean_rigE (fun _ => true)
      { bones := [], animationData := none }).isOk = true ∧
    (build_rebuild_switchesE (fun _ => false)
      { bones := [{ name := "DEF_arm",
                    props := [("control_rig_tools", PVal.str "A")],
                    constraints := [] },
                  { name := "FK_arm", props := [], constraints := [] }],
        animationData := none }).isOk = true :=
  ⟨(error_handling_spec.1
      { obj := some { otype := "ARMATURE",
                      armature := { bones := [], animationData := none } } }).2
      { otype := "ARMATURE", armature := { bones := [], animationData := none } }
      rfl rfl,
   error_handling_spec.2.2.1 (fun _ => true) { bones := [], animationData := none },
   error_handling_spec.2.2.2.2 (fun _ => false)
     { bones := [{ name := "DEF_arm",
                   props := [("control_rig_tools", PVal.str "A")],
                   constraints := [] },
                 { name := "FK_arm", props := [], constraints := [] }],
       animationData := none } rfl rfl⟩

/-! ### Factorization of the per-bone switch loop -/

theorem processSwitchStep_eq (fkEx mchEx : Bool)
    (fkName mchName boneName : String) (sfbAll : List String)
    (pb : PoseBone) (ad : Option (List Driver)) (s : String) :
    processSwitchStep fkEx mchEx fkName mchName boneName sfbAll (pb, ad) s =
    ({ pb with
       constraints := ctAddAll pb.constraints
         (switchPairsC fkEx mchEx fkName mchName s) },
     applyDrv ad (switchPairsD fkEx mchEx boneName sfbAll s)) := by
  cases fkEx <;> cases mchEx <;> rfl

theorem switchLoop_factor (fkEx mchEx : Bool)
    (fkName mchName boneName : String) (sfbAll : List String)
    (l : List String) (pb : PoseBone) (ad : Option (List Driver)) :
    l.foldl (processSwitchStep fkEx mchEx fkName mchName boneName sfbAll)
      (pb, ad) =
    ({ pb with
       constraints := ctAddAll pb.constraints
         (l.flatMap (switchPairsC fkEx mchEx fkName mchName)) },
     applyDrv ad (l.flatMap (switchPairsD fkEx mchEx boneName sfbAll))) := by
  induction l generalizing pb ad with
  | nil => rfl
  | cons s rest ih =>
    rw [List.foldl_cons, processSwitchStep_eq, ih]
    rw [List.flatMap_cons, List.flatMap_cons]
    unfold ctAddAll applyDrv
    rw [List.foldl_append, List.foldl_append]

theorem boneLoop_eq (stb : List (String × List String)) (fkEx mchEx : Bool)
    (fkName mchName : String) (sfb : List String) (pb : PoseBone)
    (ad : Option (List Driver)) :
    boneLoop stb fkEx mchEx fkName mchName sfb pb ad =
    (boneTransformC stb fkEx mchEx fkName mchName sfb pb,
     applyDrv ad (bonePairsD fkEx mchEx pb.name sfb)) := by
  unfold boneLoop boneTransformC bonePairsC bonePairsD
  rw [switchLoop_factor]

/-! ### Driver-table algebra -/

theorem applyDrv_some (ds : List Driver) (P : List (String × Driver)) :
    applyDrv (some ds) P = some (applyDrvL ds P) := by
  induction P generalizing ds with
  | nil => rfl
  | cons pr rest ih =>
    unfold applyDrv applyDrvL
    rw [List.foldl_cons, List.foldl_cons]
    exact ih _

theorem applyDrv_none_cons (pr : String × Driver) (P : List (String × Driver)) :
    applyDrv none (pr :: P) = some (applyDrvL [] (pr :: P)) := by
  unfold applyDrv applyDrvL
  rw [List.foldl_cons, List.foldl_cons]
  show applyDrv (some [pr.2]) P = _
  rw [applyDrv_some]
  rfl

theorem applyDrv_append (ad : Option (List Driver))
    (P Q : List (String × Driver)) :
    applyDrv (applyDrv ad P) Q = applyDrv ad (P ++ Q) := by
  unfold applyDrv
  rw [List.foldl_append]

theorem applyDrvL_split (ds : List Driver) (P : List (String × Driver)) :
    applyDrvL ds P =
      ds.filter (fun d => ¬ d.dataPath ∈ P.map Prod.fst) ++ applyDrvL [] P := by
  induction P generalizing ds with
  | nil => simp [applyDrvL]
  | cons pr rest ih =>
    have hstep : applyDrvL ds (pr :: rest) =
        applyDrvL (ds.filter (fun dr => dr.dataPath ≠ pr.1) ++ [pr.2]) rest := by
      unfold applyDrvL
      rw [List.foldl_cons]
    have hnil : applyDrvL [] (pr :: rest) = applyDrvL [pr.2] rest := by
      unfold applyDrvL
      rw [List.foldl_cons]
      rfl
    rw [hstep, ih, hnil, ih [pr.2]]
    rw [List.filter_append, List.filter_filter, ← List.append_assoc]
    apply congrArg (· ++ applyDrvL [] rest)
    apply congrArg (· ++ List.filter (fun d => ¬ d.dataPath ∈ rest.map Prod.fst) [pr.2])
    apply List.filter_congr
    intro d _
    by_cases h1 : d.dataPath = pr.1
    · simp [h1]
    · by_cases h2 : d.dataPath ∈ rest.map Prod.fst <;> simp [h1, h2]

theorem applyDrvL_nil_paths (P : List (String × Driver))
    (hP : ∀ pr ∈ P, pr.2.dataPath = pr.1) :
    ∀ d ∈ applyDrvL [] P, d.dataPath ∈ P.map Prod.fst := by
  induction P with
  | nil => intro d hd; simp [applyDrvL] at hd
  | cons pr rest ih =>
    intro d hd
    have hnil : applyDrvL [] (pr :: rest) = applyDrvL [pr.2] rest := by
      unfold applyDrvL
      rw [List.foldl_cons]
      rfl
    rw [hnil, applyDrvL_split [pr.2] rest] at hd
    rcases List.mem_append.mp hd with hd | hd
    · rw [List.mem_filter] at hd
      rw [List.mem_singleton] at hd
      rw [List.map_cons, List.mem_cons]
      left
      rw [hd.1]
      exact hP pr (List.mem_cons_self pr rest)
    · rw [List.map_cons, List.mem_cons]
      right
      exact ih (fun q hq => hP q (List.mem_cons_of_mem pr hq)) d hd

theorem applyDrvL_idem (ds : List Driver) (P : List (String × Driver))
    (hP : ∀ pr ∈ P, pr.2.dataPath = pr.1) :
    applyDrvL (applyDrvL ds P) P = applyDrvL ds P := by
  rw [applyDrvL_split (applyDrvL ds P) P, applyDrvL_split ds P]
  rw [List.filter_append]
  have h1 : List.filter (fun d => ¬ d.dataPath ∈ P.map Prod.fst)
      (applyDrvL [] P) = [] := by
    rw [List.filter_eq_nil_iff]
    intro d hd
    simpa using applyDrvL_nil_paths P hP d hd
  rw [h1, List.append_nil, List.filter_filter]
  apply congrArg (· ++ applyDrvL [] P)
  apply List.filter_congr
  intro d _
  by_cases h : d.dataPath ∈ P.map Prod.fst <;> simp [h]

theorem applyDrv_idem (ad : Option (List Driver)) (P : List (String × Driver))
    (hP : ∀ pr ∈ P, pr.2.dataPath = pr.1) :
    applyDrv (applyDrv ad P) P = applyDrv ad P := by
  cases ad with
  | some ds =>
    rw [applyDrv_some, applyDrv_some, applyDrvL_idem ds P hP]
  | none =>
    cases P with
    | nil => rfl
    | cons pr rest =>
      rw [applyDrv_none_cons, applyDrv_some,
        applyDrvL_idem [] (pr :: rest) hP]

theorem applyDrvL_countP (ds : List Driver) (P : List (String × Driver))
    (p : String) (hP : ∀ pr ∈ P, pr.2.dataPath = pr.1)
    (h : ds.countP (fun d => d.dataPath = p) ≤ 1) :
    (applyDrvL ds P).countP (fun d => d.dataPath = p) ≤ 1 := by
  induction P generalizing ds with
  | nil => exact h
  | cons pr rest ih =>
    have hstep : applyDrvL ds (pr :: rest) =
        applyDrvL (ds.filter (fun dr => dr.dataPath ≠ pr.1) ++ [pr.2]) rest := by
      unfold applyDrvL
      rw [List.foldl_cons]
    rw [hstep]
    refine ih _ (fun q hq => hP q (List.mem_cons_of_mem pr hq)) ?_
    rw [List.countP_append]
    by_cases hpq : p = pr.1
    · have hz : (ds.filter (fun dr => dr.dataPath ≠ pr.1)).countP
          (fun d => d.dataPath = p) = 0 := by
        rw [List.countP_eq_zero]
        intro d hd
        rw [List.mem_filter] at hd
        have h2 := hd.2
        simp only [ne_eq, decide_not, Bool.not_eq_true', decide_eq_false_iff_not] at h2
        simp only [decide_eq_true_eq]
        rw [hpq]
        exact h2
      rw [hz]
      have : List.countP (fun d => decide (d.dataPath = p)) [pr.2] ≤ 1 := by
        rw [List.countP_cons]
        simp only [List.countP_nil]
        by_cases hc : pr.2.dataPath = p <;> simp [hc]
      omega
    · have hle : (ds.filter (fun dr => dr.dataPath ≠ pr.1)).countP
          (fun d => d.dataPath = p) ≤ ds.countP (fun d => d.dataPath = p) := by
        rw [List.countP_filter]
        apply List.countP_mono_left
        intro d _ hd
        rw [Bool.and_eq_true] at hd
        exact hd.1
      have hz : List.countP (fun d => decide (d.dataPath = p)) [pr.2] = 0 := by
        rw [List.countP_eq_zero]
        intro d hd
        rw [List.mem_singleton] at hd
        subst hd
        rw [hP pr (List.mem_cons_self pr rest)]
        simp only [decide_eq_true_eq]
        exact fun hc => hpq hc.symm
      omega

theorem bonePairsD_paths (fkEx mchEx : Bool) (bn : String) (sfb : List String) :
    ∀ pr ∈ bonePairsD fkEx mchEx bn sfb, pr.2.dataPath = pr.1 := by
  intro pr hpr
  unfold bonePairsD at hpr
  rw [List.mem_flatMap] at hpr
  obtain ⟨s, _, hs⟩ := hpr
  unfold switchPairsD at hs
  rcases List.mem_append.mp hs with h | h
  · cases fkEx with
    | false => simp at h
    | true =>
      rw [if_pos rfl] at h
      rw [List.mem_singleton] at h
      rw [h]
      rfl
  · cases mchEx with
    | false => simp at h
    | true =>
      rw [if_pos rfl] at h
      rw [List.mem_singleton] at h
      rw [h]
      rfl

theorem allPairsD_paths (a : Armature) :
    ∀ pr ∈ allPairsD a, pr.2.dataPath = pr.1 := by
  intro pr hpr
  unfold allPairsD at hpr
  rw [List.mem_flatMap] at hpr
  obtain ⟨pb, _, hpb⟩ := hpr
  unfold boneDrvPairs at hpb
  split at hpb
  · exact bonePairsD_paths _ _ _ _ pr hpb
  · simp at hpb

/-! ### Signature congruence -/

theorem boneTransformC_name (stb : List (String × List String))
    (fkEx mchEx : Bool) (fkName mchName : String) (sfb : List String)
    (pb : PoseBone) :
    (boneTransformC stb fkEx mchEx fkName mchName sfb pb).name = pb.name := rfl

theorem boneTransformC_props (stb : List (String × List String))
    (fkEx mchEx : Bool) (fkName mchName : String) (sfb : List String)
    (pb : PoseBone) :
    (boneTransformC stb fkEx mchEx fkName mchName sfb pb).props = pb.props := rfl

theorem boneStep_sig (a : Armature) (pb : PoseBone) :
    boneSig (boneStep a pb) = boneSig pb := by
  unfold boneStep
  split
  · rfl
  · rfl

theorem map_name_eq_of_sig (l₁ l₂ : List PoseBone)
    (h : l₁.map boneSig = l₂.map boneSig) :
    l₁.map (fun b => b.name) = l₂.map (fun b => b.name) := by
  have h1 : ∀ l : List PoseBone,
      l.map (fun b => b.name) = (l.map boneSig).map Prod.fst := by
    intro l
    rw [List.map_map]
    rfl
  rw [h1, h1, h]

theorem find?_name_isSome_congr (l₁ l₂ : List PoseBone)
    (h : l₁.map (fun b => b.name) = l₂.map (fun b => b.name)) (n : String) :
    (l₁.find? (fun b => b.name = n)).isSome =
      (l₂.find? (fun b => b.name = n)).isSome := by
  induction l₁ generalizing l₂ with
  | nil =>
    cases l₂ with
    | nil => rfl
    | cons b₂ t₂ => simp at h
  | cons b t ih =>
    cases l₂ with
    | nil => simp at h
    | cons b₂ t₂ =>
      rw [List.map_cons, List.map_cons, List.cons.injEq] at h
      by_cases hb : b.name = n
      · rw [List.find?_cons_of_pos _ (by simp [hb]),
          List.find?_cons_of_pos _ (by simp [h.1 ▸ hb])]
        rfl
      · rw [List.find?_cons_of_neg _ (by simp [hb]),
          List.find?_cons_of_neg _ (by simp [show ¬ b₂.name = n from h.1 ▸ hb])]
        exact ih t₂ h.2

theorem parseBoneSwitches_congr (b₁ b₂ : PoseBone) (h : b₁.props = b₂.props) :
    parseBoneSwitches b₁ = parseBoneSwitches b₂ := by
  unfold parseBoneSwitches
  rw [h]

theorem buildSwitchToBones_congr (l₁ l₂ : List PoseBone)
    (h : l₁.map boneSig = l₂.map boneSig) :
    buildSwitchToBones l₁ = buildSwitchToBones l₂ := by
  unfold buildSwitchToBones
  suffices hg : ∀ (l₁ l₂ : List PoseBone), l₁.map boneSig = l₂.map boneSig →
      ∀ m, l₁.foldl
        (fun m pb =>
          if pyStartsWith pb.name "DEF_" then
            (parseBoneSwitches pb).foldl (fun m s => stbAdd m s pb.name) m
          else m) m =
      l₂.foldl
        (fun m pb =>
          if pyStartsWith pb.name "DEF_" then
            (parseBoneSwitches pb).foldl (fun m s => stbAdd m s pb.name) m
          else m) m by
    exact hg l₁ l₂ h []
  intro l₁
  induction l₁ with
  | nil =>
    intro l₂ h m
    cases l₂ with
    | nil => rfl
    | cons b₂ t₂ => simp at h
  | cons b t ih =>
    intro l₂ h m
    cases l₂ with
    | nil => simp at h
    | cons b₂ t₂ =>
      rw [List.map_cons, List.map_cons, List.cons.injEq] at h
      have hname : b.name = b₂.name := congrArg Prod.fst h.1
      have hprops : b.props = b₂.props := congrArg Prod.snd h.1
      rw [List.foldl_cons, List.foldl_cons, hname,
        parseBoneSwitches_congr b b₂ hprops]
      exact ih t₂ h.2 _

/-! ### Characterization of one run of build_rebuild_switches -/

theorem sig_of_pointwise (a : Armature) (st : Armature)
    (hlen : st.bones.length = a.bones.length)
    (hpt : ∀ (j : Nat) (pb : PoseBone), a.bones[j]? = some pb →
      ∃ q : PoseBone, st.bones[j]? = some q ∧ boneSig q = boneSig pb) :
    st.bones.map boneSig = a.bones.map boneSig := by
  apply List.ext_getElem?
  intro j
  rw [List.getElem?_map, List.getElem?_map]
  cases hj : a.bones[j]? with
  | none =>
    have hjl : a.bones.length ≤ j := by
      by_contra hc
      push_neg at hc
      rw [List.getElem?_eq_getElem hc] at hj
      exact absurd hj (by simp)
    rw [List.getElem?_eq_none (by omega)]
  | some pb =>
    obtain ⟨q, hq, hqs⟩ := hpt j pb hj
    rw [hq]
    rw [Option.map_some', Option.map_some', hqs]

theorem build_fold_inv (a : Armature) (k : Nat) :
    (buildFoldK a k).1.bones.length = a.bones.length
    ∧ (∀ j pb, a.bones[j]? = some pb →
        (buildFoldK a k).1.bones[j]? =
          some (if j < k then boneStep a pb else pb))
    ∧ (buildFoldK a k).1.animationData =
        applyDrv a.animationData ((a.bones.take k).flatMap (boneDrvPairs a))
    ∧ (buildFoldK a k).2 =
        ((a.bones.take k).filter (boneCond a)).map (fun b => b.name) := by
  induction k with
  | zero =>
    refine ⟨rfl, ?_, rfl, rfl⟩
    intro j pb h
    rw [if_neg (by omega)]
    exact h
  | succ k ih =>
    obtain ⟨ihlen, ihpt, ihad, ihcr⟩ := ih
    have hstep : buildFoldK a (k+1) =
        processBone (buildStb a) (buildOrder a) (buildFoldK a k) k := by
      unfold buildFoldK
      rw [List.range_succ, List.foldl_append, List.foldl_cons, List.foldl_nil]
    cases hpb : a.bones[k]? with
    | none =>
      have hklen : a.bones.length ≤ k := by
        by_contra hc
        push_neg at hc
        rw [List.getElem?_eq_getElem hc] at hpb
        exact absurd hpb (by simp)
      have hstk : (buildFoldK a k).1.bones[k]? = none :=
        List.getElem?_eq_none (by omega)
      have heq : buildFoldK a (k+1) = buildFoldK a k := by
        rw [hstep]
        unfold processBone
        rw [hstk]
      rw [heq]
      refine ⟨ihlen, ?_, ?_, ?_⟩
      · intro j pb h
        obtain ⟨hlt, _⟩ := List.getElem?_eq_some.mp h
        have hjk : j < k := by omega
        rw [ihpt j pb h, if_pos hjk, if_pos (by omega)]
      · rw [ihad, List.take_of_length_le hklen,
          List.take_of_length_le (by omega)]
      · rw [ihcr, List.take_of_length_le hklen,
          List.take_of_length_le (by omega)]
    | some pb =>
      have hklt : k < a.bones.length := (List.getElem?_eq_some.mp hpb).1
      have hstk : (buildFoldK a k).1.bones[k]? = some pb := by
        rw [ihpt k pb hpb, if_neg (by omega)]
      have hsig : (buildFoldK a k).1.bones.map boneSig =
          a.bones.map boneSig := by
        apply sig_of_pointwise a _ ihlen
        intro j q hj
        refine ⟨if j < k then boneStep a q else q, ihpt j q hj, ?_⟩
        by_cases hjk : j < k
        · rw [if_pos hjk]
          exact boneStep_sig a q
        · rw [if_neg hjk]
      have hnames := map_name_eq_of_sig _ _ hsig
      have hfindN : ∀ n, ((buildFoldK a k).1.findBone n).isSome =
          (a.findBone n).isSome :=
        fun n => find?_name_isSome_congr _ _ hnames n
      have htake : a.bones.take (k+1) = a.bones.take k ++ [pb] := by
        rw [List.take_succ, hpb]
        rfl
      by_cases hdef : pyStartsWith pb.name "DEF_" = true
      · by_cases hno : ((a.findBone ("FK_" ++ pb.name.drop 4)).isSome = false ∧
            (a.findBone ("MCH_" ++ pb.name.drop 4)).isSome = false)
        · -- neither counterpart exists: bone skipped
          have hcond : boneCond a pb = false := by
            unfold boneCond
            rw [hno.1, hno.2]
            simp
          have heq : buildFoldK a (k+1) = buildFoldK a k := by
            rw [hstep]
            unfold processBone
            rw [hstk]
            dsimp only
            rw [if_neg (by simp [hdef])]
            rw [if_pos (by rw [hfindN, hfindN]; exact hno)]
          rw [heq]
          refine ⟨ihlen, ?_, ?_, ?_⟩
          · intro j q hj
            rw [ihpt j q hj]
            by_cases hjk : j < k
            · rw [if_pos hjk, if_pos (by omega)]
            · by_cases hjk1 : j < k + 1
              · have hjeq : j = k := by omega
                subst hjeq
                rw [if_neg hjk, if_pos hjk1]
                have : q = pb := by
                  rw [hpb] at hj
                  exact (Option.some.inj hj).symm
                subst this
                unfold boneStep
                rw [if_neg (by simp [hcond])]
              · rw [if_neg hjk, if_neg hjk1]
          · rw [ihad, htake, List.flatMap_append]
            have : boneDrvPairs a pb = [] := by
              unfold boneDrvPairs
              rw [if_neg (by simp [hcond])]
            simp [this]
          · rw [ihcr, htake, List.filter_append]
            rw [List.filter_cons_of_neg (by simp [hcond])]
            simp
        · by_cases hempty : (sfbOf a pb).isEmpty = true
          · -- no switches reference this bone: skipped
            have hcond : boneCond a pb = false := by
              unfold boneCond
              rw [hempty]
              simp
            have hempty2 : (boneSfb (buildStb a) (buildOrder a) pb.name).isEmpty
                = true := hempty
            have heq : buildFoldK a (k+1) = buildFoldK a k := by
              rw [hstep]
              unfold processBone
              rw [hstk]
              dsimp only
              rw [if_neg (by simp [hdef])]
              rw [if_neg (by rw [hfindN, hfindN]; exact hno)]
              rw [if_pos hempty2]
            rw [heq]
            refine ⟨ihlen, ?_, ?_, ?_⟩
            · intro j q hj
              rw [ihpt j q hj]
              by_cases hjk : j < k
              · rw [if_pos hjk, if_pos (by omega)]
              · by_cases hjk1 : j < k + 1
                · have hjeq : j = k := by omega
                  subst hjeq
                  rw [if_neg hjk, if_pos hjk1]
                  have : q = pb := by
                    rw [hpb] at hj
                    exact (Option.some.inj hj).symm
                  subst this
                  unfold boneStep
                  rw [if_neg (by simp [hcond])]
                · rw [if_neg hjk, if_neg hjk1]
            · rw [ihad, htake, List.flatMap_append]
              have : boneDrvPairs a pb = [] := by
                unfold boneDrvPairs
                rw [if_neg (by simp [hcond])]
              simp [this]
            · rw [ihcr, htake, List.filter_append]
              rw [List.filter_cons_of_neg (by simp [hcond])]
              simp
          · -- the bone is processed
            have hcond : boneCond a pb = true := by
              unfold boneCond
              simp only [Bool.not_eq_true] at hempty
              rw [hempty, hdef]
              rcases Decidable.not_and_iff_or_not.mp hno with h | h
              · have : (a.findBone ("FK_" ++ pb.name.drop 4)).isSome = true := by
                  cases hv : (a.findBone ("FK_" ++ pb.name.drop 4)).isSome
                  · exact absurd hv h
                  · rfl
                rw [this]
                simp
              · have : (a.findBone ("MCH_" ++ pb.name.drop 4)).isSome = true := by
                  cases hv : (a.findBone ("MCH_" ++ pb.name.drop 4)).isSome
                  · exact absurd hv h
                  · rfl
                rw [this]
                simp
            have heq : buildFoldK a (k+1) =
                ({ bones := (buildFoldK a k).1.bones.set k
                     (boneTransformC (buildStb a)
                       ((a.findBone ("FK_" ++ pb.name.drop 4)).isSome)
                       ((a.findBone ("MCH_" ++ pb.name.drop 4)).isSome)
                       ("FK_" ++ pb.name.drop 4) ("MCH_" ++ pb.name.drop 4)
                       (sfbOf a pb) pb),
                   animationData := applyDrv (buildFoldK a k).1.animationData
                     (bonePairsD
                       ((a.findBone ("FK_" ++ pb.name.drop 4)).isSome)
                       ((a.findBone ("MCH_" ++ pb.name.drop 4)).isSome)
                       pb.name (sfbOf a pb)) },
                 (buildFoldK a k).2 ++ [pb.name]) := by
              rw [hstep]
              unfold processBone
              rw [hstk]
              dsimp only
              rw [if_neg (by simp [hdef])]
              rw [if_neg (by rw [hfindN, hfindN]; exact hno)]
              rw [if_neg (show ¬(boneSfb (buildStb a) (buildOrder a)
                pb.name).isEmpty = true from fun hc => hempty hc)]
              rw [hfindN ("FK_" ++ pb.name.drop 4), hfindN ("MCH_" ++ pb.name.drop 4)]
              rw [boneLoop_eq]
              rfl
            rw [heq]
            refine ⟨?_, ?_, ?_, ?_⟩
            · rw [List.length_set]
              exact ihlen
            · intro j q hj
              by_cases hjk : j = k
              · subst hjk
                have : q = pb := by
                  rw [hpb] at hj
                  exact (Option.some.inj hj).symm
                subst this
                rw [List.getElem?_set_eq (by omega)]
                rw [if_pos (by omega)]
                unfold boneStep
                rw [if_pos hcond]
              · rw [List.getElem?_set_ne (fun hc => hjk hc.symm)]
                rw [ihpt j q hj]
                by_cases hjlt : j < k
                · rw [if_pos hjlt, if_pos (by omega)]
                · rw [if_neg hjlt, if_neg (by omega)]
            · rw [ihad, applyDrv_append, htake, List.flatMap_append]
              have : boneDrvPairs a pb =
                  bonePairsD ((a.findBone ("FK_" ++ pb.name.drop 4)).isSome)
                    ((a.findBone ("MCH_" ++ pb.name.drop 4)).isSome)
                    pb.name (sfbOf a pb) := by
                unfold boneDrvPairs
                rw [if_pos hcond]
              rw [List.flatMap_cons, List.flatMap_nil, List.append_nil, this]
            · rw [ihcr, htake, List.filter_append]
              rw [List.filter_cons_of_pos hcond]
              simp
      · -- not a DEF_ bone: skipped
        have hcond : boneCond a pb = false := by
          unfold boneCond
          simp only [Bool.not_eq_true] at hdef
          rw [hdef]
          simp
        have heq : buildFoldK a (k+1) = buildFoldK a k := by
          rw [hstep]
          unfold processBone
          rw [hstk]
          dsimp only
          rw [if_pos hdef]
        rw [heq]
        refine ⟨ihlen, ?_, ?_, ?_⟩
        · intro j q hj
          rw [ihpt j q hj]
          by_cases hjk : j < k
          · rw [if_pos hjk, if_pos (by omega)]
          · by_cases hjk1 : j < k + 1
            · have hjeq : j = k := by omega
              subst hjeq
              rw [if_neg hjk, if_pos hjk1]
              have : q = pb := by
                rw [hpb] at hj
                exact (Option.some.inj hj).symm
              subst this
              unfold boneStep
              rw [if_neg (by simp [hcond])]
            · rw [if_neg hjk, if_neg hjk1]
        · rw [ihad, htake, List.flatMap_append]
          have : boneDrvPairs a pb = [] := by
            unfold boneDrvPairs
            rw [if_neg (by simp [hcond])]
          simp [this]
        · rw [ihcr, htake, List.filter_append]
          rw [List.filter_cons_of_neg (by simp [hcond])]
          simp

theorem build_eq_foldK (a : Armature) :
    build_rebuild_switches a = buildFoldK a a.bones.length := rfl

theorem build_char (a : Armature) :
    (build_rebuild_switches a).1.bones.length = a.bones.length
    ∧ (∀ (j : Nat) (pb : PoseBone), a.bones[j]? = some pb →
        (build_rebuild_switches a).1.bones[j]? = some (boneStep a pb))
    ∧ (build_rebuild_switches a).1.animationData =
        applyDrv a.animationData (allPairsD a)
    ∧ (build_rebuild_switches a).2 = buildCreated a := by
  obtain ⟨hlen, hpt, had, hcr⟩ := build_fold_inv a a.bones.length
  rw [build_eq_foldK]
  refine ⟨hlen, ?_, ?_, ?_⟩
  · intro j pb hj
    rw [hpt j pb hj, if_pos (List.getElem?_eq_some.mp hj).1]
  · rw [had, List.take_of_length_le (le_refl _)]
    rfl
  · rw [hcr, List.take_of_length_le (le_refl _)]
    rfl

/-! ### The constraint-reorder pass: normal form and idempotence -/

theorem firstIdxNamed_cons_pos (n : String) (c : Constraint)
    (l : List Constraint) (h : c.name = n) :
    firstIdxNamed n (c :: l) = some 0 := by
  show (if c.name = n then some 0 else (firstIdxNamed n l).map (· + 1)) =
    some 0
  rw [if_pos h]

theorem firstIdxNamed_cons_neg (n : String) (c : Constraint)
    (l : List Constraint) (h : ¬ c.name = n) :
    firstIdxNamed n (c :: l) = (firstIdxNamed n l).map (· + 1) := by
  show (if c.name = n then some 0 else (firstIdxNamed n l).map (· + 1)) =
    (firstIdxNamed n l).map (· + 1)
  rw [if_neg h]

theorem reorderNF_cons (cs : List Constraint) (n : String) (ns : List String) :
    reorderNF cs (n :: ns) =
      match cs.find? (fun c => c.name = n) with
      | some c => c :: reorderNF (cs.eraseP (fun c => c.name = n)) ns
      | none => reorderNF cs ns := rfl

theorem reorderNF_cons_none (cs : List Constraint) (n : String)
    (ns : List String) (h : cs.find? (fun c => c.name = n) = none) :
    reorderNF cs (n :: ns) = reorderNF cs ns := by
  rw [reorderNF_cons, h]

theorem reorderNF_cons_some (cs : List Constraint) (n : String)
    (ns : List String) (c : Constraint)
    (h : cs.find? (fun c => c.name = n) = some c) :
    reorderNF cs (n :: ns) =
      c :: reorderNF (cs.eraseP (fun c => c.name = n)) ns := by
  rw [reorderNF_cons, h]

theorem firstIdxNamed_none (n : String) (cs : List Constraint)
    (h : firstIdxNamed n cs = none) :
    cs.find? (fun c => c.name = n) = none := by
  induction cs with
  | nil => rfl
  | cons c rest ih =>
    by_cases hc : c.name = n
    · rw [firstIdxNamed_cons_pos n c rest hc] at h
      exact absurd h (by simp)
    · rw [firstIdxNamed_cons_neg n c rest hc] at h
      rw [List.find?_cons_of_neg _ (by simp [hc])]
      apply ih
      cases hr : firstIdxNamed n rest
      · rfl
      · rw [hr] at h
        exact absurd h (by simp)

theorem firstIdxNamed_some (n : String) (cs : List Constraint) (j : Nat)
    (h : firstIdxNamed n cs = some j) :
    ∃ c, cs.find? (fun c => c.name = n) = some c ∧ cs[j]? = some c ∧
      cs.eraseIdx j = cs.eraseP (fun c => c.name = n) := by
  induction cs generalizing j with
  | nil => simp [firstIdxNamed] at h
  | cons c rest ih =>
    by_cases hc : c.name = n
    · rw [firstIdxNamed_cons_pos n c rest hc] at h
      have hj : j = 0 := (Option.some.inj h).symm
      subst hj
      refine ⟨c, ?_, by simp, ?_⟩
      · rw [List.find?_cons_of_pos _ (by simp [hc])]
      · rw [List.eraseIdx_cons_zero, List.eraseP_cons_of_pos (by simp [hc])]
    · rw [firstIdxNamed_cons_neg n c rest hc] at h
      cases hr : firstIdxNamed n rest with
      | none =>
        rw [hr] at h
        exact absurd h (by simp)
      | some j' =>
        rw [hr, Option.map_some'] at h
        have hj : j = j' + 1 := (Option.some.inj h).symm
        subst hj
        obtain ⟨c', hf, hg, he⟩ := ih j' hr
        refine ⟨c', ?_, ?_, ?_⟩
        · rw [List.find?_cons_of_neg _ (by simp [hc])]
          exact hf
        · rw [List.getElem?_cons_succ]
          exact hg
        · rw [List.eraseIdx_cons_succ,
            List.eraseP_cons_of_neg (by simp [hc]), he]

theorem firstIdxNamed_append (n : String) (done cs : List Constraint)
    (hd : ∀ c ∈ done, ¬ c.name = n) :
    firstIdxNamed n (done ++ cs) =
      (firstIdxNamed n cs).map (· + done.length) := by
  induction done with
  | nil =>
    rw [List.nil_append]
    cases firstIdxNamed n cs <;> simp
  | cons c d ih =>
    rw [List.cons_append]
    rw [firstIdxNamed_cons_neg n c (d ++ cs) (hd c (List.mem_cons_self c d))]
    rw [ih (fun c' hc' => hd c' (List.mem_cons_of_mem c hc'))]
    cases firstIdxNamed n cs <;> simp [Nat.add_assoc]

theorem listMove_cons (c : Constraint) (l : List Constraint) (i t : Nat) :
    listMove (c :: l) (i + 1) (t + 1) = c :: listMove l i t := by
  unfold listMove
  rw [List.getElem?_cons_succ]
  cases l[i]? with
  | none => rfl
  | some x =>
    dsimp only
    rw [List.eraseIdx_cons_succ, List.insertIdx_succ_cons]

theorem listMove_append (done cs : List Constraint) (j : Nat) :
    listMove (done ++ cs) (j + done.length) done.length =
      done ++ listMove cs j 0 := by
  induction done with
  | nil => simp
  | cons c d ih =>
    show listMove (c :: (d ++ cs)) ((j + d.length) + 1) (d.length + 1) =
      c :: (d ++ listMove cs j 0)
    rw [listMove_cons, ih]

theorem moveStep_char (n : String) (done cs : List Constraint)
    (hd : ∀ c ∈ done, ¬ c.name = n) :
    moveLoopStep (done ++ cs, done.length) n =
      match cs.find? (fun c => c.name = n) with
      | none => (done ++ cs, done.length)
      | some c =>
        (done ++ c :: cs.eraseP (fun c => c.name = n), done.length + 1) := by
  unfold moveLoopStep
  dsimp only
  rw [firstIdxNamed_append n done cs hd]
  cases hf : firstIdxNamed n cs with
  | none =>
    rw [firstIdxNamed_none n cs hf]
    rfl
  | some j =>
    obtain ⟨c, hfind, hg, he⟩ := firstIdxNamed_some n cs j hf
    rw [hfind, Option.map_some']
    show (listMove (done ++ cs) (j + done.length) done.length,
      done.length + 1) = _
    rw [listMove_append]
    have hlm : listMove cs j 0 = c :: cs.eraseP (fun c => c.name = n) := by
      unfold listMove
      rw [hg, he]
      dsimp only
      rw [List.insertIdx_zero]
    rw [hlm]

theorem moveLoop_go (ns : List String) : ∀ (cs done : List Constraint),
    ns.Nodup → (∀ c ∈ done, ∀ n ∈ ns, ¬ c.name = n) →
    (ns.foldl moveLoopStep (done ++ cs, done.length)).1 =
      done ++ reorderNF cs ns := by
  induction ns with
  | nil =>
    intro cs done _ _
    rfl
  | cons n ns ih =>
    intro cs done hnd hd
    rw [List.foldl_cons]
    rw [moveStep_char n done cs (fun c hc => hd c hc n (List.mem_cons_self n ns))]
    cases hf : cs.find? (fun c => c.name = n) with
    | none =>
      rw [reorderNF_cons_none cs n ns hf]
      exact ih cs done hnd.of_cons
        (fun c hc m hm => hd c hc m (List.mem_cons_of_mem n hm))
    | some c =>
      have hcn : c.name = n := by simpa using List.find?_some hf
      have hnotin : n ∉ ns := (List.nodup_cons.mp hnd).1
      have step := ih (cs.eraseP (fun c => c.name = n)) (done ++ [c])
        hnd.of_cons
        (by
          intro c' hc' m hm
          rw [List.mem_append] at hc'
          cases hc' with
          | inl h => exact hd c' h m (List.mem_cons_of_mem n hm)
          | inr h =>
            rw [List.mem_singleton] at h
            subst h
            rw [hcn]
            intro hcontra
            exact hnotin (hcontra ▸ hm))
      rw [show ((done ++ [c]) : List Constraint) ++
          cs.eraseP (fun c => c.name = n) =
          done ++ c :: cs.eraseP (fun c => c.name = n) from by
        rw [List.append_assoc]; rfl] at step
      rw [show ((done ++ [c]) : List Constraint).length = done.length + 1 from
        by simp] at step
      rw [List.append_assoc] at step
      rw [reorderNF_cons_some cs n ns c hf]
      exact step

theorem reorder_eq_nf (cs : List Constraint) (names : List String)
    (hnd : names.Nodup) :
    reorderConstraints cs names = reorderNF cs names := by
  have h := moveLoop_go names cs [] hnd (by intro c hc; simp at hc)
  unfold reorderConstraints
  rw [show ((cs, 0) : List Constraint × Nat) =
    (([] : List Constraint) ++ cs, ([] : List Constraint).length) from rfl]
  rw [h]
  rfl

theorem reorderNF_perm (ns : List String) : ∀ cs : List Constraint,
    (reorderNF cs ns).Perm cs := by
  induction ns with
  | nil =>
    intro cs
    exact List.Perm.refl cs
  | cons n ns ih =>
    intro cs
    cases hf : cs.find? (fun c => c.name = n) with
    | none =>
      rw [reorderNF_cons_none cs n ns hf]
      exact ih cs
    | some c =>
      rw [reorderNF_cons_some cs n ns c hf]
      have hmem : c ∈ cs := List.mem_of_find?_eq_some hf
      have hp := List.find?_some hf
      obtain ⟨a, l₁, l₂, hl₁, hpa, hsplit, herase⟩ :=
        @List.exists_of_eraseP Constraint (fun c => decide (c.name = n)) cs c
          hmem hp
      have hfa : cs.find? (fun c => c.name = n) = some a := by
        rw [hsplit, List.find?_append, List.find?_eq_none.mpr hl₁,
          Option.none_or,
          @List.find?_cons_of_pos Constraint (fun c => decide (c.name = n))
            a l₂ hpa]
      have hca : c = a := by
        rw [hf] at hfa
        exact Option.some.inj hfa
      subst hca
      refine (List.Perm.cons c (ih _)).trans ?_
      rw [herase, hsplit]
      exact List.perm_middle.symm

theorem reorderNF_idem (ns : List String) : ∀ cs : List Constraint,
    reorderNF (reorderNF cs ns) ns = reorderNF cs ns := by
  induction ns with
  | nil =>
    intro cs
    rfl
  | cons n ns ih =>
    intro cs
    cases hf : cs.find? (fun c => c.name = n) with
    | none =>
      have h2 : (reorderNF cs ns).find? (fun c => c.name = n) = none := by
        rw [List.find?_eq_none]
        intro x hx
        exact List.find?_eq_none.mp hf x ((reorderNF_perm ns cs).mem_iff.mp hx)
      rw [reorderNF_cons_none cs n ns hf,
        reorderNF_cons_none _ n ns h2, ih]
    | some c =>
      have hcn := List.find?_some hf
      rw [reorderNF_cons_some cs n ns c hf]
      have h2 : (c :: reorderNF (cs.eraseP (fun c => c.name = n)) ns).find?
          (fun c => c.name = n) = some c := List.find?_cons_of_pos _ hcn
      rw [reorderNF_cons_some _ n ns c h2,
        @List.eraseP_cons_of_pos Constraint c
          (reorderNF (cs.eraseP (fun c => c.name = n)) ns)
          (fun c => decide (c.name = n)) hcn,
        ih]

/-! ### Same-name subsequences survive the reorder pass -/

theorem find?_of_imp {α : Type} (p q : α → Bool)
    (h : ∀ c, p c = true → q c = true) : ∀ l : List α,
    l.find? p = (l.filter q).find? p := by
  intro l
  induction l with
  | nil => rfl
  | cons c rest ih =>
    cases hq : q c with
    | true =>
      rw [List.filter_cons_of_pos hq]
      cases hp : p c with
      | true =>
        rw [List.find?_cons_of_pos _ hp, List.find?_cons_of_pos _ hp]
      | false =>
        rw [List.find?_cons_of_neg _ (by simp [hp]),
          List.find?_cons_of_neg _ (by simp [hp]), ih]
    | false =>
      have hp : ¬ p c = true := fun hpc =>
        Bool.noConfusion ((h c hpc).symm.trans hq)
      rw [List.filter_cons_of_neg (by simp [hq]),
        List.find?_cons_of_neg _ hp, ih]

theorem filter_name_reorderNF (ns : List String) :
    ∀ (cs : List Constraint) (n : String),
    (reorderNF cs ns).filter (fun c => c.name = n) =
      cs.filter (fun c => c.name = n) := by
  induction ns with
  | nil =>
    intro cs n
    rfl
  | cons m ns ih =>
    intro cs n
    cases hf : cs.find? (fun c => c.name = m) with
    | none =>
      rw [reorderNF_cons_none cs m ns hf]
      exact ih cs n
    | some c =>
      rw [reorderNF_cons_some cs m ns c hf]
      have hcm : c.name = m := by simpa using List.find?_some hf
      have hmem : c ∈ cs := List.mem_of_find?_eq_some hf
      obtain ⟨a, l₁, l₂, hl₁, hpa, hsplit, herase⟩ :=
        @List.exists_of_eraseP Constraint (fun c => decide (c.name = m)) cs c
          hmem (by simpa using hcm)
      have hfa : cs.find? (fun c => c.name = m) = some a := by
        rw [hsplit, List.find?_append, List.find?_eq_none.mpr hl₁,
          Option.none_or,
          @List.find?_cons_of_pos Constraint (fun c => decide (c.name = m))
            a l₂ hpa]
      have hca : c = a := by
        rw [hf] at hfa
        exact Option.some.inj hfa
      subst hca
      have hl1 : ∀ k : String, (l₁.filter (fun c => c.name = m)) = [] :=
        fun k => List.filter_eq_nil_iff.mpr (fun b hb => hl₁ b hb)
      by_cases hmn : m = n
      · subst hmn
        rw [List.filter_cons_of_pos (by simpa using hcm)]
        rw [ih]
        rw [herase, hsplit, List.filter_append, List.filter_append]
        rw [List.filter_cons_of_pos (by simpa using hcm)]
        rw [hl1 m]
        simp
      · rw [List.filter_cons_of_neg (by simp [hcm, hmn])]
        rw [ih]
        rw [herase, hsplit, List.filter_append, List.filter_append]
        rw [List.filter_cons_of_neg (by simp [hcm, hmn])]

theorem ctMatches_name (cn t : String) (c : Constraint)
    (h : ctMatches cn t c = true) : c.name = cn := by
  simp [ctMatches] at h
  exact h.1.2

theorem ctMatches_subtarget (cn t : String) (c : Constraint)
    (h : ctMatches cn t c = true) : c.subtarget = t := by
  simp [ctMatches] at h
  exact h.2

theorem find?_ctMatches_reorderNF (ns : List String) (cs : List Constraint)
    (cn t : String) :
    (reorderNF cs ns).find? (ctMatches cn t) = cs.find? (ctMatches cn t) := by
  have himp : ∀ c : Constraint, ctMatches cn t c = true →
      (fun c : Constraint => (decide (c.name = cn))) c = true := by
    intro c hc
    simpa using ctMatches_name cn t c hc
  rw [find?_of_imp (ctMatches cn t) (fun c => c.name = cn) himp
    (reorderNF cs ns)]
  rw [filter_name_reorderNF ns cs cn]
  rw [← find?_of_imp (ctMatches cn t) (fun c => c.name = cn) himp cs]

/-! ### `_add_copy_transforms` settles its constraint and is then inert -/

theorem setLocalFirst_cons (cn t : String) (c : Constraint)
    (rest : List Constraint) :
    setLocalFirst cn t (c :: rest) =
      if ctMatches cn t c then
        { c with ownerSpace := "LOCAL", targetSpace := "LOCAL" } :: rest
      else c :: setLocalFirst cn t rest := rfl

theorem ctMatches_setSpaces (cn t : String) (c : Constraint) :
    ctMatches cn t
      { c with ownerSpace := "LOCAL", targetSpace := "LOCAL" } =
    ctMatches cn t c := rfl

theorem ctAddAll_cons (cs : List Constraint) (pr : String × String)
    (prs : List (String × String)) :
    ctAddAll cs (pr :: prs) = ctAddAll (ctAdd cs pr.2 pr.1) prs := rfl

theorem setLocalFirst_find? (cn t : String) (cs : List Constraint)
    (c : Constraint) (h : cs.find? (ctMatches cn t) = some c) :
    (setLocalFirst cn t cs).find? (ctMatches cn t) =
      some { c with ownerSpace := "LOCAL", targetSpace := "LOCAL" } := by
  induction cs with
  | nil => simp at h
  | cons c₀ rest ih =>
    rw [setLocalFirst_cons]
    cases hm : ctMatches cn t c₀ with
    | true =>
      rw [List.find?_cons_of_pos _ hm] at h
      have hc : c₀ = c := Option.some.inj h
      subst hc
      rw [if_pos rfl]
      rw [List.find?_cons_of_pos _ (by rw [ctMatches_setSpaces]; exact hm)]
    | false =>
      rw [if_neg (by simp)]
      rw [List.find?_cons_of_neg _ (by simp [hm])] at h
      rw [List.find?_cons_of_neg _ (by simp [hm])]
      exact ih h

theorem ctAdd_settled (cs : List Constraint) (t cn : String) :
    ctSettled (ctAdd cs t cn) cn t := by
  unfold ctAdd
  cases hf : cs.find? (ctMatches cn t) with
  | none =>
    refine ⟨newCopyTransforms t cn, ?_, rfl, rfl⟩
    rw [List.find?_append, hf, Option.none_or]
    rw [List.find?_cons_of_pos _ (by simp [ctMatches, newCopyTransforms])]
  | some c =>
    exact ⟨_, setLocalFirst_find? cn t cs c hf, rfl, rfl⟩

theorem setLocalFirst_find?_other (cn t cn' t' : String)
    (cs : List Constraint) (hne : ¬ (cn' = cn ∧ t' = t)) :
    (setLocalFirst cn' t' cs).find? (ctMatches cn t) =
      cs.find? (ctMatches cn t) := by
  induction cs with
  | nil => rfl
  | cons c₀ rest ih =>
    rw [setLocalFirst_cons]
    cases hm' : ctMatches cn' t' c₀ with
    | true =>
      rw [if_pos rfl]
      have hmm : ¬ ctMatches cn t c₀ = true := by
        intro hmc
        apply hne
        have h1 := ctMatches_name cn t c₀ hmc
        have h2 := ctMatches_name cn' t' c₀ hm'
        have h3 := ctMatches_subtarget cn t c₀ hmc
        have h4 := ctMatches_subtarget cn' t' c₀ hm'
        exact ⟨h2.symm.trans h1, h4.symm.trans h3⟩
      rw [List.find?_cons_of_neg _ (by rw [ctMatches_setSpaces]; exact hmm)]
      rw [List.find?_cons_of_neg _ hmm]
    | false =>
      rw [if_neg (by simp)]
      cases hmc : ctMatches cn t c₀ with
      | true =>
        rw [List.find?_cons_of_pos _ hmc, List.find?_cons_of_pos _ hmc]
      | false =>
        rw [List.find?_cons_of_neg _ (by simp [hmc]),
          List.find?_cons_of_neg _ (by simp [hmc]), ih]

theorem ctAdd_settled_preserve (cs : List Constraint) (cn t cn' t' : String)
    (hs : ctSettled cs cn t) : ctSettled (ctAdd cs t' cn') cn t := by
  by_cases heq : cn' = cn ∧ t' = t
  · obtain ⟨h1, h2⟩ := heq
    subst h1
    subst h2
    exact ctAdd_settled cs t' cn'
  · obtain ⟨c, hfind, ho, ht⟩ := hs
    unfold ctAdd
    cases hf' : cs.find? (ctMatches cn' t') with
    | none =>
      refine ⟨c, ?_, ho, ht⟩
      rw [List.find?_append, hfind]
      rfl
    | some c' =>
      refine ⟨c, ?_, ho, ht⟩
      rw [setLocalFirst_find?_other cn t cn' t' cs heq]
      exact hfind

theorem setLocalFirst_of_settled (cn t : String) (cs : List Constraint)
    (c : Constraint) (hfind : cs.find? (ctMatches cn t) = some c)
    (ho : c.ownerSpace = "LOCAL") (ht : c.targetSpace = "LOCAL") :
    setLocalFirst cn t cs = cs := by
  induction cs with
  | nil => rfl
  | cons c₀ rest ih =>
    rw [setLocalFirst_cons]
    cases hm : ctMatches cn t c₀ with
    | true =>
      rw [if_pos rfl]
      rw [List.find?_cons_of_pos _ hm] at hfind
      have hc : c₀ = c := Option.some.inj hfind
      subst hc
      cases c₀ with
      | mk ty nm st os ts mu =>
        dsimp at ho ht
        rw [ho, ht]
    | false =>
      rw [if_neg (by simp)]
      rw [List.find?_cons_of_neg _ (by simp [hm])] at hfind
      rw [ih hfind]

theorem ctAdd_of_settled (cs : List Constraint) (t cn : String)
    (hs : ctSettled cs cn t) : ctAdd cs t cn = cs := by
  obtain ⟨c, hfind, ho, ht⟩ := hs
  unfold ctAdd
  rw [hfind]
  exact setLocalFirst_of_settled cn t cs c hfind ho ht

theorem ctAddAll_settled_preserve (prs : List (String × String)) :
    ∀ (cs : List Constraint) (cn t : String), ctSettled cs cn t →
      ctSettled (ctAddAll cs prs) cn t := by
  induction prs with
  | nil =>
    intro cs cn t h
    exact h
  | cons pr prs ih =>
    intro cs cn t h
    rw [ctAddAll_cons]
    exact ih _ cn t (ctAdd_settled_preserve cs cn t pr.1 pr.2 h)

theorem ctAddAll_settled (prs : List (String × String)) :
    ∀ (cs : List Constraint), ∀ p ∈ prs,
      ctSettled (ctAddAll cs prs) p.1 p.2 := by
  induction prs with
  | nil =>
    intro cs p hp
    simp at hp
  | cons pr prs ih =>
    intro cs p hp
    rw [ctAddAll_cons]
    rcases List.mem_cons.mp hp with h | h
    · subst h
      exact ctAddAll_settled_preserve prs _ p.1 p.2 (ctAdd_settled cs p.2 p.1)
    · exact ih _ p h

theorem ctAddAll_of_settled (prs : List (String × String)) :
    ∀ (cs : List Constraint), (∀ p ∈ prs, ctSettled cs p.1 p.2) →
      ctAddAll cs prs = cs := by
  induction prs with
  | nil =>
    intro cs _
    rfl
  | cons pr prs ih =>
    intro cs h
    rw [ctAddAll_cons]
    rw [ctAdd_of_settled cs pr.2 pr.1 (h pr (List.mem_cons_self pr prs))]
    exact ih cs (fun p hp => h p (List.mem_cons_of_mem pr hp))

theorem reorderNF_settled (ns : List String) (cs : List Constraint)
    (cn t : String) (hs : ctSettled cs cn t) :
    ctSettled (reorderNF cs ns) cn t := by
  obtain ⟨c, hfind, ho, ht⟩ := hs
  refine ⟨c, ?_, ho, ht⟩
  rw [find?_ctMatches_reorderNF ns cs cn t]
  exact hfind

/-- The per-bone constraint-stack transform of `build_rebuild_switches` is
idempotent: the second pass reuses every constraint in place (spaces already
LOCAL) and the reorder pass is a fixpoint on its own output. -/
theorem boneTransformC_idem (stb : List (String × List String))
    (fkEx mchEx : Bool) (fkName mchName : String) (sfb : List String)
    (pb : PoseBone)
    (hnd : (desiredNames fkEx mchEx (desiredSwitchOrder stb sfb)).Nodup) :
    boneTransformC stb fkEx mchEx fkName mchName sfb
      (boneTransformC stb fkEx mchEx fkName mchName sfb pb) =
    boneTransformC stb fkEx mchEx fkName mchName sfb pb := by
  have hset1 := ctAddAll_settled (bonePairsC fkEx mchEx fkName mchName sfb)
    pb.constraints
  have hnf := reorder_eq_nf
    (ctAddAll pb.constraints (bonePairsC fkEx mchEx fkName mchName sfb))
    (desiredNames fkEx mchEx (desiredSwitchOrder stb sfb)) hnd
  have hset2 : ∀ p ∈ bonePairsC fkEx mchEx fkName mchName sfb,
      ctSettled (reorderConstraints
        (ctAddAll pb.constraints (bonePairsC fkEx mchEx fkName mchName sfb))
        (desiredNames fkEx mchEx (desiredSwitchOrder stb sfb))) p.1 p.2 := by
    intro p hp
    rw [hnf]
    exact reorderNF_settled _ _ p.1 p.2 (hset1 p hp)
  unfold boneTransformC
  dsimp only
  rw [ctAddAll_of_settled _ _ hset2]
  rw [hnf, reorder_eq_nf _ _ hnd, reorderNF_idem]

/-! ### The desired constraint-name list of a bone has no duplicates -/

theorem insertLe_perm {α : Type} (le : α → α → Bool) (x : α) :
    ∀ l : List α, (insertLe le x l).Perm (x :: l) := by
  intro l
  induction l with
  | nil => exact List.Perm.refl _
  | cons y ys ih =>
    show (if le y x then y :: insertLe le x ys else x :: y :: ys).Perm _
    by_cases h : le y x
    · rw [if_pos h]
      exact (List.Perm.cons y ih).trans (List.Perm.swap x y ys)
    · rw [if_neg h]

theorem pySorted_go_perm {α : Type} (le : α → α → Bool) :
    ∀ (l acc : List α),
    (l.foldl (fun acc x => insertLe le x acc) acc).Perm (l ++ acc) := by
  intro l
  induction l with
  | nil =>
    intro acc
    rw [List.nil_append]
    exact List.Perm.refl acc
  | cons x xs ih =>
    intro acc
    rw [List.foldl_cons]
    refine (ih (insertLe le x acc)).trans ?_
    refine (List.Perm.append_left xs (insertLe_perm le x acc)).trans ?_
    exact List.perm_middle

theorem pySorted_perm {α : Type} (le : α → α → Bool) (l : List α) :
    (pySorted le l).Perm l := by
  have h := pySorted_go_perm le l []
  rw [List.append_nil] at h
  exact h

theorem stbAdd_cons (k : String) (v : List String)
    (rest : List (String × List String)) (s b : String) :
    stbAdd ((k, v) :: rest) s b =
      if k = s then (k, v ++ [b]) :: rest
      else (k, v) :: stbAdd rest s b := rfl

theorem stbAdd_keys_mem (s b x : String) :
    ∀ m : List (String × List String),
    x ∈ (stbAdd m s b).map (fun kv => kv.1) →
    x ∈ m.map (fun kv => kv.1) ∨ x = s := by
  intro m
  induction m with
  | nil =>
    intro h
    right
    simpa [stbAdd] using h
  | cons kv rest ih =>
    obtain ⟨k, v⟩ := kv
    intro h
    rw [stbAdd_cons] at h
    by_cases hk : k = s
    · rw [if_pos hk] at h
      left
      simpa using h
    · rw [if_neg hk] at h
      rw [List.map_cons, List.mem_cons] at h
      rcases h with h | h
      · left
        simp [h]
      · rcases ih h with h' | h'
        · left
          rw [List.map_cons, List.mem_cons]
          right
          exact h'
        · right
          exact h'

theorem stbAdd_keys_nodup (s b : String) :
    ∀ m : List (String × List String),
    ((m.map (fun kv => kv.1)).Nodup) →
    ((stbAdd m s b).map (fun kv => kv.1)).Nodup := by
  intro m
  induction m with
  | nil =>
    intro _
    simp [stbAdd]
  | cons kv rest ih =>
    obtain ⟨k, v⟩ := kv
    intro h
    rw [stbAdd_cons]
    by_cases hk : k = s
    · rw [if_pos hk]
      simpa using h
    · rw [if_neg hk]
      rw [List.map_cons, List.nodup_cons] at h ⊢
      refine ⟨?_, ih h.2⟩
      intro hmem
      rcases stbAdd_keys_mem s b k rest hmem with h' | h'
      · exact h.1 h'
      · exact hk h'

theorem stbAddList_keys_nodup (ss : List String) :
    ∀ (m : List (String × List String)) (bn : String),
    ((m.map (fun kv => kv.1)).Nodup) →
    ((ss.foldl (fun m s => stbAdd m s bn) m).map (fun kv => kv.1)).Nodup := by
  induction ss with
  | nil =>
    intro m bn h
    exact h
  | cons s ss ih =>
    intro m bn h
    rw [List.foldl_cons]
    exact ih _ bn (stbAdd_keys_nodup s bn m h)

theorem buildSwitchToBones_keys_nodup_go :
    ∀ (bones : List PoseBone) (m : List (String × List String)),
    ((m.map (fun kv => kv.1)).Nodup) →
    ((bones.foldl
        (fun m pb =>
          if pyStartsWith pb.name "DEF_" then
            (parseBoneSwitches pb).foldl (fun m s => stbAdd m s pb.name) m
          else m)
        m).map (fun kv => kv.1)).Nodup := by
  intro bones
  induction bones with
  | nil =>
    intro m h
    exact h
  | cons pb bones ih =>
    intro m h
    rw [List.foldl_cons]
    apply ih
    by_cases hd : pyStartsWith pb.name "DEF_" = true
    · rw [if_pos hd]
      exact stbAddList_keys_nodup (parseBoneSwitches pb) m pb.name h
    · rw [if_neg hd]
      exact h

theorem buildStb_keys_nodup (a : Armature) :
    ((buildStb a).map (fun kv => kv.1)).Nodup := by
  unfold buildStb buildSwitchToBones
  exact buildSwitchToBones_keys_nodup_go a.bones [] (by simp)

theorem buildOrder_nodup (a : Armature) : (buildOrder a).Nodup := by
  unfold buildOrder switchOrder
  exact (pySorted_perm _ _).nodup_iff.mpr (buildStb_keys_nodup a)

theorem sfbOf_nodup (a : Armature) (pb : PoseBone) : (sfbOf a pb).Nodup := by
  unfold sfbOf boneSfb
  exact List.Nodup.filter _ (buildOrder_nodup a)

theorem string_eq_of_data (s t : String) (h : s.data = t.data) : s = t := by
  cases s
  cases t
  simp_all

theorem crs_append_inj (pre s s' : String) (h : pre ++ s = pre ++ s') :
    s = s' := by
  have hd := congrArg String.data h
  rw [String.data_append, String.data_append] at hd
  exact string_eq_of_data s s' (List.append_cancel_left hd)

theorem crs_fk_ne_mch (s s' : String) :
    ¬ ("CRS_FK_" ++ s = "CRS_MCH_" ++ s') := by
  intro h
  have hd := congrArg String.data h
  rw [String.data_append, String.data_append] at hd
  have h4 : ("CRS_FK_".data ++ s.data)[4]? =
      ("CRS_MCH_".data ++ s'.data)[4]? := by rw [hd]
  rw [List.getElem?_append, List.getElem?_append] at h4
  rw [if_pos (by decide), if_pos (by decide)] at h4
  rw [show ("CRS_FK_".data)[4]? = some 'F' from rfl,
    show ("CRS_MCH_".data)[4]? = some 'M' from rfl] at h4
  exact absurd (Option.some.inj h4) (by decide)

theorem desiredNames_nodup (fkEx mchEx : Bool) :
    ∀ dso : List String, dso.Nodup → (desiredNames fkEx mchEx dso).Nodup := by
  intro dso
  induction dso with
  | nil =>
    intro _
    cases fkEx <;> cases mchEx <;> simp [desiredNames]
  | cons sw rest ih =>
    intro h
    rw [List.nodup_cons] at h
    have hstep : desiredNames fkEx mchEx (sw :: rest) =
        ((if fkEx then ["CRS_FK_" ++ sw] else []) ++
         (if mchEx then ["CRS_MCH_" ++ sw] else [])) ++
        desiredNames fkEx mchEx rest := by
      unfold desiredNames
      rw [List.flatMap_cons]
    rw [hstep, List.nodup_append]
    have hmemr : ∀ x ∈ desiredNames fkEx mchEx rest,
        (∃ s' ∈ rest, x = "CRS_FK_" ++ s') ∨
        (∃ s' ∈ rest, x = "CRS_MCH_" ++ s') := by
      intro x hx
      unfold desiredNames at hx
      rw [List.mem_flatMap] at hx
      obtain ⟨s', hs', hx⟩ := hx
      rw [List.mem_append] at hx
      rcases hx with hx | hx
      · left
        refine ⟨s', hs', ?_⟩
        cases fkEx
        · simp at hx
        · simpa using hx
      · right
        refine ⟨s', hs', ?_⟩
        cases mchEx
        · simp at hx
        · simpa using hx
    refine ⟨?_, ih h.2, ?_⟩
    · cases fkEx <;> cases mchEx <;> simp
      intro hcontra
      exact crs_fk_ne_mch sw sw hcontra
    · intro x hx hx'
      rcases hmemr x hx' with ⟨s', hs', hfk⟩ | ⟨s', hs', hmch⟩ <;>
        subst_vars <;>
        rw [List.mem_append] at hx <;>
        rcases hx with hx | hx
      · cases fkEx
        · simp at hx
        · rw [show (if true = true then ["CRS_FK_" ++ sw] else []) =
            ["CRS_FK_" ++ sw] from rfl, List.mem_singleton] at hx
          have := crs_append_inj "CRS_FK_" s' sw hx
          exact h.1 (this ▸ hs')
      · cases mchEx
        · simp at hx
        · rw [show (if true = true then ["CRS_MCH_" ++ sw] else []) =
            ["CRS_MCH_" ++ sw] from rfl, List.mem_singleton] at hx
          exact crs_fk_ne_mch s' sw hx
      · cases fkEx
        · simp at hx
        · rw [show (if true = true then ["CRS_FK_" ++ sw] else []) =
            ["CRS_FK_" ++ sw] from rfl, List.mem_singleton] at hx
          exact crs_fk_ne_mch sw s' hx.symm
      · cases mchEx
        · simp at hx
        · rw [show (if true = true then ["CRS_MCH_" ++ sw] else []) =
            ["CRS_MCH_" ++ sw] from rfl, List.mem_singleton] at hx
          have := crs_append_inj "CRS_MCH_" s' sw hx
          exact h.1 (this ▸ hs')

theorem build_desiredNames_nodup (a : Armature) (pb : PoseBone)
    (fkEx mchEx : Bool) :
    (desiredNames fkEx mchEx
      (desiredSwitchOrder (buildStb a) (sfbOf a pb))).Nodup := by
  apply desiredNames_nodup
  unfold desiredSwitchOrder
  exact (pySorted_perm _ _).nodup_iff.mpr (sfbOf_nodup a pb)

/-! ### One run seen from the next run: congruences and fixpoints -/

theorem armature_eq (x y : Armature) (h1 : x.bones = y.bones)
    (h2 : x.animationData = y.animationData) : x = y := by
  cases x
  cases y
  dsimp at h1 h2
  rw [h1, h2]

theorem build_bones_eq (a : Armature) :
    (build_rebuild_switches a).1.bones = a.bones.map (boneStep a) := by
  obtain ⟨hlen, hpt, _, _⟩ := build_char a
  apply List.ext_getElem?
  intro j
  rw [List.getElem?_map]
  cases hj : a.bones[j]? with
  | none =>
    have hjl : a.bones.length ≤ j := by
      by_contra hc
      push_neg at hc
      rw [List.getElem?_eq_getElem hc] at hj
      exact absurd hj (by simp)
    rw [List.getElem?_eq_none (by omega)]
    rfl
  | some pb =>
    rw [hpt j pb hj]
    rfl

theorem build_sig_eq (a : Armature) :
    (build_rebuild_switches a).1.bones.map boneSig = a.bones.map boneSig := by
  rw [build_bones_eq, List.map_map]
  exact List.map_congr_left (fun pb _ => boneStep_sig a pb)

theorem build_stb_eq (a : Armature) :
    buildStb (build_rebuild_switches a).1 = buildStb a := by
  unfold buildStb
  exact buildSwitchToBones_congr _ _ (build_sig_eq a)

theorem build_order_eq (a : Armature) :
    buildOrder (build_rebuild_switches a).1 = buildOrder a := by
  unfold buildOrder
  rw [show buildSwitchToBones (build_rebuild_switches a).1.bones =
    buildSwitchToBones a.bones from buildSwitchToBones_congr _ _ (build_sig_eq a)]

theorem build_findBone_isSome (a : Armature) (n : String) :
    ((build_rebuild_switches a).1.findBone n).isSome =
      (a.findBone n).isSome := by
  unfold Armature.findBone
  exact find?_name_isSome_congr _ _ (map_name_eq_of_sig _ _ (build_sig_eq a)) n

theorem build_sfb_eq (a : Armature) (pb : PoseBone) :
    sfbOf (build_rebuild_switches a).1 (boneStep a pb) = sfbOf a pb := by
  unfold sfbOf
  rw [build_stb_eq, build_order_eq,
    show (boneStep a pb).name = pb.name from
      congrArg Prod.fst (boneStep_sig a pb)]

theorem build_cond_eq (a : Armature) (pb : PoseBone) :
    boneCond (build_rebuild_switches a).1 (boneStep a pb) = boneCond a pb := by
  unfold boneCond
  rw [build_sfb_eq a pb,
    show (boneStep a pb).name = pb.name from
      congrArg Prod.fst (boneStep_sig a pb),
    build_findBone_isSome a ("FK_" ++ pb.name.drop 4),
    build_findBone_isSome a ("MCH_" ++ pb.name.drop 4)]

theorem boneStep_pos (a : Armature) (pb : PoseBone)
    (h : boneCond a pb = true) :
    boneStep a pb = boneTransformC (buildStb a)
      ((a.findBone ("FK_" ++ pb.name.drop 4)).isSome)
      ((a.findBone ("MCH_" ++ pb.name.drop 4)).isSome)
      ("FK_" ++ pb.name.drop 4) ("MCH_" ++ pb.name.drop 4)
      (sfbOf a pb) pb := by
  unfold boneStep
  rw [if_pos h]

theorem boneStep_neg (a : Armature) (pb : PoseBone)
    (h : ¬ boneCond a pb = true) : boneStep a pb = pb := by
  unfold boneStep
  rw [if_neg h]

theorem build_boneStep_fix (a : Armature) (pb : PoseBone) :
    boneStep (build_rebuild_switches a).1 (boneStep a pb) = boneStep a pb := by
  have hname : (boneStep a pb).name = pb.name :=
    congrArg Prod.fst (boneStep_sig a pb)
  by_cases hc : boneCond a pb = true
  · have hcond2 : boneCond (build_rebuild_switches a).1 (boneStep a pb) =
        true := by
      rw [build_cond_eq]
      exact hc
    rw [boneStep_pos _ _ hcond2]
    rw [build_stb_eq, build_sfb_eq, hname,
      build_findBone_isSome a ("FK_" ++ pb.name.drop 4),
      build_findBone_isSome a ("MCH_" ++ pb.name.drop 4)]
    rw [boneStep_pos a pb hc]
    exact boneTransformC_idem _ _ _ _ _ _ _ (build_desiredNames_nodup a pb _ _)
  · have hcond2 : ¬ boneCond (build_rebuild_switches a).1 (boneStep a pb) =
        true := by
      rw [build_cond_eq]
      exact hc
    exact boneStep_neg _ _ hcond2

theorem build_drvPairs_eq (a : Armature) (pb : PoseBone) :
    boneDrvPairs (build_rebuild_switches a).1 (boneStep a pb) =
      boneDrvPairs a pb := by
  unfold boneDrvPairs
  rw [build_cond_eq a pb]
  by_cases hc : boneCond a pb = true
  · rw [if_pos hc, if_pos hc]
    rw [build_sfb_eq a pb,
      show (boneStep a pb).name = pb.name from
        congrArg Prod.fst (boneStep_sig a pb),
      build_findBone_isSome a ("FK_" ++ pb.name.drop 4),
      build_findBone_isSome a ("MCH_" ++ pb.name.drop 4)]
  · rw [if_neg hc, if_neg hc]

theorem flatMap_congr_left {α β : Type} (l : List α) (f g : α → List β)
    (h : ∀ x ∈ l, f x = g x) : l.flatMap f = l.flatMap g := by
  induction l with
  | nil => rfl
  | cons x xs ih =>
    rw [List.flatMap_cons, List.flatMap_cons, h x (List.mem_cons_self x xs),
      ih (fun y hy => h y (List.mem_cons_of_mem x hy))]

theorem build_allPairsD_eq (a : Armature) :
    allPairsD (build_rebuild_switches a).1 = allPairsD a := by
  unfold allPairsD
  rw [build_bones_eq, List.flatMap_map]
  exact flatMap_congr_left a.bones _ _ (fun pb _ => build_drvPairs_eq a pb)

theorem build_created_eq (a : Armature) :
    buildCreated (build_rebuild_switches a).1 = buildCreated a := by
  unfold buildCreated
  rw [build_bones_eq, List.filter_map, List.map_map]
  rw [show List.filter
      ((boneCond (build_rebuild_switches a).1) ∘ (boneStep a)) a.bones =
      List.filter (boneCond a) a.bones from
    List.filter_congr (fun pb _ =>
      show boneCond (build_rebuild_switches a).1 (boneStep a pb) =
        boneCond a pb from build_cond_eq a pb)]
  exact List.map_congr_left (fun pb _ =>
    show (boneStep a pb).name = pb.name from
      congrArg Prod.fst (boneStep_sig a pb))

/-- C3: `build_rebuild_switches` is idempotent.  Running it a second time on
the armature state produced by the first run changes nothing: every
constraint is reused in place (the reuse search hits the constraint the
first run created or settled, whose spaces are already LOCAL), every driver
at an influence data path is removed and re-added unchanged, the reorder
pass is a fixpoint on its own output, and the `created` list is
reproduced, so the state after two consecutive runs equals the state after
one run. -/
theorem build_rebuild_idempotent (a : Armature) :
    build_rebuild_switches (build_rebuild_switches a).1 =
      build_rebuild_switches a := by
  obtain ⟨hlen, hpt, had, hcr⟩ := build_char a
  obtain ⟨hlen2, hpt2, had2, hcr2⟩ := build_char (build_rebuild_switches a).1
  rw [Prod.ext_iff]
  constructor
  · apply armature_eq
    · rw [build_bones_eq (build_rebuild_switches a).1, build_bones_eq a,
        List.map_map]
      exact List.map_congr_left (fun pb _ => build_boneStep_fix a pb)
    · rw [had2, had, build_allPairsD_eq]
      exact applyDrv_idem a.animationData (allPairsD a) (allPairsD_paths a)
  · rw [hcr2, build_created_eq, hcr]

/-! ### C5: the at-most-one-per-(name, subtarget) invariant -/

theorem countP_setLocalFirst (cn t cn' t' : String) :
    ∀ cs : List Constraint,
    (setLocalFirst cn t cs).countP (ctMatches cn' t') =
      cs.countP (ctMatches cn' t') := by
  intro cs
  induction cs with
  | nil => rfl
  | cons c rest ih =>
    rw [setLocalFirst_cons]
    by_cases hm : ctMatches cn t c = true
    · rw [if_pos hm]
      rw [List.countP_cons, List.countP_cons, ctMatches_setSpaces]
    · rw [if_neg hm]
      rw [List.countP_cons, List.countP_cons, ih]

theorem countP_ctAdd_le (cs : List Constraint) (t cn cn' t' : String)
    (h : cs.countP (ctMatches cn' t') ≤ 1) :
    (ctAdd cs t cn).countP (ctMatches cn' t') ≤ 1 := by
  unfold ctAdd
  cases hf : cs.find? (ctMatches cn t) with
  | some c =>
    rw [countP_setLocalFirst]
    exact h
  | none =>
    rw [List.countP_append]
    by_cases hpq : cn' = cn ∧ t' = t
    · obtain ⟨h1, h2⟩ := hpq
      subst h1
      subst h2
      have hz : cs.countP (ctMatches cn' t') = 0 := by
        rw [List.countP_eq_zero]
        exact List.find?_eq_none.mp hf
      have hone : List.countP (ctMatches cn' t')
          [newCopyTransforms t' cn'] ≤ 1 := List.countP_le_length _
      omega
    · have hm : ctMatches cn' t' (newCopyTransforms t cn) = false := by
        cases hv : ctMatches cn' t' (newCopyTransforms t cn)
        · rfl
        · exfalso
          apply hpq
          have h1 := ctMatches_name cn' t' _ hv
          have h2 := ctMatches_subtarget cn' t' _ hv
          exact ⟨h1.symm, h2.symm⟩
      have hz2 : List.countP (ctMatches cn' t')
          [newCopyTransforms t cn] = 0 := by
        rw [List.countP_cons]
        simp [hm]
      rw [hz2]
      omega

theorem countP_ctAddAll_le (prs : List (String × String)) :
    ∀ cs : List Constraint,
    (∀ cn' t' : String, cs.countP (ctMatches cn' t') ≤ 1) →
    ∀ cn' t' : String, (ctAddAll cs prs).countP (ctMatches cn' t') ≤ 1 := by
  induction prs with
  | nil =>
    intro cs h
    exact h
  | cons pr prs ih =>
    intro cs h cn' t'
    rw [ctAddAll_cons]
    exact ih _ (fun cm tm => countP_ctAdd_le cs pr.2 pr.1 cm tm (h cm tm))
      cn' t'

theorem boneTransformC_countP_le (stb : List (String × List String))
    (fkEx mchEx : Bool) (fkName mchName : String) (sfb : List String)
    (pb : PoseBone)
    (hnd : (desiredNames fkEx mchEx (desiredSwitchOrder stb sfb)).Nodup)
    (h : ∀ cn t : String, pb.constraints.countP (ctMatches cn t) ≤ 1)
    (cn t : String) :
    (boneTransformC stb fkEx mchEx fkName mchName sfb pb).constraints.countP
      (ctMatches cn t) ≤ 1 := by
  show (reorderConstraints
      (ctAddAll pb.constraints (bonePairsC fkEx mchEx fkName mchName sfb))
      (desiredNames fkEx mchEx (desiredSwitchOrder stb sfb))).countP
      (ctMatches cn t) ≤ 1
  rw [reorder_eq_nf _ _ hnd]
  rw [List.Perm.countP_eq (ctMatches cn t) (reorderNF_perm _ _)]
  exact countP_ctAddAll_le _ _ h cn t

theorem boneStep_countP_le (a : Armature) (pb : PoseBone)
    (h : ∀ cn t : String, pb.constraints.countP (ctMatches cn t) ≤ 1)
    (cn t : String) :
    (boneStep a pb).constraints.countP (ctMatches cn t) ≤ 1 := by
  by_cases hc : boneCond a pb = true
  · rw [boneStep_pos a pb hc]
    exact boneTransformC_countP_le _ _ _ _ _ _ _
      (build_desiredNames_nodup a pb _ _) h cn t
  · rw [boneStep_neg a pb hc]
    exact h cn t

/-- C5: a `build_rebuild_switches` run cannot deduplicate pre-existing
duplicate constraints, so uniqueness by name is an invariant rather than an
unconditional postcondition: `claim5Arm`'s `DEF_Arm` bone enters the run
carrying two identical `CRS_FK_A` constraints and leaves it still carrying
both. -/
theorem claim5_counterexample :
    ∃ pb ∈ (build_rebuild_switches claim5Arm).1.bones,
      2 ≤ pb.constraints.countP (ctMatches "CRS_FK_A" "FK_Arm") := by
  decide

/-- C5 (amended to an invariant): when every pose bone carries at most one
COPY_TRANSFORMS constraint per (name, subtarget) pair and the driver table
holds at most one driver per data path, the same holds after a
`build_rebuild_switches` run — the reuse search updates the existing
constraint in place instead of creating a second one, and `driver_add` is
preceded by removal of every driver at the same influence path. -/
theorem constraint_driver_uniqueness (a : Armature)
    (hc : ∀ pb ∈ a.bones, ∀ cn t : String,
      pb.constraints.countP (ctMatches cn t) ≤ 1)
    (hd : ∀ ds, a.animationData = some ds →
      ∀ p : String, ds.countP (fun d => d.dataPath = p) ≤ 1) :
    (∀ pb ∈ (build_rebuild_switches a).1.bones, ∀ cn t : String,
      pb.constraints.countP (ctMatches cn t) ≤ 1)
    ∧ (∀ ds, (build_rebuild_switches a).1.animationData = some ds →
        ∀ p : String, ds.countP (fun d => d.dataPath = p) ≤ 1) := by
  constructor
  · intro pb hpb cn t
    rw [build_bones_eq, List.mem_map] at hpb
    obtain ⟨pb₀, hpb₀, hmap⟩ := hpb
    subst hmap
    exact boneStep_countP_le a pb₀ (hc pb₀ hpb₀) cn t
  · obtain ⟨_, _, had, _⟩ := build_char a
    intro ds hds p
    rw [had] at hds
    cases hadv : a.animationData with
    | some ds0 =>
      rw [hadv, applyDrv_some] at hds
      have hdss : ds = applyDrvL ds0 (allPairsD a) :=
        (Option.some.inj hds).symm
      subst hdss
      exact applyDrvL_countP ds0 (allPairsD a) p (allPairsD_paths a)
        (hd ds0 hadv p)
    | none =>
      rw [hadv] at hds
      cases hP : allPairsD a with
      | nil =>
        rw [hP] at hds
        rw [show applyDrv none ([] : List (String × Driver)) = none from
          rfl] at hds
        exact Option.noConfusion hds
      | cons pr rest =>
        rw [hP, applyDrv_none_cons] at hds
        have hdss : ds = applyDrvL [] (pr :: rest) :=
          (Option.some.inj hds).symm
        subst hdss
        refine applyDrvL_countP [] (pr :: rest) p ?_ (by simp)
        rw [← hP]
        exact allPairsD_paths a

theorem constraint_driver_uniqueness_witness :
    (∀ pb ∈ (build_rebuild_switches exArmA).1.bones, ∀ cn t : String,
      pb.constraints.countP (ctMatches cn t) ≤ 1)
    ∧ (∀ ds, (build_rebuild_switches exArmA).1.animationData = some ds →
        ∀ p : String, ds.countP (fun d => d.dataPath = p) ≤ 1) :=
  constraint_driver_uniqueness exArmA
    (by
      intro pb hpb cn t
      rw [show exArmA.bones = [exBoneA] from rfl, List.mem_singleton] at hpb
      subst hpb
      exact le_trans (List.countP_le_length _) (by decide))
    (by
      intro ds hds p
      unfold exArmA at hds
      dsimp only at hds
      injection hds with h2
      subst h2
      exact le_trans (List.countP_le_length _) (by decide))

/-! ### Influence data paths: injectivity and the final driver table -/

theorem find?_eq_head?_filter {α : Type} (q : α → Bool) :
    ∀ l : List α, l.find? q = (l.filter q).head? := by
  intro l
  induction l with
  | nil => rfl
  | cons c rest ih =>
    cases hq : q c with
    | true =>
      rw [List.find?_cons_of_pos _ hq, List.filter_cons_of_pos hq]
      rfl
    | false =>
      rw [List.find?_cons_of_neg _ (by simp [hq]),
        List.filter_cons_of_neg (by simp [hq]), ih]

theorem reverse_find?_of_filter_eq {α : Type} (q : α → Bool) (l : List α)
    (x : α) (h : l.filter q = [x]) : l.reverse.find? q = some x := by
  rw [find?_eq_head?_filter, List.filter_reverse, h]
  rfl

theorem quote_split_inj : ∀ (u₁ u₂ v₁ v₂ : List Char),
    (∀ c ∈ u₁, c ≠ '\"') → (∀ c ∈ u₂, c ≠ '\"') →
    v₁.head? = some '\"' → v₂.head? = some '\"' →
    u₁ ++ v₁ = u₂ ++ v₂ → u₁ = u₂ ∧ v₁ = v₂ := by
  intro u₁
  induction u₁ with
  | nil =>
    intro u₂ v₁ v₂ h1 h2 hv1 hv2 heq
    cases u₂ with
    | nil => exact ⟨rfl, heq⟩
    | cons c u₂ =>
      rw [List.nil_append] at heq
      subst heq
      rw [List.cons_append, List.head?_cons] at hv1
      exact absurd (Option.some.inj hv1) (h2 c (List.mem_cons_self c u₂))
  | cons c u₁ ih =>
    intro u₂ v₁ v₂ h1 h2 hv1 hv2 heq
    cases u₂ with
    | nil =>
      rw [List.nil_append] at heq
      subst heq
      rw [List.cons_append, List.head?_cons] at hv2
      exact absurd (Option.some.inj hv2) (h1 c (List.mem_cons_self c u₁))
    | cons c₂ u₂ =>
      rw [List.cons_append, List.cons_append] at heq
      injection heq with hc htl
      subst hc
      obtain ⟨hu, hv⟩ := ih u₂ v₁ v₂
        (fun d hd => h1 d (List.mem_cons_of_mem c hd))
        (fun d hd => h2 d (List.mem_cons_of_mem c hd)) hv1 hv2 htl
      exact ⟨by rw [hu], hv⟩

theorem influencePath_data (bn cn : String) :
    (influencePath bn cn).data =
      "pose.bones[\"".data ++ (bn.data ++
        ("\"].constraints[\"".data ++ (cn.data ++ "\"].influence".data))) := by
  unfold influencePath
  rw [String.data_append, String.data_append, String.data_append]
  simp [List.append_assoc]

theorem influencePath_inj_cn (bn cn₁ cn₂ : String)
    (h : influencePath bn cn₁ = influencePath bn cn₂) : cn₁ = cn₂ := by
  have hd := congrArg String.data h
  rw [influencePath_data, influencePath_data] at hd
  have h1 := List.append_cancel_left hd
  have h2 := List.append_cancel_left h1
  have h3 := List.append_cancel_left h2
  exact string_eq_of_data _ _ (List.append_cancel_right h3)

theorem influencePath_inj (bn₁ bn₂ cn₁ cn₂ : String)
    (h1 : ∀ c ∈ bn₁.data, c ≠ '\"') (h2 : ∀ c ∈ bn₂.data, c ≠ '\"')
    (heq : influencePath bn₁ cn₁ = influencePath bn₂ cn₂) :
    bn₁ = bn₂ ∧ cn₁ = cn₂ := by
  have hd := congrArg String.data heq
  rw [influencePath_data, influencePath_data] at hd
  have h3 := List.append_cancel_left hd
  obtain ⟨hbn, hrest⟩ := quote_split_inj bn₁.data bn₂.data _ _ h1 h2
    (by rw [List.head?_append]; rfl) (by rw [List.head?_append]; rfl) h3
  refine ⟨string_eq_of_data _ _ hbn, ?_⟩
  have h4 := List.append_cancel_left hrest
  exact string_eq_of_data _ _ (List.append_cancel_right h4)

theorem filter_flatMap {α β : Type} (l : List α) (f : α → List β)
    (q : β → Bool) :
    (l.flatMap f).filter q = l.flatMap (fun x => (f x).filter q) := by
  induction l with
  | nil => rfl
  | cons x xs ih =>
    rw [List.flatMap_cons, List.flatMap_cons, List.filter_append, ih]

theorem flatMap_eq_nil_of {α β : Type} (f : α → List β) :
    ∀ l : List α, (∀ y ∈ l, f y = []) → l.flatMap f = [] := by
  intro l
  induction l with
  | nil =>
    intro _
    rfl
  | cons y ys ih =>
    intro h
    rw [List.flatMap_cons, h y (List.mem_cons_self y ys), List.nil_append]
    exact ih (fun z hz => h z (List.mem_cons_of_mem y hz))

theorem flatMap_eq_single {α β : Type} (f : α → List β) :
    ∀ (l : List α) (x : α), x ∈ l → l.Nodup →
    (∀ y ∈ l, y ≠ x → f y = []) → l.flatMap f = f x := by
  intro l
  induction l with
  | nil =>
    intro x hx
    simp at hx
  | cons y ys ih =>
    intro x hx hnd hz
    rw [List.flatMap_cons]
    by_cases hyx : y = x
    · subst hyx
      have hxnotin : y ∉ ys := (List.nodup_cons.mp hnd).1
      rw [flatMap_eq_nil_of f ys (fun z hzmem =>
          hz z (List.mem_cons_of_mem y hzmem)
            (fun hzy => hxnotin (hzy ▸ hzmem))),
        List.append_nil]
    · rw [hz y (List.mem_cons_self y ys) hyx, List.nil_append]
      have hx2 : x ∈ ys := by
        rcases List.mem_cons.mp hx with h | h
        · exact absurd h.symm hyx
        · exact h
      exact ih x hx2 (List.nodup_cons.mp hnd).2
        (fun z hzm hzx => hz z (List.mem_cons_of_mem y hzm) hzx)

theorem switchPairsD_filter_fk (mchEx : Bool) (bn : String)
    (sfb : List String) (s y : String) :
    (switchPairsD true mchEx bn sfb y).filter
      (fun pr => pr.1 = influencePath bn ("CRS_FK_" ++ s)) =
      if y = s then
        [(influencePath bn ("CRS_FK_" ++ s), mkFkDriver bn sfb s)]
      else [] := by
  unfold switchPairsD
  rw [if_pos rfl, List.filter_append]
  have hmch : (if mchEx then
      [(influencePath bn ("CRS_MCH_" ++ y), mkMchDriver bn sfb y)]
      else []).filter
      (fun pr => pr.1 = influencePath bn ("CRS_FK_" ++ s)) = [] := by
    cases mchEx
    · rfl
    · rw [if_pos rfl]
      rw [List.filter_cons_of_neg]
      · rfl
      · simp only [decide_eq_true_eq]
        intro hcontra
        exact crs_fk_ne_mch s y (influencePath_inj_cn bn _ _ hcontra).symm
  rw [hmch, List.append_nil]
  by_cases hys : y = s
  · subst hys
    rw [if_pos rfl]
    rw [List.filter_cons_of_pos (by simp)]
    rfl
  · rw [if_neg hys]
    rw [List.filter_cons_of_neg]
    · rfl
    · simp only [decide_eq_true_eq]
      intro hcontra
      exact hys (crs_append_inj "CRS_FK_" y s (influencePath_inj_cn bn _ _ hcontra))

theorem switchPairsD_filter_mch (bn : String)
    (sfb : List String) (s y : String) (fkEx : Bool) :
    (switchPairsD fkEx true bn sfb y).filter
      (fun pr => pr.1 = influencePath bn ("CRS_MCH_" ++ s)) =
      if y = s then
        [(influencePath bn ("CRS_MCH_" ++ s), mkMchDriver bn sfb s)]
      else [] := by
  unfold switchPairsD
  rw [List.filter_append]
  have hfk : (if fkEx then
      [(influencePath bn ("CRS_FK_" ++ y), mkFkDriver bn sfb y)]
      else []).filter
      (fun pr => pr.1 = influencePath bn ("CRS_MCH_" ++ s)) = [] := by
    cases fkEx
    · rfl
    · rw [if_pos rfl]
      rw [List.filter_cons_of_neg]
      · rfl
      · simp only [decide_eq_true_eq]
        intro hcontra
        exact crs_fk_ne_mch y s (influencePath_inj_cn bn _ _ hcontra)
  rw [hfk, List.nil_append, if_pos rfl]
  by_cases hys : y = s
  · subst hys
    rw [List.filter_cons_of_pos (by simp), if_pos rfl]
    rfl
  · rw [if_neg hys]
    rw [List.filter_cons_of_neg]
    · rfl
    · simp only [decide_eq_true_eq]
      intro hcontra
      exact hys
        (crs_append_inj "CRS_MCH_" y s (influencePath_inj_cn bn _ _ hcontra))

theorem bonePairsD_filter_fk (mchEx : Bool) (bn : String) (sfb : List String)
    (s : String) (hs : s ∈ sfb) (hnd : sfb.Nodup) :
    (bonePairsD true mchEx bn sfb).filter
      (fun pr => pr.1 = influencePath bn ("CRS_FK_" ++ s)) =
      [(influencePath bn ("CRS_FK_" ++ s), mkFkDriver bn sfb s)] := by
  unfold bonePairsD
  rw [filter_flatMap]
  rw [flatMap_eq_single _ sfb s hs hnd (fun y hy hys => by
    rw [switchPairsD_filter_fk, if_neg hys])]
  rw [switchPairsD_filter_fk, if_pos rfl]

theorem bonePairsD_filter_mch (fkEx : Bool) (bn : String) (sfb : List String)
    (s : String) (hs : s ∈ sfb) (hnd : sfb.Nodup) :
    (bonePairsD fkEx true bn sfb).filter
      (fun pr => pr.1 = influencePath bn ("CRS_MCH_" ++ s)) =
      [(influencePath bn ("CRS_MCH_" ++ s), mkMchDriver bn sfb s)] := by
  unfold bonePairsD
  rw [filter_flatMap]
  rw [flatMap_eq_single _ sfb s hs hnd (fun y hy hys => by
    rw [switchPairsD_filter_mch, if_neg hys])]
  rw [switchPairsD_filter_mch, if_pos rfl]

theorem bonePairsD_path_shape (fkEx mchEx : Bool) (bn : String)
    (sfb : List String) (pr : String × Driver)
    (hpr : pr ∈ bonePairsD fkEx mchEx bn sfb) :
    ∃ cn, pr.1 = influencePath bn cn := by
  unfold bonePairsD at hpr
  rw [List.mem_flatMap] at hpr
  obtain ⟨y, _, hy⟩ := hpr
  unfold switchPairsD at hy
  rw [List.mem_append] at hy
  rcases hy with hy | hy
  · cases fkEx
    · simp at hy
    · rw [if_pos rfl, List.mem_singleton] at hy
      exact ⟨"CRS_FK_" ++ y, by rw [hy]⟩
  · cases mchEx
    · simp at hy
    · rw [if_pos rfl, List.mem_singleton] at hy
      exact ⟨"CRS_MCH_" ++ y, by rw [hy]⟩

theorem allPairsD_filter_at (a : Armature) (pb : PoseBone) (cn : String)
    (hpb : pb ∈ a.bones)
    (hnn : (a.bones.map (fun b => b.name)).Nodup)
    (hq : ∀ b ∈ a.bones, ∀ c ∈ b.name.data, c ≠ '\"') :
    (allPairsD a).filter (fun pr => pr.1 = influencePath pb.name cn) =
      (boneDrvPairs a pb).filter
        (fun pr => pr.1 = influencePath pb.name cn) := by
  unfold allPairsD
  rw [filter_flatMap]
  apply flatMap_eq_single _ a.bones pb hpb (List.Nodup.of_map _ hnn)
  intro pb' hpb' hne
  rw [List.filter_eq_nil_iff]
  intro pr hpr
  simp only [decide_eq_true_eq]
  intro hcontra
  by_cases hcb : boneCond a pb' = true
  · have hshape : ∃ cn', pr.1 = influencePath pb'.name cn' := by
      apply bonePairsD_path_shape _ _ pb'.name (sfbOf a pb')
      unfold boneDrvPairs at hpr
      rw [if_pos hcb] at hpr
      exact hpr
    obtain ⟨cn', hcn'⟩ := hshape
    rw [hcn'] at hcontra
    have hnames := (influencePath_inj pb'.name pb.name cn' cn
      (hq pb' hpb') (hq pb hpb) hcontra).1
    exact hne (List.inj_on_of_nodup_map hnn hpb' hpb hnames)
  · unfold boneDrvPairs at hpr
    rw [if_neg hcb] at hpr
    simp at hpr

theorem applyDrvL_filter_path (p : String) :
    ∀ (P : List (String × Driver)) (ds : List Driver),
    (∀ pr ∈ P, pr.2.dataPath = pr.1) →
    (applyDrvL ds P).filter (fun d => d.dataPath = p) =
      match P.reverse.find? (fun pr => pr.1 = p) with
      | some pr => [pr.2]
      | none => ds.filter (fun d => d.dataPath = p) := by
  intro P
  induction P with
  | nil =>
    intro ds _
    rfl
  | cons pr rest ih =>
    intro ds hP
    have hstep : applyDrvL ds (pr :: rest) =
        applyDrvL (ds.filter (fun dr => dr.dataPath ≠ pr.1) ++ [pr.2]) rest := by
      unfold applyDrvL
      rw [List.foldl_cons]
    rw [hstep, ih _ (fun q hq => hP q (List.mem_cons_of_mem pr hq))]
    rw [List.reverse_cons, List.find?_append]
    cases hr : rest.reverse.find? (fun pr => pr.1 = p) with
    | some q => rfl
    | none =>
      rw [Option.none_or]
      by_cases hpp : pr.1 = p
      · rw [show List.find? (fun pr => decide (pr.1 = p)) [pr] = some pr from
          List.find?_cons_of_pos _ (by simp [hpp])]
        rw [List.filter_append]
        have h1 : (ds.filter (fun dr => dr.dataPath ≠ pr.1)).filter
            (fun d => d.dataPath = p) = [] := by
          rw [List.filter_eq_nil_iff]
          intro d hd
          rw [List.mem_filter] at hd
          have h2 := hd.2
          simp only [ne_eq, decide_not, Bool.not_eq_true',
            decide_eq_false_iff_not] at h2
          simp only [decide_eq_true_eq]
          rw [hpp] at h2
          exact h2
        rw [h1, List.nil_append]
        rw [List.filter_cons_of_pos
          (by simp [hP pr (List.mem_cons_self pr rest), hpp])]
        rfl
      · rw [show List.find? (fun pr => decide (pr.1 = p)) [pr] = none from
          List.find?_cons_of_neg _ (by simp [hpp])]
        rw [List.filter_append]
        have h2 : [pr.2].filter (fun d => d.dataPath = p) = [] := by
          rw [List.filter_cons_of_neg]
          · rfl
          · simp only [decide_eq_true_eq]
            rw [hP pr (List.mem_cons_self pr rest)]
            exact hpp
        rw [h2, List.append_nil, List.filter_filter]
        apply List.filter_congr
        intro d _
        by_cases hdp : d.dataPath = p
        · have hne : ¬ d.dataPath = pr.1 := by
            rw [hdp]
            exact fun h => hpp h.symm
          simp [hdp, hne]
          exact fun h => hpp h.symm
        · simp [hdp]

/-! ### Semantics of the generated driver expressions -/

theorem range_all_eq_take_all (σ : String → ℚ) :
    ∀ (k : Nat) (l : List String), k ≤ l.length →
    ((List.range k).all (fun j => decide (σ (l.getD j "") = 0))) =
      ((l.take k).all (fun t => decide (σ t = 0))) := by
  intro k
  induction k with
  | zero =>
    intro l _
    rfl
  | succ k ih =>
    intro l h
    have hk : k < l.length := by omega
    rw [List.range_succ, List.all_append, ih l (by omega)]
    rw [List.take_succ, List.getElem?_eq_getElem hk, List.all_append]
    have hgd : l.getD k "" = l[k] := by
      rw [List.getD_eq_getElem?_getD, List.getElem?_eq_getElem hk]
      rfl
    simp [List.getElem?_eq_getElem hk, hgd]

theorem fk_expr_eval (sfb : List String) (s : String) (σ : String → ℚ)
    (hs : s ∈ sfb) :
    DExpr.eval (fun j => σ (sfb.getD j "")) (mkSelExpr (sfb.indexOf s)) =
      if (sfb.take (sfb.indexOf s)).all (fun t => decide (σ t = 0))
      then σ s else 0 := by
  have hlt : sfb.indexOf s < sfb.length := List.indexOf_lt_length.mpr hs
  have hval : sfb.getD (sfb.indexOf s) "" = s := by
    rw [List.getD_eq_getElem?_getD, List.getElem?_eq_getElem hlt]
    exact congrArg (fun o => Option.getD o "")
      (congrArg some (List.getElem_indexOf hlt))
  unfold mkSelExpr
  by_cases h0 : sfb.indexOf s = 0
  · rw [h0] at hval
    rw [h0]
    rw [if_pos rfl]
    show σ (sfb.getD 0 "") = _
    rw [hval]
    rw [show (sfb.take 0).all (fun t => decide (σ t = 0)) = true from rfl]
    rfl
  · rw [if_neg h0]
    show (if (List.range (sfb.indexOf s)).all
        (fun j => decide (σ (sfb.getD j "") = 0)) then
        σ (sfb.getD (sfb.indexOf s) "") else 0) = _
    rw [range_all_eq_take_all σ _ sfb (Nat.le_of_lt hlt), hval]

/-- C1: for every processed `DEF_` bone with an existing FK counterpart and
every switch assigned to it, the run leaves exactly one driver at the
`CRS_FK_<switch>` constraint's influence data path, namely the scripted
driver whose variables read the bone's switches in fewest-bones-first
priority order, and whose expression evaluates to the switch's own value
when every strictly higher-priority switch of the bone is zero, and to
zero otherwise.  Bone names must be pairwise distinct and quote-free for
the influence data paths to identify the constraint. -/
theorem fk_driver_priority (a : Armature) (pb : PoseBone) (s : String)
    (σ : String → ℚ)
    (hpb : pb ∈ a.bones) (hcond : boneCond a pb = true)
    (hfk : (a.findBone ("FK_" ++ pb.name.drop 4)).isSome = true)
    (hs : s ∈ sfbOf a pb)
    (hnn : (a.bones.map (fun b => b.name)).Nodup)
    (hq : ∀ b ∈ a.bones, ∀ c ∈ b.name.data, c ≠ '\"') :
    ∃ ds, (build_rebuild_switches a).1.animationData = some ds ∧
      ds.filter (fun d => d.dataPath =
          influencePath pb.name ("CRS_FK_" ++ s)) =
        [mkFkDriver pb.name (sfbOf a pb) s] ∧
      DExpr.eval (fun j => σ ((sfbOf a pb).getD j ""))
          (mkFkDriver pb.name (sfbOf a pb) s).expr =
        (if ((sfbOf a pb).take ((sfbOf a pb).indexOf s)).all
            (fun t => decide (σ t = 0)) then σ s else 0) := by
  have hfilter : (allPairsD a).filter
      (fun pr => pr.1 = influencePath pb.name ("CRS_FK_" ++ s)) =
      [(influencePath pb.name ("CRS_FK_" ++ s),
        mkFkDriver pb.name (sfbOf a pb) s)] := by
    rw [allPairsD_filter_at a pb _ hpb hnn hq]
    unfold boneDrvPairs
    rw [if_pos hcond, hfk]
    exact bonePairsD_filter_fk _ pb.name (sfbOf a pb) s hs (sfbOf_nodup a pb)
  have hrev : (allPairsD a).reverse.find?
      (fun pr => pr.1 = influencePath pb.name ("CRS_FK_" ++ s)) =
      some (influencePath pb.name ("CRS_FK_" ++ s),
        mkFkDriver pb.name (sfbOf a pb) s) :=
    reverse_find?_of_filter_eq _ _ _ hfilter
  have heval : DExpr.eval (fun j => σ ((sfbOf a pb).getD j ""))
      (mkFkDriver pb.name (sfbOf a pb) s).expr =
      (if ((sfbOf a pb).take ((sfbOf a pb).indexOf s)).all
          (fun t => decide (σ t = 0)) then σ s else 0) :=
    fk_expr_eval (sfbOf a pb) s σ hs
  obtain ⟨_, _, had, _⟩ := build_char a
  cases hadv : a.animationData with
  | some ds0 =>
    refine ⟨applyDrvL ds0 (allPairsD a), ?_, ?_, heval⟩
    · rw [had, hadv, applyDrv_some]
    · rw [applyDrvL_filter_path _ (allPairsD a) ds0 (allPairsD_paths a), hrev]
  | none =>
    cases hP : allPairsD a with
    | nil =>
      rw [hP] at hfilter
      simp at hfilter
    | cons pr rest =>
      refine ⟨applyDrvL [] (pr :: rest), ?_, ?_, heval⟩
      · rw [had, hadv, hP, applyDrv_none_cons]
      · rw [← hP,
          applyDrvL_filter_path _ (allPairsD a) [] (allPairsD_paths a), hrev]

theorem fk_driver_priority_witness :
    ∃ ds, (build_rebuild_switches c1Arm).1.animationData = some ds ∧
      ds.filter (fun d => d.dataPath =
          influencePath c1DefBone.name ("CRS_FK_" ++ "A")) =
        [mkFkDriver c1DefBone.name (sfbOf c1Arm c1DefBone) "A"] ∧
      DExpr.eval (fun j => zeroSwitchVals ((sfbOf c1Arm c1DefBone).getD j ""))
          (mkFkDriver c1DefBone.name (sfbOf c1Arm c1DefBone) "A").expr =
        (if ((sfbOf c1Arm c1DefBone).take
            ((sfbOf c1Arm c1DefBone).indexOf "A")).all
            (fun t => decide (zeroSwitchVals t = 0)) then
          zeroSwitchVals "A" else 0) :=
  fk_driver_priority c1Arm c1DefBone "A" zeroSwitchVals (by decide)
    (by decide) (by decide) (by decide) (by decide) (by decide)

/-- C2: for every processed `DEF_` bone with both counterparts and every
switch assigned to it, the run leaves exactly one driver at the
`CRS_MCH_<switch>` influence path, whose expression is literally `1 - (e)`
for the FK expression `e`, so its value is one minus the FK driver's value
under every switch valuation; in particular for a bone assigned exactly
one switch, value 0 gives FK influence 0 and MCH influence 1, and value 1
gives FK influence 1 and MCH influence 0. -/
theorem mch_driver_inversion (a : Armature) (pb : PoseBone) (s : String)
    (σ : String → ℚ)
    (hpb : pb ∈ a.bones) (hcond : boneCond a pb = true)
    (hmch : (a.findBone ("MCH_" ++ pb.name.drop 4)).isSome = true)
    (hs : s ∈ sfbOf a pb)
    (hnn : (a.bones.map (fun b => b.name)).Nodup)
    (hq : ∀ b ∈ a.bones, ∀ c ∈ b.name.data, c ≠ '\"') :
    ∃ ds, (build_rebuild_switches a).1.animationData = some ds ∧
      ds.filter (fun d => d.dataPath =
          influencePath pb.name ("CRS_MCH_" ++ s)) =
        [mkMchDriver pb.name (sfbOf a pb) s] ∧
      (mkMchDriver pb.name (sfbOf a pb) s).expr =
        DExpr.inv (mkFkDriver pb.name (sfbOf a pb) s).expr ∧
      (∀ v : Nat → ℚ,
        DExpr.eval v (mkMchDriver pb.name (sfbOf a pb) s).expr =
          1 - DExpr.eval v (mkFkDriver pb.name (sfbOf a pb) s).expr) ∧
      (sfbOf a pb = [s] →
        (σ s = 0 →
          DExpr.eval (fun j => σ ((sfbOf a pb).getD j ""))
            (mkFkDriver pb.name (sfbOf a pb) s).expr = 0 ∧
          DExpr.eval (fun j => σ ((sfbOf a pb).getD j ""))
            (mkMchDriver pb.name (sfbOf a pb) s).expr = 1) ∧
        (σ s = 1 →
          DExpr.eval (fun j => σ ((sfbOf a pb).getD j ""))
            (mkFkDriver pb.name (sfbOf a pb) s).expr = 1 ∧
          DExpr.eval (fun j => σ ((sfbOf a pb).getD j ""))
            (mkMchDriver pb.name (sfbOf a pb) s).expr = 0)) := by
  have hfilter : (allPairsD a).filter
      (fun pr => pr.1 = influencePath pb.name ("CRS_MCH_" ++ s)) =
      [(influencePath pb.name ("CRS_MCH_" ++ s),
        mkMchDriver pb.name (sfbOf a pb) s)] := by
    rw [allPairsD_filter_at a pb _ hpb hnn hq]
    unfold boneDrvPairs
    rw [if_pos hcond, hmch]
    exact bonePairsD_filter_mch _ pb.name (sfbOf a pb) s hs (sfbOf_nodup a pb)
  have hrev : (allPairsD a).reverse.find?
      (fun pr => pr.1 = influencePath pb.name ("CRS_MCH_" ++ s)) =
      some (influencePath pb.name ("CRS_MCH_" ++ s),
        mkMchDriver pb.name (sfbOf a pb) s) :=
    reverse_find?_of_filter_eq _ _ _ hfilter
  have hfkeval : DExpr.eval (fun j => σ ((sfbOf a pb).getD j ""))
      (mkFkDriver pb.name (sfbOf a pb) s).expr =
      (if ((sfbOf a pb).take ((sfbOf a pb).indexOf s)).all
          (fun t => decide (σ t = 0)) then σ s else 0) :=
    fk_expr_eval (sfbOf a pb) s σ hs
  have hsingle : sfbOf a pb = [s] →
      (σ s = 0 →
        DExpr.eval (fun j => σ ((sfbOf a pb).getD j ""))
          (mkFkDriver pb.name (sfbOf a pb) s).expr = 0 ∧
        DExpr.eval (fun j => σ ((sfbOf a pb).getD j ""))
          (mkMchDriver pb.name (sfbOf a pb) s).expr = 1) ∧
      (σ s = 1 →
        DExpr.eval (fun j => σ ((sfbOf a pb).getD j ""))
          (mkFkDriver pb.name (sfbOf a pb) s).expr = 1 ∧
        DExpr.eval (fun j => σ ((sfbOf a pb).getD j ""))
          (mkMchDriver pb.name (sfbOf a pb) s).expr = 0) := by
    intro h1
    have hfk2 : DExpr.eval (fun j => σ ((sfbOf a pb).getD j ""))
        (mkFkDriver pb.name (sfbOf a pb) s).expr = σ s := by
      rw [hfkeval, h1]
      have hidx : List.indexOf s [s] = 0 := by
        have hlt2 : List.indexOf s [s] < ([s] : List String).length :=
          List.indexOf_lt_length.mpr (List.mem_singleton.mpr rfl)
        rw [List.length_singleton] at hlt2
        omega
      rw [hidx]
      rfl
    have hmch2 : DExpr.eval (fun j => σ ((sfbOf a pb).getD j ""))
        (mkMchDriver pb.name (sfbOf a pb) s).expr =
        1 - σ s := by
      show 1 - DExpr.eval (fun j => σ ((sfbOf a pb).getD j ""))
        (mkSelExpr ((sfbOf a pb).indexOf s)) = 1 - σ s
      rw [show DExpr.eval (fun j => σ ((sfbOf a pb).getD j ""))
        (mkSelExpr ((sfbOf a pb).indexOf s)) = σ s from hfk2]
    constructor
    · intro h0
      rw [hfk2, hmch2, h0]
      norm_num
    · intro h0
      rw [hfk2, hmch2, h0]
      norm_num
  obtain ⟨_, _, had, _⟩ := build_char a
  cases hadv : a.animationData with
  | some ds0 =>
    refine ⟨applyDrvL ds0 (allPairsD a), ?_, ?_, rfl, fun v => rfl, hsingle⟩
    · rw [had, hadv, applyDrv_some]
    · rw [applyDrvL_filter_path _ (allPairsD a) ds0 (allPairsD_paths a), hrev]
  | none =>
    cases hP : allPairsD a with
    | nil =>
      rw [hP] at hfilter
      simp at hfilter
    | cons pr rest =>
      refine ⟨applyDrvL [] (pr :: rest), ?_, ?_, rfl, fun v => rfl, hsingle⟩
      · rw [had, hadv, hP, applyDrv_none_cons]
      · rw [← hP,
          applyDrvL_filter_path _ (allPairsD a) [] (allPairsD_paths a), hrev]

theorem mch_driver_inversion_witness :
    ∃ ds, (build_rebuild_switches c1Arm).1.animationData = some ds ∧
      ds.filter (fun d => d.dataPath =
          influencePath c1DefBone.name ("CRS_MCH_" ++ "A")) =
        [mkMchDriver c1DefBone.name (sfbOf c1Arm c1DefBone) "A"] ∧
      (mkMchDriver c1DefBone.name (sfbOf c1Arm c1DefBone) "A").expr =
        DExpr.inv (mkFkDriver c1DefBone.name (sfbOf c1Arm c1DefBone) "A").expr ∧
      (∀ v : Nat → ℚ,
        DExpr.eval v (mkMchDriver c1DefBone.name
            (sfbOf c1Arm c1DefBone) "A").expr =
          1 - DExpr.eval v (mkFkDriver c1DefBone.name
            (sfbOf c1Arm c1DefBone) "A").expr) ∧
      (sfbOf c1Arm c1DefBone = ["A"] →
        (zeroSwitchVals "A" = 0 →
          DExpr.eval (fun j => zeroSwitchVals
              ((sfbOf c1Arm c1DefBone).getD j ""))
            (mkFkDriver c1DefBone.name (sfbOf c1Arm c1DefBone) "A").expr = 0 ∧
          DExpr.eval (fun j => zeroSwitchVals
              ((sfbOf c1Arm c1DefBone).getD j ""))
            (mkMchDriver c1DefBone.name (sfbOf c1Arm c1DefBone) "A").expr = 1) ∧
        (zeroSwitchVals "A" = 1 →
          DExpr.eval (fun j => zeroSwitchVals
              ((sfbOf c1Arm c1DefBone).getD j ""))
            (mkFkDriver c1DefBone.name (sfbOf c1Arm c1DefBone) "A").expr = 1 ∧
          DExpr.eval (fun j => zeroSwitchVals
              ((sfbOf c1Arm c1DefBone).getD j ""))
            (mkMchDriver c1DefBone.name
              (sfbOf c1Arm c1DefBone) "A").expr = 0)) :=
  mch_driver_inversion c1Arm c1DefBone "A" zeroSwitchVals (by decide)
    (by decide) (by decide) (by decide) (by decide) (by decide)

end ControlRigTools
